import Mathlib

/-!
Shallow embedding of the symslice core: the microcode encoder (ir.rs) and
the symbolic executor with its symbolic memories (sym.rs), together with
proofs settling the frozen claims about them.
-/

namespace Slice

/-- The four data type widths (num::DataType). -/
inductive DataType where
  | n8 | n16 | n32 | n64
deriving DecidableEq, Repr

/-- Byte count of a data type (DataType::bytes). -/
def DataType.bytes : DataType → Nat
  | .n8 => 1
  | .n16 => 2
  | .n32 => 4
  | .n64 => 8

/-- An integer value carrying its width (num::Integer): a (width, u64 pattern) pair. -/
structure Integer where
  dt : DataType
  val : Nat
deriving DecidableEq, Repr

/-- The u64 bit pattern of a signed 64-bit integer (Rust: x as u64). -/
def u64ofInt (z : Int) : Nat := (z % (2 ^ 64 : Int)).toNat

/-- The i64 value of a u64 bit pattern (Rust: x as i64). -/
def i64ofU64 (n : Nat) : Int :=
  if n % 2 ^ 64 < 2 ^ 63 then (n % 2 ^ 64 : Int) else (n % 2 ^ 64 : Int) - 2 ^ 64

/-- A temporary: a (width, index) pair (ir::Temporary). -/
structure Temporary where
  dt : DataType
  idx : Nat
deriving DecidableEq, Repr

/-- The registers of the machine (amd64::Register). -/
inductive Register where
  | AL | AX | EAX | RAX
  | CL | CX | ECX | RCX
  | DL | DX | EDX | RDX
  | BL | BX | EBX | RBX
  | AH | SP | ESP | RSP
  | CH | BP | EBP | RBP
  | DH | SI | ESI | RSI
  | BH | DI | EDI | RDI
  | R8 | R9 | R10 | R11 | R12 | R13 | R14 | R15
  | IP | EIP | RIP
deriving DecidableEq, Repr

/-- Address of a register in the register memory space (ir.rs, impl MemoryMapped for Register). -/
def Register.address : Register → Nat
  | .AL | .AX | .EAX | .RAX => 0x00
  | .CL | .CX | .ECX | .RCX => 0x08
  | .DL | .DX | .EDX | .RDX => 0x10
  | .BL | .BX | .EBX | .RBX => 0x18
  | .AH | .SP | .ESP | .RSP => 0x20
  | .CH | .BP | .EBP | .RBP => 0x28
  | .DH | .SI | .ESI | .RSI => 0x30
  | .BH | .DI | .EDI | .RDI => 0x38
  | .R8  => 0x40
  | .R9  => 0x48
  | .R10 => 0x50
  | .R11 => 0x58
  | .R12 => 0x60
  | .R13 => 0x68
  | .R14 => 0x70
  | .R15 => 0x78
  | .IP | .EIP | .RIP => 0x80

/-- Modelled from the spec: the natural width of each register
(amd64::Register::data_type is not under src/; the spec fixes the width as the
register's natural width, with subregisters keeping their own reduced width). -/
def Register.dataType : Register → DataType
  | .AL | .CL | .DL | .BL | .AH | .CH | .DH | .BH => .n8
  | .AX | .CX | .DX | .BX | .SP | .BP | .SI | .DI | .IP => .n16
  | .EAX | .ECX | .EDX | .EBX | .ESP | .EBP | .ESI | .EDI | .EIP => .n32
  | _ => .n64

/-- A strongly typed target for moves (ir::Location). -/
inductive Location where
  | temp (t : Temporary)
  | direct (dt : DataType) (space : Nat) (addr : Nat)
  | indirect (dt : DataType) (space : Nat) (t : Temporary)
deriving DecidableEq, Repr

/-- Underlying data type of values at the location (Location::data_type). -/
def Location.dataType : Location → DataType
  | .temp t => t.dt
  | .direct dt _ _ => dt
  | .indirect dt _ _ => dt

/-- Comparison types for conditions (ir::Comparison). -/
inductive Comparison where
  | add (a b : Temporary)
  | sub (a b : Temporary)
  | mul (a b : Temporary)
  | and (a b : Temporary)
deriving DecidableEq, Repr

/-- Condition for jumps and sets (ir::Condition). -/
inductive Condition where
  | cTrue
  | equal (c : Comparison)
  | greater (c : Comparison)
  | less (c : Comparison)
deriving DecidableEq, Repr

/-- One atomic micro operation (ir::MicroOperation). -/
inductive MicroOperation where
  | mov (dest src : Location)
  | const (dest : Location) (constant : Integer)
  | cast (target : Temporary) (new : DataType) (signed : Bool)
  | add (sum a b : Temporary)
  | sub (diff a b : Temporary)
  | mul (prod a b : Temporary)
  | and (and_ a b : Temporary)
  | or (or_ a b : Temporary)
  | not (not_ a : Temporary)
  | set (target : Temporary) (condition : Condition)
  | jump (target : Temporary) (condition : Condition) (relative : Bool)
  | syscall
deriving DecidableEq, Repr

/-- Whether this micro operation diverges the control flow (MicroOperation::diverges). -/
def MicroOperation.diverges : MicroOperation → Bool
  | .jump _ _ _ => true
  | _ => false

/-- Machine operands consumed from the decoder (amd64::Operand, shapes per the spec). -/
inductive Operand where
  | direct (r : Register)
  | indirect (dt : DataType) (r : Register)
  | indirectDisplaced (dt : DataType) (r : Register) (displace : Int)
  | immediate (dt : DataType) (value : Nat)
  | offset (o : Int)
deriving DecidableEq, Repr

/-- The intrinsic data type of the location an operand resolves to. -/
def Operand.dataType : Operand → DataType
  | .direct r => r.dataType
  | .indirect dt _ => dt
  | .indirectDisplaced dt _ _ => dt
  | .immediate dt _ => dt
  | .offset _ => .n64

/-- The lifted mnemonics (amd64::Mnemoic). -/
inductive Mnemoic where
  | Add | Sub | Imul | Mov | Movzx | Lea | Push | Pop
  | Jmp | Je | Jg | Call | Leave | Ret | Cmp | Test | Setl
  | Syscall | Nop
deriving DecidableEq, Repr

/-- A decoded instruction: mnemonic plus operands (amd64::Instruction). -/
structure Instruction where
  mnemoic : Mnemoic
  operands : List Operand
deriving DecidableEq, Repr

/-- Microcode: an ordered sequence of micro operations (ir::Microcode). -/
structure Microcode where
  ops : List MicroOperation
deriving DecidableEq, Repr

/-- The microcode encoder state (ir::MicroEncoder): operation buffer,
temporary counter and last flag-producing comparison. -/
structure MicroEncoder where
  ops : List MicroOperation
  temps : Nat
  lastComparison : Option Comparison
deriving DecidableEq, Repr

/-- Create a new encoder (MicroEncoder::new). -/
def MicroEncoder.new : MicroEncoder := ⟨[], 0, none⟩

/-- Clear the operations but keep the context (MicroEncoder::finish). -/
def MicroEncoder.finish (e : MicroEncoder) : Microcode × MicroEncoder :=
  (⟨e.ops⟩, { e with ops := [] })

/-- Result of an encoder routine: success, a recoverable EncodeError, or a panic. -/
inductive EncResult (α : Type) where
  | ok (a : α)
  | err (msg : String)
  | fatal (msg : String)
deriving DecidableEq, Repr

/-- A Rust .unwrap() on an encode result: an EncodeError becomes a panic. -/
def EncResult.unwrap : EncResult MicroEncoder → EncResult MicroEncoder
  | .ok e => .ok e
  | .err m => .fatal m
  | .fatal m => .fatal m

/-- Indexing inst.operands panics when out of bounds. -/
def Instruction.getOperand (inst : Instruction) (i : Nat) : EncResult Operand :=
  match inst.operands.get? i with
  | some o => .ok o
  | none => .fatal "operand index out of bounds"

/-- Load a register from memory into a temporary (MicroEncoder::encode_load_reg). -/
def MicroEncoder.encodeLoadReg (e : MicroEncoder) (r : Register) : MicroEncoder × Temporary :=
  let dt := r.dataType
  let temp : Temporary := ⟨dt, e.temps⟩
  let src : Location := .direct dt 1 r.address
  ({ e with ops := e.ops ++ [.mov (.temp temp) src], temps := e.temps + 1 }, temp)

/-- Load a constant into a temporary (MicroEncoder::encode_load_constant). -/
def MicroEncoder.encodeLoadConstant (e : MicroEncoder) (dt : DataType) (c : Nat) :
    MicroEncoder × Temporary :=
  let temp : Temporary := ⟨dt, e.temps⟩
  ({ e with ops := e.ops ++ [.const (.temp temp) ⟨dt, c⟩], temps := e.temps + 1 }, temp)

/-- Prepare the location of an operand without loading it
(MicroEncoder::encode_get_location). -/
def MicroEncoder.encodeGetLocation (e : MicroEncoder) (o : Operand) :
    MicroEncoder × Location :=
  match o with
  | .direct r => (e, .direct r.dataType 1 r.address)
  | .indirect dt r =>
      let (e1, reg) := e.encodeLoadReg r
      (e1, .indirect dt 0 reg)
  | .indirectDisplaced dt r displace =>
      let (e1, reg) := e.encodeLoadReg r
      let constant : Temporary := ⟨.n64, e1.temps⟩
      let sum : Temporary := ⟨.n64, e1.temps + 1⟩
      let e2 := { e1 with
        ops := e1.ops ++ [.const (.temp constant) ⟨.n64, u64ofInt displace⟩,
                          .add sum reg constant],
        temps := e1.temps + 2 }
      (e2, .indirect dt 0 sum)
  | .immediate dt value =>
      let (e1, t) := e.encodeLoadConstant dt value
      (e1, .temp t)
  | .offset o =>
      let (e1, t) := e.encodeLoadConstant .n64 (u64ofInt o)
      (e1, .temp t)

/-- Load the operand into a temporary (MicroEncoder::encode_load_operand). -/
def MicroEncoder.encodeLoadOperand (e : MicroEncoder) (o : Operand) :
    MicroEncoder × (Location × Temporary) :=
  let (e1, location) := e.encodeGetLocation o
  match location with
  | .temp t => (e1, (location, t))
  | _ =>
      let temp : Temporary := ⟨location.dataType, e1.temps⟩
      ({ e1 with ops := e1.ops ++ [.mov (.temp temp) location], temps := e1.temps + 1 },
       (location, temp))

/-- Encode a move with check for matching data types (MicroEncoder::encode_move). -/
def MicroEncoder.encodeMove (e : MicroEncoder) (dest src : Location) :
    EncResult MicroEncoder :=
  if src.dataType ≠ dest.dataType then
    .err "incompatible data types for move"
  else
    .ok { e with ops := e.ops ++ [.mov dest src] }

/-- Get the condition for the last set of flags (MicroEncoder::get_comparison). -/
def MicroEncoder.getComparison (e : MicroEncoder) : EncResult Comparison :=
  match e.lastComparison with
  | some c => .ok c
  | none => .fatal "jump or set without previous comparison"

/-- Load both operands into temporaries, casting the right one to the left
operand's type if they disagree (MicroEncoder::encode_load_both). -/
def MicroEncoder.encodeLoadBoth (e : MicroEncoder) (inst : Instruction) :
    EncResult (MicroEncoder × ((Location × Temporary) × (Location × Temporary))) :=
  match inst.getOperand 0 with
  | .ok o0 =>
    match inst.getOperand 1 with
    | .ok o1 =>
        let (e1, p0) := e.encodeLoadOperand o0
        let (e2, p1) := e1.encodeLoadOperand o1
        let left := p0.2
        let right := p1.2
        if left.dt = right.dt then
          .ok (e2, ((p0.1, left), (p1.1, right)))
        else
          let e3 := { e2 with ops := e2.ops ++ [MicroOperation.cast right left.dt true] }
          .ok (e3, ((p0.1, left), (p1.1, { right with dt := left.dt })))
    | .err m => .err m
    | .fatal m => .fatal m
  | .err m => .err m
  | .fatal m => .fatal m

/-- Encode a binary operation like add or subtract (MicroEncoder::encode_binop). -/
def MicroEncoder.encodeBinop (e : MicroEncoder) (inst : Instruction)
    (binop : Temporary → Temporary → Temporary → MicroOperation) :
    EncResult (MicroEncoder × (Temporary × Temporary)) :=
  match e.encodeLoadBoth inst with
  | .ok (e1, ((dest, left), (_, right))) =>
      let target : Temporary := ⟨left.dt, e1.temps⟩
      let e2 := { e1 with
        ops := e1.ops ++ [binop target left right, .mov dest (.temp target)],
        temps := e1.temps + 1 }
      .ok (e2, (left, right))
  | .err m => .err m
  | .fatal m => .fatal m

/-- Encode a relative jump (MicroEncoder::encode_jump). -/
def MicroEncoder.encodeJump (e : MicroEncoder) (operand : Operand)
    (condition : Condition) : EncResult MicroEncoder :=
  match operand with
  | .offset o =>
      let target : Temporary := ⟨.n64, e.temps⟩
      .ok { e with
        ops := e.ops ++ [.const (.temp target) ⟨.n64, u64ofInt o⟩,
                         .jump target condition true],
        temps := e.temps + 1 }
  | _ => .fatal "invalid operand for jump"

/-- Encode a set instruction (MicroEncoder::encode_set). -/
def MicroEncoder.encodeSet (e : MicroEncoder) (operand : Operand)
    (condition : Condition) : EncResult MicroEncoder :=
  let (e1, location) := e.encodeGetLocation operand
  let temp : Temporary := ⟨location.dataType, e1.temps⟩
  let e2 := { e1 with
    temps := e1.temps + 1,
    ops := e1.ops ++ [MicroOperation.set temp condition] }
  (e2.encodeMove location (.temp temp)).unwrap

/-- Push a value onto the stack (MicroEncoder::encode_push). -/
def MicroEncoder.encodePush (e : MicroEncoder) (src : Location) :
    EncResult MicroEncoder :=
  let (e1, p) := e.encodeLoadOperand (.direct .RSP)
  let sp := p.1
  let stack := p.2
  let dt := src.dataType
  let offset : Temporary := ⟨.n64, e1.temps⟩
  let e2 := { e1 with
    ops := e1.ops ++ [MicroOperation.const (.temp offset) ⟨.n64, dt.bytes⟩,
                      MicroOperation.sub stack stack offset],
    temps := e1.temps + 1 }
  match (e2.encodeMove (.indirect dt 0 stack) src).unwrap with
  | .ok e3 => (e3.encodeMove sp (.temp stack)).unwrap
  | .err m => .err m
  | .fatal m => .fatal m

/-- Pop a value from the stack (MicroEncoder::encode_pop). -/
def MicroEncoder.encodePop (e : MicroEncoder) (dest : Location) :
    EncResult MicroEncoder :=
  let (e1, p) := e.encodeLoadOperand (.direct .RSP)
  let sp := p.1
  let stack := p.2
  let dt := dest.dataType
  match (e1.encodeMove dest (.indirect dt 0 stack)).unwrap with
  | .ok e2 =>
      let offset : Temporary := ⟨.n64, e2.temps⟩
      let e3 := { e2 with
        ops := e2.ops ++ [MicroOperation.const (.temp offset) ⟨.n64, dt.bytes⟩,
                          MicroOperation.add stack stack offset],
        temps := e2.temps + 1 }
      (e3.encodeMove sp (.temp stack)).unwrap
  | .err m => .err m
  | .fatal m => .fatal m

/-- Encode moving with a cast to the destination type
(MicroEncoder::encode_move_casted). -/
def MicroEncoder.encodeMoveCasted (e : MicroEncoder) (inst : Instruction)
    (signed : Bool) : EncResult MicroEncoder :=
  match inst.getOperand 0 with
  | .ok o0 =>
    match inst.getOperand 1 with
    | .ok o1 =>
        let (e1, dest) := e.encodeGetLocation o0
        let (e2, p) := e1.encodeLoadOperand o1
        let temp := p.2
        let new := dest.dataType
        let e3 := { e2 with ops := e2.ops ++ [MicroOperation.cast temp new signed] }
        (e3.encodeMove dest (Location.temp { temp with dt := new })).unwrap
    | .err m => .err m
    | .fatal m => .fatal m
  | .err m => .err m
  | .fatal m => .fatal m

/-- Encode one instruction into microcode (MicroEncoder::encode). -/
def MicroEncoder.encode (e : MicroEncoder) (inst : Instruction) :
    EncResult MicroEncoder :=
  match inst.mnemoic with
  | .Add =>
      match e.encodeBinop inst (fun sum a b => .add sum a b) with
      | .ok (e1, (left, right)) =>
          .ok { e1 with lastComparison := some (.add left right) }
      | .err m => .err m
      | .fatal m => .fatal m
  | .Sub =>
      match e.encodeBinop inst (fun diff a b => .sub diff a b) with
      | .ok (e1, (left, right)) =>
          .ok { e1 with lastComparison := some (.sub left right) }
      | .err m => .err m
      | .fatal m => .fatal m
  | .Imul =>
      match e.encodeBinop inst (fun prod a b => .mul prod a b) with
      | .ok (e1, (left, right)) =>
          .ok { e1 with lastComparison := some (.mul left right) }
      | .err m => .err m
      | .fatal m => .fatal m
  | .Mov =>
      match inst.getOperand 0 with
      | .ok o0 =>
        match inst.getOperand 1 with
        | .ok o1 =>
            let (e1, dest) := e.encodeGetLocation o0
            let (e2, src) := e1.encodeGetLocation o1
            if dest.dataType ≠ src.dataType then
              ({ e2 with ops := [], temps := 0 }).encodeMoveCasted inst true
            else
              e2.encodeMove dest src
        | .err m => .err m
        | .fatal m => .fatal m
      | .err m => .err m
      | .fatal m => .fatal m
  | .Movzx => e.encodeMoveCasted inst false
  | .Lea =>
      match inst.getOperand 0 with
      | .ok o0 =>
        match inst.getOperand 1 with
        | .ok o1 =>
            let (e1, dest) := e.encodeGetLocation o0
            let (e2, src) := e1.encodeGetLocation o1
            match src with
            | .indirect _ _ temp => e2.encodeMove dest (.temp temp)
            | _ => .fatal "invalid source for lea"
        | .err m => .err m
        | .fatal m => .fatal m
      | .err m => .err m
      | .fatal m => .fatal m
  | .Push =>
      match inst.getOperand 0 with
      | .ok o0 =>
          let (e1, src) := e.encodeGetLocation o0
          e1.encodePush src
      | .err m => .err m
      | .fatal m => .fatal m
  | .Pop =>
      match inst.getOperand 0 with
      | .ok o0 =>
          let (e1, dest) := e.encodeGetLocation o0
          e1.encodePop dest
      | .err m => .err m
      | .fatal m => .fatal m
  | .Jmp =>
      match inst.getOperand 0 with
      | .ok o0 => e.encodeJump o0 .cTrue
      | .err m => .err m
      | .fatal m => .fatal m
  | .Je =>
      match inst.getOperand 0 with
      | .ok o0 =>
        match e.getComparison with
        | .ok c => e.encodeJump o0 (.equal c)
        | .err m => .err m
        | .fatal m => .fatal m
      | .err m => .err m
      | .fatal m => .fatal m
  | .Jg =>
      match inst.getOperand 0 with
      | .ok o0 =>
        match e.getComparison with
        | .ok c => e.encodeJump o0 (.greater c)
        | .err m => .err m
        | .fatal m => .fatal m
      | .err m => .err m
      | .fatal m => .fatal m
  | .Call =>
      let (e1, rip) := e.encodeGetLocation (.direct .RIP)
      match e1.encodePush rip with
      | .ok e2 =>
        match inst.getOperand 0 with
        | .ok o0 => e2.encodeJump o0 .cTrue
        | .err m => .err m
        | .fatal m => .fatal m
      | .err m => .err m
      | .fatal m => .fatal m
  | .Leave =>
      let (e1, rbp) := e.encodeGetLocation (.direct .RBP)
      let (e2, rsp) := e1.encodeGetLocation (.direct .RSP)
      match (e2.encodeMove rsp rbp).unwrap with
      | .ok e3 => e3.encodePop rbp
      | .err m => .err m
      | .fatal m => .fatal m
  | .Ret =>
      let target : Temporary := ⟨.n64, e.temps⟩
      let e1 := { e with temps := e.temps + 1 }
      match e1.encodePop (.temp target) with
      | .ok e2 => .ok { e2 with ops := e2.ops ++ [.jump target .cTrue false] }
      | .err m => .err m
      | .fatal m => .fatal m
  | .Cmp =>
      match e.encodeLoadBoth inst with
      | .ok (e1, ((_, left), (_, right))) =>
          .ok { e1 with lastComparison := some (.sub left right) }
      | .err m => .err m
      | .fatal m => .fatal m
  | .Test =>
      match e.encodeLoadBoth inst with
      | .ok (e1, ((_, left), (_, right))) =>
          .ok { e1 with lastComparison := some (.and left right) }
      | .err m => .err m
      | .fatal m => .fatal m
  | .Setl =>
      match inst.getOperand 0 with
      | .ok o0 =>
        match e.getComparison with
        | .ok c => e.encodeSet o0 (.less c)
        | .err m => .err m
        | .fatal m => .fatal m
      | .err m => .err m
      | .fatal m => .fatal m
  | .Syscall => .ok { e with ops := e.ops ++ [.syscall] }
  | .Nop => .ok e

/-! ## The symbolic expression algebra (math crate, opaque collaborator) -/

/-- A symbol: (width, namespace, index) (math::Symbol). -/
structure Symbol where
  dt : DataType
  ns : String
  idx : Nat
deriving DecidableEq, Repr

mutual

/-- Modelled from the spec: the opaque symbolic expression algebra
(math::SymExpr is not under src/). Expressions are syntax trees with
structural equality, carrying Int and Sym leaves, arithmetic and bitwise
combinators, a cast, an if-then-else guarded by a condition, and the 0/1
rendering of a condition at a width; each expression carries a width. -/
inductive SymExpr where
  | int (i : Integer)
  | sym (s : Symbol)
  | add (a b : SymExpr)
  | sub (a b : SymExpr)
  | mul (a b : SymExpr)
  | bitand (a b : SymExpr)
  | bitor (a b : SymExpr)
  | bitnot (a : SymExpr)
  | cast (new : DataType) (signed : Bool) (a : SymExpr)
  | iteExpr (c : SymCondition) (t e : SymExpr)
  | ofCond (dt : DataType) (c : SymCondition)
deriving DecidableEq, Repr

/-- Modelled from the spec: symbolic conditions (math::SymCondition is not
under src/), with the TRUE constant and an equality combinator on expressions. -/
inductive SymCondition where
  | tru
  | equal (a b : SymExpr)
deriving DecidableEq, Repr

end

/-- Width carried by an expression (math::SymExpr::data_type; spec: every
expression carries a width, combinators keep the left operand's). -/
def SymExpr.dataType : SymExpr → DataType
  | .int i => i.dt
  | .sym s => s.dt
  | .add a _ => a.dataType
  | .sub a _ => a.dataType
  | .mul a _ => a.dataType
  | .bitand a _ => a.dataType
  | .bitor a _ => a.dataType
  | .bitnot a => a.dataType
  | .cast new _ _ => new
  | .iteExpr _ t _ => t.dataType
  | .ofCond dt _ => dt

/-- A pointer-width constant (SymExpr::from_ptr). -/
def SymExpr.fromPtr (addr : Nat) : SymExpr := .int ⟨.n64, addr⟩

/-- The condition to 0/1 expression conversion (SymCondition::as_expr). -/
def SymCondition.asExpr (c : SymCondition) (dt : DataType) : SymExpr := .ofCond dt c

/-- The if-then-else combinator (SymCondition::if_then_else). -/
def SymCondition.ifThenElse (c : SymCondition) (t e : SymExpr) : SymExpr := .iteExpr c t e

/-- The external SMT solver capability: satisfiability of an address equality
and condition simplification, consumed as pure functions. -/
structure Solver where
  checkEqualSat : SymExpr → SymExpr → Bool
  simplifyCondition : SymCondition → SymCondition

/-! ## Symbolic memory (sym.rs) -/

/-- A piece of data written to memory (sym::MemoryEntry). -/
structure MemoryEntry where
  addr : SymExpr
  value : SymExpr
  epoch : Nat
deriving DecidableEq, Repr

/-- The actual memory data (sym::MemoryData): namespace tag, ordered entries,
default-symbol counter and epoch counter. -/
structure MemoryData where
  name : String
  entries : List MemoryEntry
  symbols : Nat
  epoch : Nat
deriving DecidableEq, Repr

/-- How the memory handles complex symbolic queries (sym::MemoryStrategy). -/
inductive MemoryStrategy where
  | ConditionalTrees
  | PerfectMatches
deriving DecidableEq, Repr

/-- Symbolic memory (sym::SymMemory): the data plus the matching strategy.
The shared solver handle is passed to reads explicitly. -/
structure SymMemory where
  data : MemoryData
  strategy : MemoryStrategy
deriving Repr

/-- Create a new blank symbolic memory (SymMemory::new): epoch counter starts at 1. -/
def SymMemory.new (name : String) (strategy : MemoryStrategy) : SymMemory :=
  { data := { name := name, entries := [], symbols := 0, epoch := 1 }, strategy := strategy }

/-- The value of the next default symbol (MemoryData::get_default_value). -/
def MemoryData.getDefaultValue (d : MemoryData) (dt : DataType) : SymExpr :=
  .sym ⟨dt, d.name, d.symbols⟩

/-- Generate a default symbol for uninitialized memory
(MemoryData::generate_default_symbol): memoized as a zero-epoch entry. -/
def MemoryData.generateDefaultSymbol (d : MemoryData) (addr : SymExpr) (dt : DataType) :
    SymExpr × MemoryData :=
  let value := d.getDefaultValue dt
  (value, { d with entries := d.entries ++ [⟨addr, value, 0⟩], symbols := d.symbols + 1 })

/-- Overwrite the first entry with a syntactically equal address, if any
(the loop inside SymMemory::write_expr). -/
def writeEntries (entries : List MemoryEntry) (new : MemoryEntry) :
    Option (List MemoryEntry) :=
  match entries with
  | [] => none
  | e :: rest =>
      if e.addr = new.addr then some (new :: rest)
      else (writeEntries rest new).map (e :: ·)

/-- Write a value to a symbolic address (SymMemory::write_expr): overwrite the
syntactically matching entry in place, else append and bump the epoch counter. -/
def MemoryData.writeExpr (d : MemoryData) (addr value : SymExpr) : MemoryData :=
  match writeEntries d.entries ⟨addr, value, d.epoch⟩ with
  | some es => { d with entries := es }
  | none => { d with epoch := d.epoch + 1, entries := d.entries ++ [⟨addr, value, d.epoch⟩] }

/-- The per-entry classification performed by the ConditionalTrees read:
syntactic equality gives a perfect match with condition TRUE; otherwise a
solver-satisfiable equality contributes its simplified symbolic condition. -/
def conditionMap (solver : Solver) (entries : List MemoryEntry) (addr : SymExpr) :
    List (SymCondition × MemoryEntry) :=
  entries.filterMap (fun entry =>
    if entry.addr = addr then some (.tru, entry)
    else if solver.checkEqualSat entry.addr addr then
      some (solver.simplifyCondition (.equal entry.addr addr), entry)
    else none)

/-- Stable insertion of a candidate into a list sorted by epoch descending. -/
def insertEpochDesc (x : SymCondition × MemoryEntry) :
    List (SymCondition × MemoryEntry) → List (SymCondition × MemoryEntry)
  | [] => [x]
  | y :: ys => if y.2.epoch ≤ x.2.epoch then x :: y :: ys else y :: insertEpochDesc x ys

/-- The stable sort by epoch descending performed by the ConditionalTrees read
(Rust sort_by_key with Reverse(epoch); Rust's sort is stable, and a stable sort
by a key is unique, so stable insertion sort computes the same list). -/
def sortEpochDesc : List (SymCondition × MemoryEntry) → List (SymCondition × MemoryEntry)
  | [] => []
  | x :: xs => insertEpochDesc x (sortEpochDesc xs)

/-- The scan from newest to oldest: return the candidates before the first
perfect match (the truncated condition map) and the perfect match's value. -/
def scanPerfect : List (SymCondition × MemoryEntry) →
    List (SymCondition × MemoryEntry) × Option SymExpr
  | [] => ([], none)
  | (c, entry) :: rest =>
      if c = SymCondition.tru then ([], some entry.value)
      else ((c, entry) :: (scanPerfect rest).1, (scanPerfect rest).2)

/-- Build the if-then-else tree bottom-up over the kept candidates. -/
def buildTree (kept : List (SymCondition × MemoryEntry)) (base : SymExpr) : SymExpr :=
  kept.foldr (fun p tree => p.1.ifThenElse p.2.value tree) base

/-- The final width coercion of a read (unsigned cast if widths disagree). -/
def castIfNeeded (e : SymExpr) (dt : DataType) : SymExpr :=
  if e.dataType = dt then e else e.cast dt false

/-- One step of the newest perfect match scan: take the entry when it matches
syntactically and is newer than the current candidate. -/
def newestMatchStep (addr : SymExpr) (acc : Option (SymExpr × Nat))
    (entry : MemoryEntry) : Option (SymExpr × Nat) :=
  if entry.addr = addr ∧ (∀ p ∈ acc.toList, p.2 < entry.epoch) then
    some (entry.value, entry.epoch)
  else acc

/-- The newest perfect match scan of the PerfectMatches strategy. -/
def newestMatch (entries : List MemoryEntry) (addr : SymExpr) :
    Option (SymExpr × Nat) :=
  entries.foldl (newestMatchStep addr) none

/-- Read from a symbolic address (SymMemory::read_expr). Returns the resulting
expression and the memory data afterwards (reads memoize default symbols). -/
def MemoryData.readExpr (solver : Solver) (strategy : MemoryStrategy)
    (d : MemoryData) (addr : SymExpr) (dt : DataType) : SymExpr × MemoryData :=
  match strategy with
  | .ConditionalTrees =>
      match scanPerfect (sortEpochDesc (conditionMap solver d.entries addr)) with
      | (kept, some value) => (castIfNeeded (buildTree kept value) dt, d)
      | (kept, none) =>
          (castIfNeeded (buildTree kept (d.getDefaultValue dt)) dt,
           (d.generateDefaultSymbol addr dt).2)
  | .PerfectMatches =>
      match newestMatch d.entries addr with
      | some (value, _) => (castIfNeeded value dt, d)
      | none =>
          (castIfNeeded (d.generateDefaultSymbol addr dt).1 dt,
           (d.generateDefaultSymbol addr dt).2)

/-- Read from a direct address (SymMemory::read_direct). -/
def MemoryData.readDirect (solver : Solver) (strategy : MemoryStrategy)
    (d : MemoryData) (addr : Nat) (dt : DataType) : SymExpr × MemoryData :=
  d.readExpr solver strategy (.fromPtr addr) dt

/-- Write to a direct address (SymMemory::write_direct). -/
def MemoryData.writeDirect (d : MemoryData) (addr : Nat) (value : SymExpr) : MemoryData :=
  d.writeExpr (.fromPtr addr) value

/-! ## Symbolic state and the executor step (sym.rs) -/

/-- Modelled from the spec: flow::StorageLocation (the flow crate is not under
src/): either a direct register reference or an indirect reference
(width, base register, optional scaled index, optional displacement). -/
inductive StorageLocation where
  | direct (r : Register)
  | indirect (dataType : DataType) (base : Register)
      (scaledOffset : Option (Register × Nat)) (displacement : Option Int)
deriving DecidableEq, Repr

/-- Modelled from the spec: flow::AbstractLocation: instruction address, call
trace and storage form where a symbol could be observed concretely. -/
structure AbstractLocation where
  addr : Nat
  trace : List Nat
  storage : StorageLocation
deriving DecidableEq, Repr

/-- A typed symbolic memory access (sym::TypedMemoryAccess). -/
structure TypedMemoryAccess where
  addrExpr : SymExpr
  dt : DataType
deriving DecidableEq, Repr

/-- Kinds of standard interfaces (sym::StdioKind). -/
inductive StdioKind where
  | Stdin
  | Stdout
deriving DecidableEq, Repr

/-- Events occuring during symbolic execution (sym::Event). -/
inductive Event where
  | jump (target : SymExpr) (condition : SymCondition) (relative : Bool)
  | stdio (kind : StdioKind) (locs : List (Symbol × TypedMemoryAccess))
  | exit
deriving DecidableEq, Repr

/-- The micro operation type as consumed by the symbolic executor. sym.rs is a
later revision than the ir.rs under src/: there Const writes a temporary and
Set and Jump carry full symbolic conditions (sym.rs calls set_temp on the Const
destination and evaluate_condition on a SymCondition). -/
inductive ExecOp where
  | mov (dest src : Location)
  | const (dest : Temporary) (constant : Integer)
  | cast (target : Temporary) (new : DataType) (signed : Bool)
  | add (sum a b : Temporary)
  | sub (diff a b : Temporary)
  | mul (prod a b : Temporary)
  | and (and_ a b : Temporary)
  | or (or_ a b : Temporary)
  | not (not_ a : Temporary)
  | set (target : Temporary) (condition : SymCondition)
  | jump (target : Temporary) (condition : SymCondition) (relative : Bool)
  | syscall
deriving DecidableEq, Repr

/-- Result of an executor routine: success or a panic. -/
inductive StepResult (α : Type) where
  | ok (a : α)
  | fatal (msg : String)
deriving DecidableEq, Repr

/-- The symbolic execution state (sym::SymState). The shared solver handle is
passed to the operations explicitly. -/
structure SymState where
  temporaries : Nat → Option SymExpr
  memMain : SymMemory
  memReg : SymMemory
  symbolMap : Symbol → Option AbstractLocation
  trace : List Nat
  ip : Nat
  stdinSymbols : Nat
  stdoutSymbols : Nat

/-- Create a blank symbolic state (SymState::new). -/
def SymState.new (memStrategy : MemoryStrategy) : SymState where
  temporaries := fun _ => none
  memMain := SymMemory.new "mem" memStrategy
  memReg := SymMemory.new "reg" .PerfectMatches
  symbolMap := fun _ => none
  trace := []
  ip := 0
  stdinSymbols := 0
  stdoutSymbols := 0

/-- Return the expression stored in the temporary (SymState::get_temp):
a missing index or an entry of the wrong width is a fatal assertion failure. -/
def SymState.getTemp (s : SymState) (temp : Temporary) : StepResult SymExpr :=
  match s.temporaries temp.idx with
  | none => .fatal "get_temp: missing temporary"
  | some expr =>
      if temp.dt = expr.dataType then .ok expr
      else .fatal "get_temp: incompatible data types"

/-- Set the temporary to a new value (SymState::set_temp): the map is keyed by
the index alone; the width tag must match the stored value's width. -/
def SymState.setTemp (s : SymState) (temp : Temporary) (value : SymExpr) :
    StepResult SymState :=
  if temp.dt = value.dataType then
    .ok { s with temporaries := fun j => if j = temp.idx then some value else s.temporaries j }
  else .fatal "set_temp: incompatible data types"

/-- Get a value from a register (SymState::get_reg): a read of the register
memory space, which may memoize a default symbol. -/
def SymState.getReg (solver : Solver) (s : SymState) (r : Register) :
    SymExpr × SymState :=
  let (v, d1) := s.memReg.data.readDirect solver s.memReg.strategy r.address r.dataType
  (v, { s with memReg := { s.memReg with data := d1 } })

/-- Set a register to a value (SymState::set_reg). -/
def SymState.setReg (s : SymState) (r : Register) (value : SymExpr) : SymState :=
  { s with memReg := { s.memReg with data := s.memReg.data.writeDirect r.address value } }

/-- Retrieve data from a location (SymState::read_location): indirect reads
assert a 64-bit address temporary; an unknown memory space is fatal. -/
def SymState.readLocation (solver : Solver) (s : SymState) (src : Location) :
    StepResult (SymExpr × SymState) :=
  match src with
  | .temp t =>
      match s.getTemp t with
      | .ok v => .ok (v, s)
      | .fatal m => .fatal m
  | .direct dt space addr =>
      if space = 0 then
        let (v, d1) := s.memMain.data.readDirect solver s.memMain.strategy addr dt
        .ok (v, { s with memMain := { s.memMain with data := d1 } })
      else if space = 1 then
        let (v, d1) := s.memReg.data.readDirect solver s.memReg.strategy addr dt
        .ok (v, { s with memReg := { s.memReg with data := d1 } })
      else .fatal "read_location: invalid memory space"
  | .indirect dt space t =>
      match s.getTemp t with
      | .ok addr =>
          if addr.dataType = .n64 then
            if space = 0 then
              let (v, d1) := s.memMain.data.readExpr solver s.memMain.strategy addr dt
              .ok (v, { s with memMain := { s.memMain with data := d1 } })
            else if space = 1 then
              let (v, d1) := s.memReg.data.readExpr solver s.memReg.strategy addr dt
              .ok (v, { s with memReg := { s.memReg with data := d1 } })
            else .fatal "read_location: invalid memory space"
          else .fatal "read_location: address has to be 64-bit"
      | .fatal m => .fatal m

/-- Write data to a location (SymState::write_location): the location and value
widths must agree; indirect writes assert a 64-bit address temporary. -/
def SymState.writeLocation (s : SymState) (dest : Location)
    (value : SymExpr) : StepResult SymState :=
  if dest.dataType = value.dataType then
    match dest with
    | .temp t => s.setTemp t value
    | .direct _ space addr =>
        if space = 0 then
          .ok { s with memMain := { s.memMain with data := s.memMain.data.writeDirect addr value } }
        else if space = 1 then
          .ok { s with memReg := { s.memReg with data := s.memReg.data.writeDirect addr value } }
        else .fatal "write_location: invalid memory space"
    | .indirect _ space t =>
        match s.getTemp t with
        | .ok addr =>
            if addr.dataType = .n64 then
              if space = 0 then
                .ok { s with memMain := { s.memMain with data := s.memMain.data.writeExpr addr value } }
              else if space = 1 then
                .ok { s with memReg := { s.memReg with data := s.memReg.data.writeExpr addr value } }
              else .fatal "write_location: invalid memory space"
            else .fatal "write_location: address has to be 64-bit"
        | .fatal m => .fatal m
  else .fatal "write_location: incompatible data types for write"

/-- Move a value from a location to another location (SymState::do_move). -/
def SymState.doMove (solver : Solver) (s : SymState) (dest src : Location) :
    StepResult SymState :=
  if dest.dataType = src.dataType then
    match s.readLocation solver src with
    | .ok (value, s1) => s1.writeLocation dest value
    | .fatal m => .fatal m
  else .fatal "do_move: incompatible data types for move"

/-- Do a binary operation (SymState::do_binop). -/
def SymState.doBinop (s : SymState) (target a b : Temporary)
    (binop : SymExpr → SymExpr → SymExpr) : StepResult SymState :=
  match s.getTemp a with
  | .ok va =>
      match s.getTemp b with
      | .ok vb => s.setTemp target (binop va vb)
      | .fatal m => .fatal m
  | .fatal m => .fatal m

mutual

/-- The symbol-substitution hook on expressions (math::SymExpr::replace_symbols,
modelled from the spec); the substitution itself may be fatal because the
executor substitutes via get_temp. -/
def replaceSymbolsE (f : Symbol → StepResult SymExpr) :
    SymExpr → StepResult SymExpr
  | .int i => .ok (.int i)
  | .sym sy => f sy
  | .add a b =>
      match replaceSymbolsE f a, replaceSymbolsE f b with
      | .ok a1, .ok b1 => .ok (.add a1 b1)
      | .fatal m, _ => .fatal m
      | _, .fatal m => .fatal m
  | .sub a b =>
      match replaceSymbolsE f a, replaceSymbolsE f b with
      | .ok a1, .ok b1 => .ok (.sub a1 b1)
      | .fatal m, _ => .fatal m
      | _, .fatal m => .fatal m
  | .mul a b =>
      match replaceSymbolsE f a, replaceSymbolsE f b with
      | .ok a1, .ok b1 => .ok (.mul a1 b1)
      | .fatal m, _ => .fatal m
      | _, .fatal m => .fatal m
  | .bitand a b =>
      match replaceSymbolsE f a, replaceSymbolsE f b with
      | .ok a1, .ok b1 => .ok (.bitand a1 b1)
      | .fatal m, _ => .fatal m
      | _, .fatal m => .fatal m
  | .bitor a b =>
      match replaceSymbolsE f a, replaceSymbolsE f b with
      | .ok a1, .ok b1 => .ok (.bitor a1 b1)
      | .fatal m, _ => .fatal m
      | _, .fatal m => .fatal m
  | .bitnot a =>
      match replaceSymbolsE f a with
      | .ok a1 => .ok (.bitnot a1)
      | .fatal m => .fatal m
  | .cast new signed a =>
      match replaceSymbolsE f a with
      | .ok a1 => .ok (.cast new signed a1)
      | .fatal m => .fatal m
  | .iteExpr c t e =>
      match replaceSymbolsC f c, replaceSymbolsE f t, replaceSymbolsE f e with
      | .ok c1, .ok t1, .ok e1 => .ok (.iteExpr c1 t1 e1)
      | .fatal m, _, _ => .fatal m
      | _, .fatal m, _ => .fatal m
      | _, _, .fatal m => .fatal m
  | .ofCond dt c =>
      match replaceSymbolsC f c with
      | .ok c1 => .ok (.ofCond dt c1)
      | .fatal m => .fatal m

/-- The symbol-substitution hook on conditions. -/
def replaceSymbolsC (f : Symbol → StepResult SymExpr) :
    SymCondition → StepResult SymCondition
  | .tru => .ok .tru
  | .equal a b =>
      match replaceSymbolsE f a, replaceSymbolsE f b with
      | .ok a1, .ok b1 => .ok (.equal a1 b1)
      | .fatal m, _ => .fatal m
      | _, .fatal m => .fatal m

end

/-- Evaluate a symbolic condition with temporary symbols substituted
(SymState::evaluate_condition). -/
def SymState.evaluateCondition (s : SymState) (condition : SymCondition) :
    StepResult SymCondition :=
  replaceSymbolsC (fun sy =>
    if sy.ns = "T" then s.getTemp ⟨sy.dt, sy.idx⟩ else .ok (.sym sy)) condition

/-- One iteration of the stdio syscall loop of SymState::do_syscall:
allocate the next per-stream symbol, write it to memory for reads, and record
its abstract location. -/
def SymState.syscallStep (s : SymState) (isRead : Bool) (buf : SymExpr) (i : Nat) :
    SymState × (Symbol × TypedMemoryAccess) :=
  let symPtr := if isRead then s.stdinSymbols else s.stdoutSymbols
  let symbol : Symbol := ⟨.n8, if isRead then "stdin" else "stdout", symPtr⟩
  let value : SymExpr := .sym symbol
  let s1 := if isRead then { s with stdinSymbols := symPtr + 1 }
            else { s with stdoutSymbols := symPtr + 1 }
  let target := buf.add (SymExpr.fromPtr i)
  let s2 := if isRead then
      { s1 with memMain := { s1.memMain with data := s1.memMain.data.writeExpr target value } }
    else s1
  let location : AbstractLocation :=
    { addr := s2.ip
      trace := s2.trace
      storage := .indirect .n8 .RSI none (if i > 0 then some (i64ofU64 i) else none) }
  let s3 := { s2 with
    symbolMap := fun sy => if sy = symbol then some location else s2.symbolMap sy }
  (s3, (symbol, ⟨target, .n8⟩))

/-- The stdio syscall loop, iterating i from a start index for a given count. -/
def SymState.syscallLoop (isRead : Bool) (buf : SymExpr) :
    Nat → Nat → SymState → SymState × List (Symbol × TypedMemoryAccess)
  | _, 0, s => (s, [])
  | i, Nat.succ k, s =>
      let (s1, loc) := s.syscallStep isRead buf i
      let (s2, locs) := syscallLoop isRead buf (i + 1) k s1
      (s2, loc :: locs)

/-- Emulate a Linux syscall (SymState::do_syscall): 0 is read, 1 is write,
60 is exit; anything else is fatal, as is a non-concrete byte count. -/
def SymState.doSyscall (solver : Solver) (s : SymState) (num : Nat) :
    StepResult (Option Event × SymState) :=
  if num = 0 ∨ num = 1 then
    let isRead : Bool := num == 0
    let (buf, s1) := s.getReg solver .RSI
    let (count, s2) := s1.getReg solver .RDX
    match count with
    | .int ⟨.n64, bytes⟩ =>
        let (s3, locs) := SymState.syscallLoop isRead buf 0 bytes s2
        let kind := if isRead then StdioKind.Stdin else StdioKind.Stdout
        .ok (some (.stdio kind locs), s3)
    | _ => .fatal "do_syscall: read: unknown byte count"
  else if num = 60 then
    .ok (some .exit, s)
  else .fatal "do_syscall: unimplemented syscall number"

/-- Execute one micro operation (SymState::step): first write the address into
RIP and record it as the instruction pointer, then dispatch. -/
def SymState.step (solver : Solver) (s : SymState) (addr : Nat) (operation : ExecOp) :
    StepResult (Option Event × SymState) :=
  let s0 := s.setReg .RIP (SymExpr.fromPtr addr)
  let s1 := { s0 with ip := addr }
  match operation with
  | .mov dest src =>
      match s1.doMove solver dest src with
      | .ok s2 => .ok (none, s2)
      | .fatal m => .fatal m
  | .const dest constant =>
      match s1.setTemp dest (.int constant) with
      | .ok s2 => .ok (none, s2)
      | .fatal m => .fatal m
  | .cast target new signed =>
      match s1.getTemp target with
      | .ok value =>
          match s1.setTemp ⟨new, target.idx⟩ (value.cast new signed) with
          | .ok s2 => .ok (none, s2)
          | .fatal m => .fatal m
      | .fatal m => .fatal m
  | .add sum a b =>
      match s1.doBinop sum a b .add with
      | .ok s2 => .ok (none, s2)
      | .fatal m => .fatal m
  | .sub diff a b =>
      match s1.doBinop diff a b .sub with
      | .ok s2 => .ok (none, s2)
      | .fatal m => .fatal m
  | .mul prod a b =>
      match s1.doBinop prod a b .mul with
      | .ok s2 => .ok (none, s2)
      | .fatal m => .fatal m
  | .and and_ a b =>
      match s1.doBinop and_ a b .bitand with
      | .ok s2 => .ok (none, s2)
      | .fatal m => .fatal m
  | .or or_ a b =>
      match s1.doBinop or_ a b .bitor with
      | .ok s2 => .ok (none, s2)
      | .fatal m => .fatal m
  | .not not_ a =>
      match s1.getTemp a with
      | .ok va =>
          match s1.setTemp not_ va.bitnot with
          | .ok s2 => .ok (none, s2)
          | .fatal m => .fatal m
      | .fatal m => .fatal m
  | .set target condition =>
      match s1.evaluateCondition condition with
      | .ok c =>
          match s1.setTemp target (c.asExpr target.dt) with
          | .ok s2 => .ok (none, s2)
          | .fatal m => .fatal m
      | .fatal m => .fatal m
  | .jump target condition relative =>
      match s1.getTemp target with
      | .ok value => .ok (some (.jump value condition relative), s1)
      | .fatal m => .fatal m
  | .syscall =>
      match s1.getReg solver .RAX with
      | (.int int, s2) => s2.doSyscall solver int.val
      | _ => .fatal "step: unhandled symbolic syscall number"

/-- Adjust the call trace based on the instruction (SymState::track). -/
def SymState.track (s : SymState) (instruction : Instruction) (addr : Nat) : SymState :=
  match instruction.mnemoic with
  | .Call => { s with trace := s.trace ++ [addr] }
  | .Ret => { s with trace := s.trace.dropLast }
  | _ => s

/-! ## Concrete instances for counterexamples and witnesses -/

/-- A solver that reports every address equality as satisfiable and simplifies
nothing: what a sound solver answers for two distinct free symbols. -/
def permissiveSolver : Solver := ⟨fun _ _ => true, fun c => c⟩

/-- A solver that reports no address equality as satisfiable. -/
def refusingSolver : Solver := ⟨fun _ _ => false, fun c => c⟩

/-- A free 64-bit symbolic address. -/
def symX : SymExpr := .sym ⟨.n64, "x", 0⟩

/-- Another free 64-bit symbolic address. -/
def symY : SymExpr := .sym ⟨.n64, "y", 0⟩

/-- Main memory after write x := 4; write x := 5 (an overwrite); write y := 7:
the overwrite re-stamps the x entry with the counter value 2 that the
subsequent y append also receives, so two distinct entries share epoch 2. -/
def tieMemory : MemoryData :=
  (((SymMemory.new "mem" .ConditionalTrees).data.writeExpr symX
      (.int ⟨.n64, 4⟩)).writeExpr symX (.int ⟨.n64, 5⟩)).writeExpr symY (.int ⟨.n64, 7⟩)

/-- A Mov instruction whose resolved locations disagree in width (64-bit RAX
versus 32-bit EAX). -/
def movMismatchInst : Instruction := ⟨.Mov, [.direct .RAX, .direct .EAX]⟩

/-- The cast-then-move microcode the encoder produces for movMismatchInst. -/
def movCastOps : List MicroOperation :=
  [.mov (.temp ⟨.n32, 0⟩) (.direct .n32 1 0),
   .cast ⟨.n32, 0⟩ .n64 true,
   .mov (.direct .n64 1 0) (.temp ⟨.n64, 0⟩)]

/-- The encoder state after encoding a test instruction: a pending comparison
and two buffered operations. -/
def testEncoder : MicroEncoder :=
  ⟨[.mov (.temp ⟨.n32, 0⟩) (.direct .n32 1 0),
    .mov (.temp ⟨.n32, 1⟩) (.direct .n32 1 0)], 2,
   some (.and ⟨.n32, 0⟩ ⟨.n32, 1⟩)⟩

/-- A symbolic state holding concrete values for the registers the stdio
syscall emulation consumes: RAX = 0 (read), RSI = 256 (buffer), RDX = 2
(count). -/
def c7State : SymState :=
  (((SymState.new .PerfectMatches).setReg .RAX (.int ⟨.n64, 0⟩)).setReg .RSI
      (.int ⟨.n64, 256⟩)).setReg .RDX (.int ⟨.n64, 2⟩)

/-- c7State after step's initial RIP write, at address 7. -/
def c7s1 : SymState := { c7State.setReg .RIP (SymExpr.fromPtr 7) with ip := 7 }

/-- c7s1 after the syscall-number read. -/
def c7s2 : SymState := (c7s1.getReg permissiveSolver .RAX).2

/-- The buffer expression the syscall emulation reads from RSI. -/
def c7buf : SymExpr := (c7s2.getReg permissiveSolver .RSI).1

/-- c7s2 after the buffer read. -/
def c7s3 : SymState := (c7s2.getReg permissiveSolver .RSI).2

/-- c7s3 after the count read. -/
def c7s4 : SymState := (c7s3.getReg permissiveSolver .RDX).2

/-- A symbolic state whose RDX count register was never written, so the
syscall emulation reads a symbolic count. -/
def c7Bad : SymState := (SymState.new .PerfectMatches).setReg .RAX (.int ⟨.n64, 1⟩)

/-- c7Bad after step's initial RIP write, at address 3. -/
def c7bs1 : SymState := { c7Bad.setReg .RIP (SymExpr.fromPtr 3) with ip := 3 }

/-- c7bs1 after the syscall-number read. -/
def c7bs2 : SymState := (c7bs1.getReg permissiveSolver .RAX).2

/-- The buffer expression read from the unset RSI: a default symbol. -/
def c7bbuf : SymExpr := (c7bs2.getReg permissiveSolver .RSI).1

/-- c7bs2 after the buffer read. -/
def c7bs3 : SymState := (c7bs2.getReg permissiveSolver .RSI).2

/-- The count expression read from the unset RDX: a default symbol, not a
concrete integer. -/
def c7bcount : SymExpr := (c7bs3.getReg permissiveSolver .RDX).1

/-- c7bs3 after the count read. -/
def c7bs4 : SymState := (c7bs3.getReg permissiveSolver .RDX).2

/-- A symbolic state with a 32-bit expression stored at temporary index 0. -/
def c9State : SymState :=
  { SymState.new .PerfectMatches with
    temporaries := fun j => if j = 0 then some (.int ⟨.n32, 5⟩) else none }

/-! ## Statement-side predicates -/

/-- The symbol namespace of a stdio stream. -/
def streamNs (isRead : Bool) : String := if isRead then "stdin" else "stdout"

/-- The per-stream symbol counter of a state. -/
def streamCount (isRead : Bool) (s : SymState) : Nat :=
  if isRead then s.stdinSymbols else s.stdoutSymbols

/-- The fresh n8 symbol a stdio syscall allocates at a given stream index. -/
def syscallSymbol (isRead : Bool) (idx : Nat) : Symbol :=
  ⟨.n8, streamNs isRead, idx⟩

/-- The typed memory access a stdio syscall records for byte i of the buffer. -/
def syscallAccess (buf : SymExpr) (i : Nat) : TypedMemoryAccess :=
  ⟨buf.add (SymExpr.fromPtr i), .n8⟩

/-- The abstract location a stdio syscall records for byte i: an RSI-relative
indirect storage whose displacement is present exactly when i > 0. -/
def syscallLocation (ip : Nat) (trace : List Nat) (i : Nat) : AbstractLocation :=
  ⟨ip, trace, .indirect .n8 .RSI none (if i > 0 then some (i64ofU64 i) else none)⟩

/-- Whether this result is the recoverable structured error. -/
def EncResult.isErr : EncResult α → Bool
  | .err _ => true
  | _ => false

/-- Whether this result is a panic. -/
def EncResult.isFatal : EncResult α → Bool
  | .fatal _ => true
  | _ => false

/-- Widths agree on both sides of a move; trivially true for other operations. -/
def movWidthsOk : MicroOperation → Bool
  | .mov dest src => dest.dataType == src.dataType
  | _ => true

/-- The temporary indices referenced by a location. -/
def Location.tempIdxs : Location → List Nat
  | .temp t => [t.idx]
  | .direct _ _ _ => []
  | .indirect _ _ t => [t.idx]

/-- The temporary indices referenced by a micro operation's operands
(the temporaries embedded inside a carried condition are prior context,
not operands, and are not included). -/
def MicroOperation.tempIdxs : MicroOperation → List Nat
  | .mov dest src => dest.tempIdxs ++ src.tempIdxs
  | .const dest _ => dest.tempIdxs
  | .cast target _ _ => [target.idx]
  | .add x a b => [x.idx, a.idx, b.idx]
  | .sub x a b => [x.idx, a.idx, b.idx]
  | .mul x a b => [x.idx, a.idx, b.idx]
  | .and x a b => [x.idx, a.idx, b.idx]
  | .or x a b => [x.idx, a.idx, b.idx]
  | .not x a => [x.idx, a.idx]
  | .set target _ => [target.idx]
  | .jump target _ _ => [target.idx]
  | .syscall => []

/-- A Mov instruction whose two resolved operand locations have different
widths: the instruction shape that triggers the clear-and-recode path. -/
def Instruction.mismatchMov (inst : Instruction) : Bool :=
  inst.mnemoic == .Mov &&
    match inst.operands with
    | o0 :: o1 :: _ => o0.dataType != o1.dataType
    | _ => false

/-- The instruction shape whose width mismatch reaches encode_move uncaught: a
Lea whose indirect source address temporary disagrees in width with the
destination location (the address temporary has the base register's width for a
plain indirect operand and is 64-bit for a displaced one). -/
def Instruction.leaMoveMismatch (inst : Instruction) : Bool :=
  inst.mnemoic == .Lea &&
    match inst.operands with
    | o0 :: o1 :: _ =>
        match o1 with
        | .indirect _ r => r.dataType != o0.dataType
        | .indirectDisplaced _ _ _ => DataType.n64 != o0.dataType
        | _ => false
    | _ => false

/-- The single-step frame property of an encoder routine: the temporary counter
is monotone and the routine only appends operations whose moves have matching
widths and whose operand temporaries lie between a low watermark and the new
counter. -/
def EncStep (lo : Nat) (e e1 : MicroEncoder) : Prop :=
  e.temps ≤ e1.temps ∧
  ∃ delta, e1.ops = e.ops ++ delta ∧
    (∀ op ∈ delta, movWidthsOk op = true) ∧
    (∀ op ∈ delta, ∀ i ∈ op.tempIdxs, lo ≤ i ∧ i < e1.temps)

/-- Range bound for the temporaries of a location. -/
def LocInRange (lo hi : Nat) (loc : Location) : Prop :=
  ∀ i ∈ loc.tempIdxs, lo ≤ i ∧ i < hi

/-! ## Lemmas about the symbolic memory -/

/-- Well-formed memory data: at most one entry per syntactically identical address. -/
def MemoryData.Wf (d : MemoryData) : Prop :=
  d.entries.Pairwise (fun e1 e2 => e1.addr ≠ e2.addr)

/-- Entry epochs never exceed the memory's epoch counter. -/
def MemoryData.EpochsLe (d : MemoryData) : Prop :=
  ∀ e ∈ d.entries, e.epoch ≤ d.epoch

instance (d : MemoryData) : Decidable d.Wf :=
  inferInstanceAs (Decidable (d.entries.Pairwise
    (fun (e1 e2 : MemoryEntry) => e1.addr ≠ e2.addr)))

instance (d : MemoryData) : Decidable d.EpochsLe :=
  inferInstanceAs (Decidable (∀ e ∈ d.entries, e.epoch ≤ d.epoch))

lemma insertEpochDesc_perm (x : SymCondition × MemoryEntry)
    (l : List (SymCondition × MemoryEntry)) :
    List.Perm (insertEpochDesc x l) (x :: l) := by
  induction l with
  | nil => simp [insertEpochDesc]
  | cons y ys ih =>
      by_cases h : y.2.epoch ≤ x.2.epoch
      · simp [insertEpochDesc, h]
      · simp only [insertEpochDesc, if_neg h]
        exact (ih.cons y).trans (List.Perm.swap x y ys)

lemma sortEpochDesc_perm (l : List (SymCondition × MemoryEntry)) :
    List.Perm (sortEpochDesc l) l := by
  induction l with
  | nil => simp [sortEpochDesc]
  | cons x xs ih =>
      simpa [sortEpochDesc] using (insertEpochDesc_perm x (sortEpochDesc xs)).trans (ih.cons x)

lemma insertEpochDesc_sorted (x : SymCondition × MemoryEntry)
    (l : List (SymCondition × MemoryEntry))
    (hl : l.Pairwise (fun p q => q.2.epoch ≤ p.2.epoch)) :
    (insertEpochDesc x l).Pairwise (fun p q => q.2.epoch ≤ p.2.epoch) := by
  induction l with
  | nil => simp [insertEpochDesc]
  | cons y ys ih =>
      rcases List.pairwise_cons.mp hl with ⟨hy, hys⟩
      by_cases h : y.2.epoch ≤ x.2.epoch
      · simp only [insertEpochDesc, if_pos h]
        refine List.pairwise_cons.mpr ⟨?_, hl⟩
        intro z hz
        rcases List.mem_cons.mp hz with hz | hz
        · exact hz ▸ h
        · exact le_trans (hy z hz) h
      · simp only [insertEpochDesc, if_neg h]
        refine List.pairwise_cons.mpr ⟨?_, ih hys⟩
        intro z hz
        have hz2 := (insertEpochDesc_perm x ys).mem_iff.mp hz
        rcases List.mem_cons.mp hz2 with hz2 | hz2
        · subst hz2
          omega
        · exact hy z hz2

lemma sortEpochDesc_sorted (l : List (SymCondition × MemoryEntry)) :
    (sortEpochDesc l).Pairwise (fun p q => q.2.epoch ≤ p.2.epoch) := by
  induction l with
  | nil => simp [sortEpochDesc]
  | cons x xs ih => exact insertEpochDesc_sorted x _ ih

/-- A strictly newest candidate comes first in the epoch-descending stable sort. -/
lemma sortEpochDesc_eq_cons (l : List (SymCondition × MemoryEntry))
    (x : SymCondition × MemoryEntry) (hx : x ∈ l)
    (hmax : ∀ y ∈ l, y ≠ x → y.2.epoch < x.2.epoch) :
    ∃ t, sortEpochDesc l = x :: t := by
  have hperm := sortEpochDesc_perm l
  have hsort := sortEpochDesc_sorted l
  cases hs : sortEpochDesc l with
  | nil =>
      rw [hs] at hperm
      exact absurd (hperm.symm.mem_iff.mp hx) (List.not_mem_nil x)
  | cons h t =>
      rw [hs] at hperm hsort
      by_cases hhx : h = x
      · exact ⟨t, by rw [hhx]⟩
      · have hhl : h ∈ l := hperm.mem_iff.mp (List.mem_cons_self h t)
        have hlt : h.2.epoch < x.2.epoch := hmax h hhl hhx
        have hxht : x ∈ h :: t := hperm.symm.mem_iff.mp hx
        have hxt : x ∈ t := by
          rcases List.mem_cons.mp hxht with hc | hc
          · exact absurd hc.symm hhx
          · exact hc
        have hle : x.2.epoch ≤ h.2.epoch := (List.pairwise_cons.mp hsort).1 x hxt
        omega

lemma insertEpochDesc_append_zero (y x : SymCondition × MemoryEntry)
    (l : List (SymCondition × MemoryEntry)) (hx : x.2.epoch = 0) :
    insertEpochDesc y (l ++ [x]) = insertEpochDesc y l ++ [x] := by
  induction l with
  | nil => simp [insertEpochDesc, hx]
  | cons z zs ih =>
      by_cases h : z.2.epoch ≤ y.2.epoch
      · simp [insertEpochDesc, h]
      · simp [insertEpochDesc, h, ih]

/-- Appending a zero-epoch candidate commutes with the stable sort: it stays last. -/
lemma sortEpochDesc_append_zero (l : List (SymCondition × MemoryEntry))
    (x : SymCondition × MemoryEntry) (hx : x.2.epoch = 0) :
    sortEpochDesc (l ++ [x]) = sortEpochDesc l ++ [x] := by
  induction l with
  | nil => simp [sortEpochDesc, insertEpochDesc, hx]
  | cons y ys ih =>
      show insertEpochDesc y (sortEpochDesc (ys ++ [x])) =
        insertEpochDesc y (sortEpochDesc ys) ++ [x]
      rw [ih]
      exact insertEpochDesc_append_zero y x _ hx

lemma scanPerfect_of_no_tru (l : List (SymCondition × MemoryEntry))
    (h : ∀ p ∈ l, p.1 ≠ SymCondition.tru) : scanPerfect l = (l, none) := by
  induction l with
  | nil => rfl
  | cons p ps ih =>
      obtain ⟨c, entry⟩ := p
      have hc : c ≠ SymCondition.tru := h (c, entry) (List.mem_cons_self _ _)
      have ihp := ih (fun q hq => h q (List.mem_cons_of_mem _ hq))
      simp [scanPerfect, hc, ihp]

lemma scanPerfect_none_inv (l kept : List (SymCondition × MemoryEntry))
    (h : scanPerfect l = (kept, none)) :
    kept = l ∧ ∀ p ∈ l, p.1 ≠ SymCondition.tru := by
  induction l generalizing kept with
  | nil =>
      simp only [scanPerfect, Prod.mk.injEq] at h
      exact ⟨h.1.symm, by simp⟩
  | cons p ps ih =>
      obtain ⟨c, entry⟩ := p
      by_cases hc : c = SymCondition.tru
      · simp [scanPerfect, hc] at h
      · rw [scanPerfect, if_neg hc, Prod.mk.injEq] at h
        obtain ⟨h1, h2⟩ := h
        obtain ⟨hk2, hno⟩ := ih (scanPerfect ps).1 (by rw [← h2])
        refine ⟨by rw [← h1, hk2], ?_⟩
        intro q hq
        rcases List.mem_cons.mp hq with hq | hq
        · exact hq ▸ hc
        · exact hno q hq

lemma scanPerfect_append_tru (l : List (SymCondition × MemoryEntry))
    (entry : MemoryEntry) (h : ∀ p ∈ l, p.1 ≠ SymCondition.tru) :
    scanPerfect (l ++ [(SymCondition.tru, entry)]) = (l, some entry.value) := by
  induction l with
  | nil => rfl
  | cons p ps ih =>
      obtain ⟨c, e⟩ := p
      have hc : c ≠ SymCondition.tru := h (c, e) (List.mem_cons_self _ _)
      have ihp := ih (fun q hq => h q (List.mem_cons_of_mem _ hq))
      simp [scanPerfect, hc, ihp]

lemma writeEntries_eq_none (entries : List MemoryEntry) (new : MemoryEntry) :
    writeEntries entries new = none ↔ ∀ e ∈ entries, e.addr ≠ new.addr := by
  induction entries with
  | nil => simp [writeEntries]
  | cons e rest ih =>
      by_cases h : e.addr = new.addr
      · simp [writeEntries, h]
      · simp [writeEntries, h, ih]

lemma writeEntries_split (l1 : List MemoryEntry) (e0 : MemoryEntry)
    (l2 : List MemoryEntry) (new : MemoryEntry) (he0 : e0.addr = new.addr)
    (hl1 : ∀ e ∈ l1, e.addr ≠ new.addr) :
    writeEntries (l1 ++ e0 :: l2) new = some (l1 ++ new :: l2) := by
  induction l1 with
  | nil => simp [writeEntries, he0]
  | cons e rest ih =>
      have he : e.addr ≠ new.addr := hl1 e (List.mem_cons_self _ _)
      have ihp := ih (fun q hq => hl1 q (List.mem_cons_of_mem _ hq))
      simp [writeEntries, he, ihp]

lemma writeEntries_eq_some (entries : List MemoryEntry) (new : MemoryEntry)
    (es : List MemoryEntry) (h : writeEntries entries new = some es) :
    ∃ l1 e0 l2, entries = l1 ++ e0 :: l2 ∧ e0.addr = new.addr ∧
      (∀ e ∈ l1, e.addr ≠ new.addr) ∧ es = l1 ++ new :: l2 := by
  induction entries generalizing es with
  | nil => simp [writeEntries] at h
  | cons e rest ih =>
      by_cases hh : e.addr = new.addr
      · refine ⟨[], e, rest, by simp, hh, by simp, ?_⟩
        simp only [writeEntries, if_pos hh, Option.some.injEq] at h
        simp [← h]
      · simp only [writeEntries, if_neg hh] at h
        obtain ⟨es1, hes1, hmap⟩ := Option.map_eq_some'.mp h
        obtain ⟨l1, e0, l2, h1, h2, h3, h4⟩ := ih es1 hes1
        refine ⟨e :: l1, e0, l2, by simp [h1], h2, ?_, by simp [← hmap, h4]⟩
        intro f hf
        rcases List.mem_cons.mp hf with hf | hf
        · exact hf ▸ hh
        · exact h3 f hf

/-- A write at a previously unwritten address appends a new entry carrying the
current epoch counter and bumps the counter by one. -/
lemma writeExpr_append (d : MemoryData) (a v : SymExpr)
    (h : ∀ e ∈ d.entries, e.addr ≠ a) :
    d.writeExpr a v =
      { d with epoch := d.epoch + 1, entries := d.entries ++ [⟨a, v, d.epoch⟩] } := by
  have hw : writeEntries d.entries ⟨a, v, d.epoch⟩ = none :=
    (writeEntries_eq_none _ _).mpr h
  unfold MemoryData.writeExpr
  simp only [hw]

/-- A write at a written address overwrites in place, stamping the entry with
the current counter without bumping it. -/
lemma writeExpr_overwrite (d : MemoryData) (a v : SymExpr)
    (l1 : List MemoryEntry) (e0 : MemoryEntry) (l2 : List MemoryEntry)
    (hsplit : d.entries = l1 ++ e0 :: l2) (he0 : e0.addr = a)
    (hl1 : ∀ e ∈ l1, e.addr ≠ a) :
    d.writeExpr a v = { d with entries := l1 ++ (⟨a, v, d.epoch⟩ : MemoryEntry) :: l2 } := by
  have hw : writeEntries d.entries ⟨a, v, d.epoch⟩ = some (l1 ++ ⟨a, v, d.epoch⟩ :: l2) := by
    rw [hsplit]
    exact writeEntries_split l1 e0 l2 _ he0 hl1
  unfold MemoryData.writeExpr
  simp only [hw]

/-- Writes preserve the one-entry-per-address invariant. -/
lemma writeExpr_wf (d : MemoryData) (a v : SymExpr) (hwf : d.Wf) :
    (d.writeExpr a v).Wf := by
  unfold MemoryData.Wf at hwf ⊢
  unfold MemoryData.writeExpr
  cases hwe : writeEntries d.entries ⟨a, v, d.epoch⟩ with
  | none =>
      have hno := (writeEntries_eq_none _ _).mp hwe
      rw [List.pairwise_append]
      exact ⟨hwf, List.pairwise_singleton _ _, fun e he f hf => by
        rcases List.mem_singleton.mp hf with rfl
        exact hno e he⟩
  | some es =>
      obtain ⟨l1, e0, l2, h1, h2, h3, h4⟩ := writeEntries_eq_some _ _ _ hwe
      show es.Pairwise _
      rw [h4]
      rw [h1, List.pairwise_append] at hwf
      obtain ⟨hw1, hw2, hw3⟩ := hwf
      rw [List.pairwise_cons] at hw2
      rw [List.pairwise_append, List.pairwise_cons]
      refine ⟨hw1, ⟨fun f hf => ?_, hw2.2⟩, fun x hx f hf => ?_⟩
      · exact h2 ▸ hw2.1 f hf
      · rcases List.mem_cons.mp hf with rfl | hf
        · exact h3 x hx
        · exact hw3 x hx f (List.mem_cons_of_mem _ hf)

/-- An entry at the queried address contributes a perfect-match candidate. -/
lemma conditionMap_mem_tru (S : Solver) (entries : List MemoryEntry)
    (a : SymExpr) (e : MemoryEntry) (he : e ∈ entries) (ha : e.addr = a) :
    (SymCondition.tru, e) ∈ conditionMap S entries a := by
  unfold conditionMap
  exact List.mem_filterMap.mpr ⟨e, he, by simp [ha]⟩

/-- Members of the condition map are classifications of entries. -/
lemma conditionMap_mem (S : Solver) (entries : List MemoryEntry) (a : SymExpr)
    (p : SymCondition × MemoryEntry) (hp : p ∈ conditionMap S entries a) :
    p.2 ∈ entries := by
  unfold conditionMap at hp
  obtain ⟨e, he, hfe⟩ := List.mem_filterMap.mp hp
  by_cases h1 : e.addr = a
  · simp only [if_pos h1, Option.some.injEq] at hfe
    rw [← hfe]
    exact he
  · simp only [if_neg h1] at hfe
    by_cases h2 : S.checkEqualSat e.addr a = true
    · simp only [if_pos h2, Option.some.injEq] at hfe
      rw [← hfe]
      exact he
    · simp [h2] at hfe

/-- The condition map classifies an appended perfect-match entry last. -/
lemma conditionMap_append_tru (S : Solver) (entries : List MemoryEntry)
    (a : SymExpr) (memo : MemoryEntry) (hmemo : memo.addr = a) :
    conditionMap S (entries ++ [memo]) a =
      conditionMap S entries a ++ [(SymCondition.tru, memo)] := by
  unfold conditionMap
  rw [List.filterMap_append]
  simp [hmemo]

lemma newestMatchStep_skip (a : SymExpr) (acc : Option (SymExpr × Nat))
    (e : MemoryEntry) (h : e.addr ≠ a) : newestMatchStep a acc e = acc := by
  unfold newestMatchStep
  rw [if_neg]
  intro hc
  exact h hc.1

lemma newestMatch_fold_skip (a : SymExpr) (l : List MemoryEntry)
    (acc : Option (SymExpr × Nat)) (h : ∀ e ∈ l, e.addr ≠ a) :
    l.foldl (newestMatchStep a) acc = acc := by
  induction l generalizing acc with
  | nil => rfl
  | cons e rest ih =>
      rw [List.foldl_cons, newestMatchStep_skip a acc e (h e (List.mem_cons_self _ _))]
      exact ih acc (fun f hf => h f (List.mem_cons_of_mem _ hf))

/-- If no entry matches the address syntactically, the scan yields nothing. -/
lemma newestMatch_none (entries : List MemoryEntry) (a : SymExpr)
    (h : ∀ e ∈ entries, e.addr ≠ a) : newestMatch entries a = none := by
  unfold newestMatch
  exact newestMatch_fold_skip a entries none h

/-- Conversely, a failed scan means no entry matches syntactically. -/
lemma newestMatch_none_inv (entries : List MemoryEntry) (a : SymExpr)
    (h : newestMatch entries a = none) : ∀ e ∈ entries, e.addr ≠ a := by
  have hsome : ∀ (l : List MemoryEntry) (p : SymExpr × Nat),
      ∃ q, l.foldl (newestMatchStep a) (some p) = some q := by
    intro l
    induction l with
    | nil => exact fun p => ⟨p, rfl⟩
    | cons e rest ih =>
        intro p
        rw [List.foldl_cons]
        unfold newestMatchStep
        by_cases hc : e.addr = a ∧ ∀ q ∈ (some p).toList, q.2 < e.epoch
        · rw [if_pos hc]
          exact ih _
        · rw [if_neg hc]
          exact ih _
  intro e he ha
  unfold newestMatch at h
  obtain ⟨l1, l2, rfl⟩ := List.append_of_mem he
  rw [List.foldl_append, List.foldl_cons] at h
  have hstep : ∃ q, newestMatchStep a (l1.foldl (newestMatchStep a) none) e = some q := by
    cases hacc : l1.foldl (newestMatchStep a) none with
    | none =>
        refine ⟨(e.value, e.epoch), ?_⟩
        unfold newestMatchStep
        rw [if_pos ⟨ha, by simp⟩]
    | some p =>
        unfold newestMatchStep
        by_cases hc : e.addr = a ∧ ∀ q ∈ (some p).toList, q.2 < e.epoch
        · exact ⟨(e.value, e.epoch), by rw [if_pos hc]⟩
        · exact ⟨p, by rw [if_neg hc]⟩
  obtain ⟨q0, hstep⟩ := hstep
  rw [hstep] at h
  obtain ⟨q, hq⟩ := hsome l2 _
  rw [h] at hq
  exact Option.noConfusion hq

/-- The unique syntactic match is returned by the PerfectMatches scan. -/
lemma newestMatch_unique (l1 : List MemoryEntry) (x : MemoryEntry)
    (l2 : List MemoryEntry) (a : SymExpr) (hx : x.addr = a)
    (h1 : ∀ e ∈ l1, e.addr ≠ a) (h2 : ∀ e ∈ l2, e.addr ≠ a) :
    newestMatch (l1 ++ x :: l2) a = some (x.value, x.epoch) := by
  unfold newestMatch
  rw [List.foldl_append, newestMatch_fold_skip a l1 none h1, List.foldl_cons]
  have hstep : newestMatchStep a none x = some (x.value, x.epoch) := by
    unfold newestMatchStep
    rw [if_pos ⟨hx, by simp⟩]
  rw [hstep]
  exact newestMatch_fold_skip a l2 _ h2

/-- Each condition-map member is the classification of its entry: the entry is
in the memory, a syntactic match yields exactly the TRUE candidate, and a
non-matching member passed the solver's satisfiability check. -/
lemma conditionMap_mem_strong (S : Solver) (entries : List MemoryEntry)
    (a : SymExpr) (p : SymCondition × MemoryEntry)
    (hp : p ∈ conditionMap S entries a) :
    p.2 ∈ entries ∧ (p.2.addr = a → p = (SymCondition.tru, p.2)) ∧
      (p.2.addr ≠ a → S.checkEqualSat p.2.addr a = true) := by
  unfold conditionMap at hp
  obtain ⟨e, he, hfe⟩ := List.mem_filterMap.mp hp
  by_cases h1 : e.addr = a
  · simp only [if_pos h1, Option.some.injEq] at hfe
    subst hfe
    exact ⟨he, fun _ => rfl, fun hne => absurd h1 hne⟩
  · simp only [if_neg h1] at hfe
    by_cases h2 : S.checkEqualSat e.addr a = true
    · simp only [if_pos h2, Option.some.injEq] at hfe
      subst hfe
      exact ⟨he, fun ha => absurd ha h1, fun _ => h2⟩
    · simp [h2] at hfe

/-- A failed ConditionalTrees scan means no entry matches syntactically. -/
lemma scanPerfect_ct_none (S : Solver) (d : MemoryData) (a : SymExpr)
    (kept : List (SymCondition × MemoryEntry))
    (h : scanPerfect (sortEpochDesc (conditionMap S d.entries a)) = (kept, none)) :
    kept = sortEpochDesc (conditionMap S d.entries a) ∧
      ∀ e ∈ d.entries, e.addr ≠ a := by
  obtain ⟨hk, hno⟩ := scanPerfect_none_inv _ _ h
  refine ⟨hk, fun e he ha => ?_⟩
  have hin : (SymCondition.tru, e) ∈ conditionMap S d.entries a :=
    conditionMap_mem_tru S _ a e he ha
  have hin2 : (SymCondition.tru, e) ∈ sortEpochDesc (conditionMap S d.entries a) :=
    (sortEpochDesc_perm _).mem_iff.mpr hin
  exact hno _ hin2 rfl

/-- Memoizing a default symbol at an unwritten address keeps the memory
well-formed. -/
lemma generateDefault_wf (d : MemoryData) (a : SymExpr) (dt : DataType)
    (hwf : d.Wf) (hno : ∀ e ∈ d.entries, e.addr ≠ a) :
    ((d.generateDefaultSymbol a dt).2).Wf := by
  show (d.entries ++ [(⟨a, d.getDefaultValue dt, 0⟩ : MemoryEntry)]).Pairwise
    (fun e1 e2 => e1.addr ≠ e2.addr)
  rw [List.pairwise_append]
  exact ⟨hwf, List.pairwise_singleton _ _, fun e he f hf => by
    rcases List.mem_singleton.mp hf with rfl
    exact hno e he⟩

/-- Reads preserve the one-entry-per-address invariant. -/
lemma readExpr_wf (S : Solver) (strat : MemoryStrategy) (d : MemoryData)
    (a : SymExpr) (dt : DataType) (hwf : d.Wf) :
    ((MemoryData.readExpr S strat d a dt).2).Wf := by
  cases strat with
  | ConditionalTrees =>
      cases hscan : scanPerfect (sortEpochDesc (conditionMap S d.entries a)) with
      | mk kept opt =>
          cases opt with
          | some value =>
              simpa only [MemoryData.readExpr, hscan] using hwf
          | none =>
              obtain ⟨_, hno⟩ := scanPerfect_ct_none S d a kept hscan
              simp only [MemoryData.readExpr, hscan]
              exact generateDefault_wf d a dt hwf hno
  | PerfectMatches =>
      cases hnm : newestMatch d.entries a with
      | some p =>
          obtain ⟨value, ep⟩ := p
          simpa only [MemoryData.readExpr, hnm] using hwf
      | none =>
          have hno := newestMatch_none_inv _ _ hnm
          simp only [MemoryData.readExpr, hnm]
          exact generateDefault_wf d a dt hwf hno

/-- The shape of a memory after a write under well-formedness: exactly one
entry holds the written value, stamped with the pre-write counter; everything
else is an old entry at a different address; the counter does not decrease. -/
lemma writeExpr_shape (d : MemoryData) (a v : SymExpr) (hwf : d.Wf) :
    ∃ l1 l2, (d.writeExpr a v).entries = l1 ++ (⟨a, v, d.epoch⟩ : MemoryEntry) :: l2 ∧
      (∀ e ∈ l1, e.addr ≠ a ∧ e ∈ d.entries) ∧
      (∀ e ∈ l2, e.addr ≠ a ∧ e ∈ d.entries) ∧
      d.epoch ≤ (d.writeExpr a v).epoch := by
  by_cases hmem : ∀ e ∈ d.entries, e.addr ≠ a
  · rw [writeExpr_append d a v hmem]
    exact ⟨d.entries, [], by simp, fun e he => ⟨hmem e he, he⟩, by simp, by simp⟩
  · push_neg at hmem
    obtain ⟨e0, he0, ha0⟩ := hmem
    obtain ⟨l1, l2, hsplit⟩ := List.append_of_mem he0
    have hpw := hwf
    unfold MemoryData.Wf at hpw
    rw [hsplit, List.pairwise_append, List.pairwise_cons] at hpw
    obtain ⟨_, ⟨he0l2, _⟩, hcross⟩ := hpw
    have hl1 : ∀ e ∈ l1, e.addr ≠ a := fun e he =>
      ha0 ▸ hcross e he e0 (List.mem_cons_self _ _)
    have hl2 : ∀ e ∈ l2, e.addr ≠ a := fun e he =>
      fun hc => (he0l2 e he) (ha0 ▸ hc.symm ▸ rfl)
    rw [writeExpr_overwrite d a v l1 e0 l2 hsplit ha0 hl1]
    refine ⟨l1, l2, rfl, fun e he => ⟨hl1 e he, by rw [hsplit]; exact List.mem_append_left _ he⟩,
      fun e he => ⟨hl2 e he, by rw [hsplit]; exact List.mem_append_right _ (List.mem_cons_of_mem _ he)⟩,
      le_refl _⟩

/-- Write-then-read identity under the PerfectMatches strategy. -/
lemma pm_write_read (S : Solver) (d : MemoryData) (a v : SymExpr) (hwf : d.Wf) :
    (MemoryData.readExpr S .PerfectMatches (d.writeExpr a v) a v.dataType).1 = v := by
  obtain ⟨l1, l2, hsh, h1, h2, _⟩ := writeExpr_shape d a v hwf
  have hnm : newestMatch (d.writeExpr a v).entries a = some (v, d.epoch) := by
    rw [hsh]
    exact newestMatch_unique l1 ⟨a, v, d.epoch⟩ l2 a rfl
      (fun e he => (h1 e he).1) (fun e he => (h2 e he).1)
  simp [MemoryData.readExpr, hnm, castIfNeeded]

/-- Write-then-read identity under the ConditionalTrees strategy, provided
every solver-satisfiable alias is strictly older than the write's epoch. -/
lemma ct_write_read (S : Solver) (d : MemoryData) (a v : SymExpr) (hwf : d.Wf)
    (hep : ∀ e ∈ d.entries, e.addr ≠ a → S.checkEqualSat e.addr a = true →
      e.epoch < d.epoch) :
    (MemoryData.readExpr S .ConditionalTrees (d.writeExpr a v) a v.dataType).1 = v := by
  obtain ⟨l1, l2, hsh, h1, h2, _⟩ := writeExpr_shape d a v hwf
  have hxmem : (⟨a, v, d.epoch⟩ : MemoryEntry) ∈ (d.writeExpr a v).entries := by
    rw [hsh]
    exact List.mem_append_right _ (List.mem_cons_self _ _)
  have hxin : (SymCondition.tru, (⟨a, v, d.epoch⟩ : MemoryEntry)) ∈
      conditionMap S (d.writeExpr a v).entries a :=
    conditionMap_mem_tru _ _ _ _ hxmem rfl
  have hmax : ∀ y ∈ conditionMap S (d.writeExpr a v).entries a,
      y ≠ (SymCondition.tru, (⟨a, v, d.epoch⟩ : MemoryEntry)) →
      y.2.epoch < (SymCondition.tru, (⟨a, v, d.epoch⟩ : MemoryEntry)).2.epoch := by
    intro y hy hne
    obtain ⟨hyent, htru, hsat⟩ := conditionMap_mem_strong S _ a y hy
    rw [hsh] at hyent
    rcases List.mem_append.mp hyent with hy1 | hy1
    · obtain ⟨hna, hold⟩ := h1 y.2 hy1
      exact hep y.2 hold hna (hsat hna)
    · rcases List.mem_cons.mp hy1 with hy2 | hy2
      · have hya : y.2.addr = a := by rw [hy2]
        have : y = (SymCondition.tru, y.2) := htru hya
        rw [hy2] at this
        exact absurd this hne
      · obtain ⟨hna, hold⟩ := h2 y.2 hy2
        exact hep y.2 hold hna (hsat hna)
  obtain ⟨t, hsort⟩ := sortEpochDesc_eq_cons _ _ hxin hmax
  have hscan : scanPerfect (sortEpochDesc
      (conditionMap S (d.writeExpr a v).entries a)) = ([], some v) := by
    rw [hsort]
    simp [scanPerfect]
  simp [MemoryData.readExpr, hscan, buildTree, castIfNeeded]

/-- The sat-alias epoch bound survives a write at the queried address. -/
lemma hep_after_write (S : Solver) (d : MemoryData) (a v : SymExpr) (hwf : d.Wf)
    (hep : ∀ e ∈ d.entries, e.addr ≠ a → S.checkEqualSat e.addr a = true →
      e.epoch < d.epoch) :
    ∀ e ∈ (d.writeExpr a v).entries, e.addr ≠ a →
      S.checkEqualSat e.addr a = true → e.epoch < (d.writeExpr a v).epoch := by
  obtain ⟨l1, l2, hsh, h1, h2, hle⟩ := writeExpr_shape d a v hwf
  intro e he hne hsat
  rw [hsh] at he
  rcases List.mem_append.mp he with he1 | he1
  · exact lt_of_lt_of_le (hep e (h1 e he1).2 hne hsat) hle
  · rcases List.mem_cons.mp he1 with rfl | he1
    · exact absurd rfl hne
    · exact lt_of_lt_of_le (hep e (h2 e he1).2 hne hsat) hle

/-- Reading the same address twice with no intervening write returns the same
expression, under either strategy. -/
lemma readExpr_read_twice (S : Solver) (strat : MemoryStrategy) (d : MemoryData)
    (a : SymExpr) (dt : DataType) :
    (MemoryData.readExpr S strat (MemoryData.readExpr S strat d a dt).2 a dt).1 =
      (MemoryData.readExpr S strat d a dt).1 := by
  cases strat with
  | ConditionalTrees =>
      cases hscan : scanPerfect (sortEpochDesc (conditionMap S d.entries a)) with
      | mk kept opt =>
          cases opt with
          | some value => simp [MemoryData.readExpr, hscan]
          | none =>
              obtain ⟨hkept, hnotru⟩ := scanPerfect_none_inv _ _ hscan
              have hno : ∀ e ∈ d.entries, e.addr ≠ a :=
                (scanPerfect_ct_none S d a kept hscan).2
              have hcm2 : conditionMap S
                  ((d.generateDefaultSymbol a dt).2).entries a =
                  conditionMap S d.entries a ++
                    [(SymCondition.tru, ⟨a, d.getDefaultValue dt, 0⟩)] :=
                conditionMap_append_tru S d.entries a _ rfl
              have hsort2 : sortEpochDesc (conditionMap S
                  ((d.generateDefaultSymbol a dt).2).entries a) =
                  sortEpochDesc (conditionMap S d.entries a) ++
                    [(SymCondition.tru, ⟨a, d.getDefaultValue dt, 0⟩)] := by
                rw [hcm2]
                exact sortEpochDesc_append_zero _ _ rfl
              have hscan2 : scanPerfect (sortEpochDesc (conditionMap S
                  ((d.generateDefaultSymbol a dt).2).entries a)) =
                  (sortEpochDesc (conditionMap S d.entries a),
                   some (d.getDefaultValue dt)) := by
                rw [hsort2]
                exact scanPerfect_append_tru _ _ hnotru
              simp only [MemoryData.readExpr, hscan, hscan2]
              rw [hkept]
  | PerfectMatches =>
      cases hnm : newestMatch d.entries a with
      | some p =>
          obtain ⟨value, ep⟩ := p
          simp [MemoryData.readExpr, hnm]
      | none =>
          have hno := newestMatch_none_inv _ _ hnm
          have hnm2 : newestMatch ((d.generateDefaultSymbol a dt).2).entries a =
              some (d.getDefaultValue dt, 0) := by
            show newestMatch (d.entries ++ [⟨a, d.getDefaultValue dt, 0⟩]) a = _
            have := newestMatch_unique d.entries ⟨a, d.getDefaultValue dt, 0⟩ [] a rfl
              hno (by simp)
            simpa using this
          simp only [MemoryData.readExpr, hnm, hnm2]
          rfl

/-- C2: for every symbolic memory, address expression and width, two
consecutive reads with no intervening write return the same expression, under
either strategy: the default symbol generated on a first read of an unseen
address is memoized as a zero-epoch entry, and default symbol generation is
idempotent per address expression. The same holds for read_direct, which reads
at the pointer-constant address expression. -/
theorem c2_default_symbol_memoized :
    (∀ (S : Solver) (strat : MemoryStrategy) (d : MemoryData) (a : SymExpr)
        (dt : DataType),
      (MemoryData.readExpr S strat (MemoryData.readExpr S strat d a dt).2 a dt).1 =
        (MemoryData.readExpr S strat d a dt).1) ∧
    (∀ (S : Solver) (strat : MemoryStrategy) (d : MemoryData) (addr : Nat)
        (dt : DataType),
      (MemoryData.readDirect S strat (MemoryData.readDirect S strat d addr dt).2 addr dt).1 =
        (MemoryData.readDirect S strat d addr dt).1) :=
  ⟨fun S strat d a dt => readExpr_read_twice S strat d a dt,
   fun S strat d addr dt => readExpr_read_twice S strat d (.fromPtr addr) dt⟩

/-- C1 (amended): write-then-read at the syntactically identical address and
the width of the written value is the identity, and a second write is
last-write-wins, for every well-formed memory under PerfectMatches; under
ConditionalTrees this additionally requires that every other entry the solver
considers possibly equal to the written address is strictly older than the
epoch the write assigns (an overwrite elsewhere can produce an epoch tie, in
which case the read wraps the written value in an if-then-else tree instead of
returning it alone). -/
theorem c1_write_read_identity :
    (∀ (S : Solver) (d : MemoryData) (a v v2 : SymExpr), d.Wf →
      (MemoryData.readExpr S .PerfectMatches (d.writeExpr a v) a v.dataType).1 = v ∧
      (MemoryData.readExpr S .PerfectMatches ((d.writeExpr a v).writeExpr a v2) a
        v2.dataType).1 = v2) ∧
    (∀ (S : Solver) (d : MemoryData) (a v v2 : SymExpr), d.Wf →
      (∀ e ∈ d.entries, e.addr ≠ a → S.checkEqualSat e.addr a = true →
        e.epoch < d.epoch) →
      (MemoryData.readExpr S .ConditionalTrees (d.writeExpr a v) a v.dataType).1 = v ∧
      (MemoryData.readExpr S .ConditionalTrees ((d.writeExpr a v).writeExpr a v2) a
        v2.dataType).1 = v2) := by
  constructor
  · intro S d a v v2 hwf
    exact ⟨pm_write_read S d a v hwf,
      pm_write_read S (d.writeExpr a v) a v2 (writeExpr_wf _ _ _ hwf)⟩
  · intro S d a v v2 hwf hep
    exact ⟨ct_write_read S d a v hwf hep,
      ct_write_read S (d.writeExpr a v) a v2 (writeExpr_wf _ _ _ hwf)
        (hep_after_write S d a v hwf hep)⟩

/-- Witness for the amended C1 at concrete inputs. -/
theorem c1_write_read_identity_witness :
    (MemoryData.readExpr permissiveSolver .ConditionalTrees
      ((SymMemory.new "mem" .ConditionalTrees).data.writeExpr symY
        (.int ⟨.n64, 7⟩)) symY .n64).1 = .int ⟨.n64, 7⟩ ∧
    (MemoryData.readExpr permissiveSolver .PerfectMatches
      ((SymMemory.new "reg" .PerfectMatches).data.writeExpr symY
        (.int ⟨.n64, 7⟩)) symY .n64).1 = .int ⟨.n64, 7⟩ :=
  ⟨(c1_write_read_identity.2 permissiveSolver
      (SymMemory.new "mem" .ConditionalTrees).data symY (.int ⟨.n64, 7⟩)
      (.int ⟨.n64, 9⟩) (by simp [MemoryData.Wf, SymMemory.new])
      (by simp [SymMemory.new])).1,
   (c1_write_read_identity.1 permissiveSolver
      (SymMemory.new "reg" .PerfectMatches).data symY (.int ⟨.n64, 7⟩)
      (.int ⟨.n64, 9⟩) (by simp [MemoryData.Wf, SymMemory.new])).1⟩

/-- C1 counterexample: on the reachable ConditionalTrees memory built by
write x := 4; write x := 5; write y := 7, with a solver that reports the
equality of the two free symbols x and y as satisfiable, a read back at the
syntactically identical address y and the written width does not return the
written value: the epoch tie created by the overwrite makes the read wrap it
in an if-then-else tree. -/
theorem c1_counterexample :
    (MemoryData.readExpr permissiveSolver .ConditionalTrees tieMemory symY
      .n64).1 ≠ .int ⟨.n64, 7⟩ ∧
    tieMemory = (((SymMemory.new "mem" .ConditionalTrees).data.writeExpr symX
      (.int ⟨.n64, 4⟩)).writeExpr symX (.int ⟨.n64, 5⟩)).writeExpr symY
      (.int ⟨.n64, 7⟩) := by
  exact ⟨by decide, rfl⟩

lemma writeExpr_epochsLe (d : MemoryData) (a v : SymExpr) (h : d.EpochsLe) :
    (d.writeExpr a v).EpochsLe := by
  unfold MemoryData.EpochsLe at h ⊢
  unfold MemoryData.writeExpr
  cases hwe : writeEntries d.entries ⟨a, v, d.epoch⟩ with
  | none =>
      intro e he
      rcases List.mem_append.mp he with he1 | he1
      · exact le_trans (h e he1) (Nat.le_succ _)
      · rcases List.mem_singleton.mp he1 with rfl
        exact Nat.le_succ _
  | some es =>
      obtain ⟨l1, e0, l2, h1, _, _, h4⟩ := writeEntries_eq_some _ _ _ hwe
      show ∀ e ∈ es, e.epoch ≤ d.epoch
      rw [h4]
      intro e he
      rcases List.mem_append.mp he with he1 | he1
      · exact h e (h1 ▸ List.mem_append_left _ he1)
      · rcases List.mem_cons.mp he1 with rfl | he1
        · exact le_refl _
        · exact h e (h1 ▸ List.mem_append_right _ (List.mem_cons_of_mem _ he1))

/-- C6 (amended): the epoch counter starts at 1 on a blank memory; a write at
an unwritten address appends one entry stamped with the current counter and
bumps the counter by one; an overwrite of a syntactically equal address keeps
the counter and re-stamps the entry in place with the current counter (so a
later append can share its epoch: position order is not strictly increasing in
epochs after an overwrite); auto-generated default symbols are memoized as
zero-epoch entries; at most one entry exists per syntactically identical
address, preserved by writes and reads; and entry epochs never exceed the
counter, so writes, which stamp the current counter, always shadow zero-epoch
defaults. -/
theorem c6_epoch_invariants :
    (∀ (name : String) (strat : MemoryStrategy),
      (SymMemory.new name strat).data.epoch = 1 ∧
      (SymMemory.new name strat).data.entries = []) ∧
    (∀ (d : MemoryData) (a v : SymExpr), (∀ e ∈ d.entries, e.addr ≠ a) →
      (d.writeExpr a v).epoch = d.epoch + 1 ∧
      (d.writeExpr a v).entries = d.entries ++ [⟨a, v, d.epoch⟩]) ∧
    (∀ (d : MemoryData) (a v : SymExpr) (e0 : MemoryEntry), d.Wf →
      e0 ∈ d.entries → e0.addr = a →
      (d.writeExpr a v).epoch = d.epoch ∧
      (⟨a, v, d.epoch⟩ : MemoryEntry) ∈ (d.writeExpr a v).entries ∧
      (d.writeExpr a v).entries.length = d.entries.length) ∧
    (∀ (d : MemoryData) (a : SymExpr) (dt : DataType),
      (d.generateDefaultSymbol a dt).2.entries =
        d.entries ++ [⟨a, d.getDefaultValue dt, 0⟩]) ∧
    (∀ (d : MemoryData) (a v : SymExpr), d.Wf → (d.writeExpr a v).Wf) ∧
    (∀ (S : Solver) (strat : MemoryStrategy) (d : MemoryData) (a : SymExpr)
      (dt : DataType), d.Wf → ((MemoryData.readExpr S strat d a dt).2).Wf) ∧
    (∀ (d : MemoryData) (a v : SymExpr), d.EpochsLe → (d.writeExpr a v).EpochsLe) := by
  refine ⟨fun name strat => ⟨rfl, rfl⟩,
    fun d a v h => ⟨?_, ?_⟩,
    fun d a v e0 hwf he0 ha0 => ?_,
    fun d a dt => rfl,
    fun d a v hwf => writeExpr_wf d a v hwf,
    fun S strat d a dt hwf => readExpr_wf S strat d a dt hwf,
    fun d a v h => writeExpr_epochsLe d a v h⟩
  · rw [writeExpr_append d a v h]
  · rw [writeExpr_append d a v h]
  · obtain ⟨l1, l2, hsplit⟩ := List.append_of_mem he0
    have hpw := hwf
    unfold MemoryData.Wf at hpw
    rw [hsplit, List.pairwise_append, List.pairwise_cons] at hpw
    obtain ⟨_, _, hcross⟩ := hpw
    have hl1 : ∀ e ∈ l1, e.addr ≠ a := fun e he =>
      ha0 ▸ hcross e he e0 (List.mem_cons_self _ _)
    rw [writeExpr_overwrite d a v l1 e0 l2 hsplit ha0 hl1]
    refine ⟨rfl, List.mem_append_right _ (List.mem_cons_self _ _), ?_⟩
    rw [hsplit]
    simp

/-- Witness for the amended C6 at concrete inputs. -/
theorem c6_epoch_invariants_witness :
    ((SymMemory.new "mem" .ConditionalTrees).data.epoch = 1 ∧
      (SymMemory.new "mem" .ConditionalTrees).data.entries = []) ∧
    (((SymMemory.new "mem" .ConditionalTrees).data.writeExpr symX
        (.int ⟨.n64, 4⟩)).epoch = 2) ∧
    ((((SymMemory.new "mem" .ConditionalTrees).data.writeExpr symX
        (.int ⟨.n64, 4⟩)).writeExpr symX (.int ⟨.n64, 5⟩)).epoch = 2) :=
  ⟨c6_epoch_invariants.1 "mem" .ConditionalTrees,
   by
    have h := (c6_epoch_invariants.2.1 (SymMemory.new "mem" .ConditionalTrees).data
      symX (.int ⟨.n64, 4⟩) (by decide)).1
    rw [h]
    decide,
   by
    have h := ((c6_epoch_invariants.2.2.1
      ((SymMemory.new "mem" .ConditionalTrees).data.writeExpr symX (.int ⟨.n64, 4⟩))
      symX (.int ⟨.n64, 5⟩) ⟨symX, (.int ⟨.n64, 4⟩), 1⟩ (by decide) (by decide)
      (by decide))).1
    rw [h]
    decide⟩

/-- C6 counterexample: on the reachable memory built by write x := 4;
write x := 5 (overwrite); write y := 7, the two distinct entries both carry
epoch 2, so the epochs of distinct entries do not strictly increase with
insertion order. -/
theorem c6_counterexample :
    ¬ tieMemory.entries.Pairwise (fun e1 e2 => e1.epoch < e2.epoch) ∧
    tieMemory.entries.map (fun e => e.epoch) = [2, 2] ∧ tieMemory.Wf := by
  exact ⟨by decide, by decide, by decide⟩

/-! ## Lemmas about the microcode encoder -/

lemma EncStep.refl (lo : Nat) (e : MicroEncoder) : EncStep lo e e :=
  ⟨le_refl _, [], by simp, by simp, by simp⟩

lemma EncStep.trans {lo : Nat} {e1 e2 e3 : MicroEncoder}
    (h1 : EncStep lo e1 e2) (h2 : EncStep lo e2 e3) : EncStep lo e1 e3 := by
  obtain ⟨ht1, d1, ho1, hm1, hr1⟩ := h1
  obtain ⟨ht2, d2, ho2, hm2, hr2⟩ := h2
  refine ⟨le_trans ht1 ht2, d1 ++ d2, by rw [ho2, ho1, List.append_assoc], ?_, ?_⟩
  · intro op hop
    rcases List.mem_append.mp hop with hop | hop
    · exact hm1 op hop
    · exact hm2 op hop
  · intro op hop i hi
    rcases List.mem_append.mp hop with hop | hop
    · exact ⟨(hr1 op hop i hi).1, lt_of_lt_of_le (hr1 op hop i hi).2 ht2⟩
    · exact hr2 op hop i hi

lemma EncStep.append (lo : Nat) (e : MicroEncoder) (delta : List MicroOperation)
    (newTemps : Nat) (ht : e.temps ≤ newTemps)
    (hm : ∀ op ∈ delta, movWidthsOk op = true)
    (hr : ∀ op ∈ delta, ∀ i ∈ op.tempIdxs, lo ≤ i ∧ i < newTemps) :
    EncStep lo e { e with ops := e.ops ++ delta, temps := newTemps } :=
  ⟨ht, delta, rfl, hm, hr⟩

lemma EncStep.temps_le {lo : Nat} {e1 e2 : MicroEncoder} (h : EncStep lo e1 e2) :
    e1.temps ≤ e2.temps := h.1

lemma encodeLoadReg_spec (lo : Nat) (e : MicroEncoder) (r : Register)
    (e1 : MicroEncoder) (t : Temporary) (hlo : lo ≤ e.temps)
    (h : e.encodeLoadReg r = (e1, t)) :
    EncStep lo e e1 ∧ lo ≤ t.idx ∧ t.idx < e1.temps ∧ t.dt = r.dataType := by
  rw [MicroEncoder.encodeLoadReg, Prod.mk.injEq] at h
  obtain ⟨h1, h2⟩ := h
  subst h1
  subst h2
  refine ⟨EncStep.append lo e _ _ (Nat.le_succ _) ?_ ?_, hlo, Nat.lt_succ_self _, rfl⟩
  · intro op hop
    rcases List.mem_singleton.mp hop with rfl
    simp [movWidthsOk, Location.dataType]
  · intro op hop i hi
    rcases List.mem_singleton.mp hop with rfl
    simp only [MicroOperation.tempIdxs, Location.tempIdxs, List.append_nil] at hi
    rcases List.mem_singleton.mp hi with rfl
    exact ⟨hlo, Nat.lt_succ_self _⟩

lemma encodeLoadConstant_spec (lo : Nat) (e : MicroEncoder) (dt : DataType)
    (c : Nat) (e1 : MicroEncoder) (t : Temporary) (hlo : lo ≤ e.temps)
    (h : e.encodeLoadConstant dt c = (e1, t)) :
    EncStep lo e e1 ∧ lo ≤ t.idx ∧ t.idx < e1.temps ∧ t.dt = dt := by
  rw [MicroEncoder.encodeLoadConstant, Prod.mk.injEq] at h
  obtain ⟨h1, h2⟩ := h
  subst h1
  subst h2
  refine ⟨EncStep.append lo e _ _ (Nat.le_succ _) ?_ ?_, hlo, Nat.lt_succ_self _, rfl⟩
  · intro op hop
    rcases List.mem_singleton.mp hop with rfl
    simp [movWidthsOk]
  · intro op hop i hi
    rcases List.mem_singleton.mp hop with rfl
    simp only [MicroOperation.tempIdxs, Location.tempIdxs] at hi
    rcases List.mem_singleton.mp hi with rfl
    exact ⟨hlo, Nat.lt_succ_self _⟩

lemma encodeGetLocation_spec (lo : Nat) (e : MicroEncoder) (o : Operand)
    (e1 : MicroEncoder) (loc : Location) (hlo : lo ≤ e.temps)
    (h : e.encodeGetLocation o = (e1, loc)) :
    EncStep lo e e1 ∧ LocInRange lo e1.temps loc ∧ loc.dataType = o.dataType := by
  cases o with
  | direct r =>
      rw [MicroEncoder.encodeGetLocation, Prod.mk.injEq] at h
      obtain ⟨h1, h2⟩ := h
      subst h1
      subst h2
      exact ⟨EncStep.refl lo e, by intro i hi; simp [Location.tempIdxs] at hi, rfl⟩
  | indirect dt r =>
      rw [MicroEncoder.encodeGetLocation] at h
      cases hr : e.encodeLoadReg r with
      | mk er reg =>
          rw [hr, Prod.mk.injEq] at h
          obtain ⟨h1, h2⟩ := h
          subst h1
          subst h2
          obtain ⟨hstep, hge, hlt, _⟩ := encodeLoadReg_spec lo e r er reg hlo hr
          refine ⟨hstep, ?_, rfl⟩
          intro i hi
          simp only [Location.tempIdxs] at hi
          rcases List.mem_singleton.mp hi with rfl
          exact ⟨hge, hlt⟩
  | indirectDisplaced dt r displace =>
      rw [MicroEncoder.encodeGetLocation] at h
      cases hr : e.encodeLoadReg r with
      | mk er reg =>
          rw [hr, Prod.mk.injEq] at h
          obtain ⟨h1, h2⟩ := h
          subst h1
          subst h2
          obtain ⟨hstep, hge, hlt, _⟩ := encodeLoadReg_spec lo e r er reg hlo hr
          have hlo2 : lo ≤ er.temps := le_trans hlo hstep.temps_le
          refine ⟨hstep.trans (EncStep.append lo er _ _ (by omega) ?_ ?_), ?_, rfl⟩
          · intro op hop
            rcases List.mem_cons.mp hop with rfl | hop
            · simp [movWidthsOk]
            · rcases List.mem_singleton.mp hop with rfl
              simp [movWidthsOk]
          · intro op hop i hi
            rcases List.mem_cons.mp hop with rfl | hop
            · simp only [MicroOperation.tempIdxs, Location.tempIdxs] at hi
              rcases List.mem_singleton.mp hi with rfl
              exact ⟨hlo2, by omega⟩
            · rcases List.mem_singleton.mp hop with rfl
              simp only [MicroOperation.tempIdxs] at hi
              rcases List.mem_cons.mp hi with rfl | hi
              · exact ⟨by omega, by omega⟩
              · rcases List.mem_cons.mp hi with rfl | hi
                · exact ⟨by omega, by omega⟩
                · rcases List.mem_singleton.mp hi with rfl
                  exact ⟨hlo2, by omega⟩
          · intro i hi
            simp only [Location.tempIdxs] at hi
            rcases List.mem_singleton.mp hi with rfl
            refine ⟨by omega, ?_⟩
            show er.temps + 1 < er.temps + 2
            omega
  | immediate dt value =>
      rw [MicroEncoder.encodeGetLocation] at h
      cases hc : e.encodeLoadConstant dt value with
      | mk ec t =>
          rw [hc, Prod.mk.injEq] at h
          obtain ⟨h1, h2⟩ := h
          subst h1
          subst h2
          obtain ⟨hstep, hge, hlt, hdt⟩ := encodeLoadConstant_spec lo e dt value ec t hlo hc
          refine ⟨hstep, ?_, hdt⟩
          intro i hi
          simp only [Location.tempIdxs] at hi
          rcases List.mem_singleton.mp hi with rfl
          exact ⟨hge, hlt⟩
  | offset off =>
      rw [MicroEncoder.encodeGetLocation] at h
      cases hc : e.encodeLoadConstant .n64 (u64ofInt off) with
      | mk ec t =>
          rw [hc, Prod.mk.injEq] at h
          obtain ⟨h1, h2⟩ := h
          subst h1
          subst h2
          obtain ⟨hstep, hge, hlt, hdt⟩ :=
            encodeLoadConstant_spec lo e .n64 (u64ofInt off) ec t hlo hc
          refine ⟨hstep, ?_, hdt⟩
          intro i hi
          simp only [Location.tempIdxs] at hi
          rcases List.mem_singleton.mp hi with rfl
          exact ⟨hge, hlt⟩

lemma encodeLoadOperand_spec (lo : Nat) (e : MicroEncoder) (o : Operand)
    (e1 : MicroEncoder) (loc : Location) (t : Temporary) (hlo : lo ≤ e.temps)
    (h : e.encodeLoadOperand o = (e1, (loc, t))) :
    EncStep lo e e1 ∧ LocInRange lo e1.temps loc ∧ lo ≤ t.idx ∧ t.idx < e1.temps ∧
      t.dt = loc.dataType ∧ loc.dataType = o.dataType := by
  rw [MicroEncoder.encodeLoadOperand] at h
  cases hgl : e.encodeGetLocation o with
  | mk eg lg =>
      rw [hgl] at h
      obtain ⟨hstep, hrange, hdt⟩ := encodeGetLocation_spec lo e o eg lg hlo hgl
      have hlo2 : lo ≤ eg.temps := le_trans hlo hstep.temps_le
      cases lg with
      | temp t0 =>
          simp only [Prod.mk.injEq] at h
          obtain ⟨h1, h2, h3⟩ := h
          subst h1
          subst h2
          subst h3
          have ht0 := hrange t0.idx (by simp [Location.tempIdxs])
          exact ⟨hstep, hrange, ht0.1, ht0.2, rfl, hdt⟩
      | direct dt0 space0 addr0 =>
          simp only [Prod.mk.injEq] at h
          obtain ⟨h1, h2, h3⟩ := h
          subst h1
          subst h2
          subst h3
          refine ⟨hstep.trans (EncStep.append lo eg _ _ (Nat.le_succ _) ?_ ?_),
            ?_, hlo2, Nat.lt_succ_self _, rfl, hdt⟩
          · intro op hop
            rcases List.mem_singleton.mp hop with rfl
            simp [movWidthsOk, Location.dataType]
          · intro op hop i hi
            rcases List.mem_singleton.mp hop with rfl
            simp only [MicroOperation.tempIdxs, Location.tempIdxs,
              List.append_nil] at hi
            rcases List.mem_singleton.mp hi with rfl
            exact ⟨hlo2, Nat.lt_succ_self _⟩
          · intro i hi
            simp [Location.tempIdxs] at hi
      | indirect dt0 space0 t0 =>
          simp only [Prod.mk.injEq] at h
          obtain ⟨h1, h2, h3⟩ := h
          subst h1
          subst h2
          subst h3
          have ht0 := hrange t0.idx (by simp [Location.tempIdxs])
          refine ⟨hstep.trans (EncStep.append lo eg _ _ (Nat.le_succ _) ?_ ?_),
            ?_, hlo2, Nat.lt_succ_self _, rfl, hdt⟩
          · intro op hop
            rcases List.mem_singleton.mp hop with rfl
            simp [movWidthsOk, Location.dataType]
          · intro op hop i hi
            rcases List.mem_singleton.mp hop with rfl
            simp only [MicroOperation.tempIdxs, Location.tempIdxs] at hi
            rcases List.mem_cons.mp hi with rfl | hi
            · exact ⟨hlo2, Nat.lt_succ_self _⟩
            · rcases List.mem_singleton.mp hi with rfl
              exact ⟨ht0.1, Nat.lt_succ_of_lt ht0.2⟩
          · intro i hi
            simp only [Location.tempIdxs] at hi
            rcases List.mem_singleton.mp hi with rfl
            exact ⟨ht0.1, Nat.lt_succ_of_lt ht0.2⟩

lemma EncStep.setComparison {lo : Nat} {e e1 : MicroEncoder}
    (h : EncStep lo e e1) (c : Option Comparison) :
    EncStep lo e { e1 with lastComparison := c } := h

lemma encodeMove_ok (lo : Nat) (e : MicroEncoder) (dest src : Location)
    (hw : src.dataType = dest.dataType) (hd : LocInRange lo e.temps dest)
    (hs : LocInRange lo e.temps src) :
    e.encodeMove dest src = .ok { e with ops := e.ops ++ [.mov dest src] } ∧
    EncStep lo e { e with ops := e.ops ++ [.mov dest src] } := by
  constructor
  · rw [MicroEncoder.encodeMove, if_neg (by simp [hw])]
  · refine EncStep.append lo e _ _ (le_refl _) ?_ ?_
    · intro op hop
      rcases List.mem_singleton.mp hop with rfl
      simp [movWidthsOk, hw]
    · intro op hop i hi
      rcases List.mem_singleton.mp hop with rfl
      simp only [MicroOperation.tempIdxs] at hi
      rcases List.mem_append.mp hi with hi | hi
      · exact hd i hi
      · exact hs i hi

lemma encodeMove_err (e : MicroEncoder) (dest src : Location)
    (hw : src.dataType ≠ dest.dataType) :
    e.encodeMove dest src = .err "incompatible data types for move" := by
  rw [MicroEncoder.encodeMove, if_pos hw]

lemma encodeLoadBoth_spec (lo : Nat) (e : MicroEncoder) (inst : Instruction)
    (e1 : MicroEncoder) (dest : Location) (left : Temporary) (src : Location)
    (right : Temporary) (hlo : lo ≤ e.temps)
    (h : e.encodeLoadBoth inst = .ok (e1, ((dest, left), (src, right)))) :
    EncStep lo e e1 ∧ LocInRange lo e1.temps dest ∧
      lo ≤ left.idx ∧ left.idx < e1.temps ∧ lo ≤ right.idx ∧ right.idx < e1.temps ∧
      left.dt = dest.dataType ∧ right.dt = left.dt := by
  rw [MicroEncoder.encodeLoadBoth] at h
  cases hg0 : inst.getOperand 0 with
  | err m => rw [hg0] at h; exact absurd h (by simp)
  | fatal m => rw [hg0] at h; exact absurd h (by simp)
  | ok o0 =>
    rw [hg0] at h
    cases hg1 : inst.getOperand 1 with
    | err m => rw [hg1] at h; exact absurd h (by simp)
    | fatal m => rw [hg1] at h; exact absurd h (by simp)
    | ok o1 =>
      rw [hg1] at h
      cases hl0 : e.encodeLoadOperand o0 with
      | mk ea pa =>
        obtain ⟨loc0, t0⟩ := pa
        cases hl1 : ea.encodeLoadOperand o1 with
        | mk eb pb =>
          obtain ⟨loc1, t1⟩ := pb
          obtain ⟨hstep0, hr0, hge0, hlt0, hdt0, _⟩ :=
            encodeLoadOperand_spec lo e o0 ea loc0 t0 hlo hl0
          have hlo1 : lo ≤ ea.temps := le_trans hlo hstep0.temps_le
          obtain ⟨hstep1, hr1, hge1, hlt1, hdt1, _⟩ :=
            encodeLoadOperand_spec lo ea o1 eb loc1 t1 hlo1 hl1
          simp only [hl0, hl1] at h
          by_cases hdt : t0.dt = t1.dt
          · rw [if_pos hdt] at h
            simp only [EncResult.ok.injEq, Prod.mk.injEq] at h
            obtain ⟨he, ⟨hd, hl⟩, hs, hr⟩ := h
            subst he; subst hd; subst hl; subst hs; subst hr
            refine ⟨hstep0.trans hstep1, ?_, hge0, lt_of_lt_of_le hlt0 hstep1.temps_le,
              hge1, hlt1, hdt0, hdt.symm⟩
            intro i hi
            have := hr0 i hi
            exact ⟨this.1, lt_of_lt_of_le this.2 hstep1.temps_le⟩
          · rw [if_neg hdt] at h
            simp only [EncResult.ok.injEq, Prod.mk.injEq] at h
            obtain ⟨he, ⟨hd, hl⟩, hs, hr⟩ := h
            subst hd; subst hl; subst hs
            have hstep2 : EncStep lo eb
                { eb with ops := eb.ops ++ [.cast t1 t0.dt true] } := by
              refine EncStep.append lo eb _ _ (le_refl _) ?_ ?_
              · intro op hop
                rcases List.mem_singleton.mp hop with rfl
                simp [movWidthsOk]
              · intro op hop i hi
                rcases List.mem_singleton.mp hop with rfl
                simp only [MicroOperation.tempIdxs] at hi
                rcases List.mem_singleton.mp hi with rfl
                exact ⟨hge1, hlt1⟩
            rw [← he]
            refine ⟨(hstep0.trans hstep1).trans hstep2, ?_, hge0,
              lt_of_lt_of_le hlt0 hstep1.temps_le, ?_, ?_, hdt0, ?_⟩
            · intro i hi
              have := hr0 i hi
              exact ⟨this.1, lt_of_lt_of_le this.2 hstep1.temps_le⟩
            · rw [← hr]
              exact hge1
            · rw [← hr]
              exact hlt1
            · rw [← hr]

lemma encodeBinop_spec (lo : Nat) (e : MicroEncoder) (inst : Instruction)
    (binop : Temporary → Temporary → Temporary → MicroOperation)
    (e1 : MicroEncoder) (left right : Temporary) (hlo : lo ≤ e.temps)
    (hbin : ∀ x a b : Temporary, movWidthsOk (binop x a b) = true ∧
      (binop x a b).tempIdxs = [x.idx, a.idx, b.idx])
    (h : e.encodeBinop inst binop = .ok (e1, (left, right))) :
    EncStep lo e e1 := by
  rw [MicroEncoder.encodeBinop] at h
  cases hlb : e.encodeLoadBoth inst with
  | err m => rw [hlb] at h; exact absurd h (by simp)
  | fatal m => rw [hlb] at h; exact absurd h (by simp)
  | ok p =>
    obtain ⟨ea, ⟨dest, l⟩, src, r⟩ := p
    obtain ⟨hstep, hrd, hgel, hltl, hger, hltr, hdtl, _⟩ :=
      encodeLoadBoth_spec lo e inst ea dest l src r hlo hlb
    rw [hlb] at h
    simp only [EncResult.ok.injEq, Prod.mk.injEq] at h
    obtain ⟨he, hl, hr⟩ := h
    subst hl; subst hr
    rw [← he]
    refine hstep.trans (EncStep.append lo ea _ _ (Nat.le_succ _) ?_ ?_)
    · intro op hop
      rcases List.mem_cons.mp hop with rfl | hop
      · exact (hbin _ _ _).1
      · rcases List.mem_singleton.mp hop with rfl
        simp [movWidthsOk, Location.dataType, hdtl]
    · intro op hop i hi
      rcases List.mem_cons.mp hop with rfl | hop
      · rw [(hbin _ _ _).2] at hi
        rcases List.mem_cons.mp hi with rfl | hi
        · exact ⟨le_trans hlo hstep.temps_le, Nat.lt_succ_self _⟩
        · rcases List.mem_cons.mp hi with rfl | hi
          · exact ⟨hgel, Nat.lt_succ_of_lt hltl⟩
          · rcases List.mem_singleton.mp hi with rfl
            exact ⟨hger, Nat.lt_succ_of_lt hltr⟩
      · rcases List.mem_singleton.mp hop with rfl
        simp only [MicroOperation.tempIdxs, Location.tempIdxs] at hi
        rcases List.mem_append.mp hi with hi | hi
        · have := hrd i hi
          exact ⟨this.1, Nat.lt_succ_of_lt this.2⟩
        · rcases List.mem_singleton.mp hi with rfl
          exact ⟨le_trans hlo hstep.temps_le, Nat.lt_succ_self _⟩

lemma encodeJump_spec (lo : Nat) (e : MicroEncoder) (o : Operand) (c : Condition)
    (e1 : MicroEncoder) (hlo : lo ≤ e.temps) (h : e.encodeJump o c = .ok e1) :
    EncStep lo e e1 := by
  cases o with
  | offset off =>
      rw [MicroEncoder.encodeJump] at h
      simp only [EncResult.ok.injEq] at h
      rw [← h]
      refine EncStep.append lo e _ _ (Nat.le_succ _) ?_ ?_
      · intro op hop
        rcases List.mem_cons.mp hop with rfl | hop
        · simp [movWidthsOk]
        · rcases List.mem_singleton.mp hop with rfl
          simp [movWidthsOk]
      · intro op hop i hi
        rcases List.mem_cons.mp hop with rfl | hop
        · simp only [MicroOperation.tempIdxs, Location.tempIdxs] at hi
          rcases List.mem_singleton.mp hi with rfl
          exact ⟨hlo, Nat.lt_succ_self _⟩
        · rcases List.mem_singleton.mp hop with rfl
          simp only [MicroOperation.tempIdxs] at hi
          rcases List.mem_singleton.mp hi with rfl
          exact ⟨hlo, Nat.lt_succ_self _⟩
  | direct r => exact absurd h (by simp [MicroEncoder.encodeJump])
  | indirect dt r => exact absurd h (by simp [MicroEncoder.encodeJump])
  | indirectDisplaced dt r disp => exact absurd h (by simp [MicroEncoder.encodeJump])
  | immediate dt v => exact absurd h (by simp [MicroEncoder.encodeJump])

lemma LocInRange.mono {lo hi hi' : Nat} {loc : Location}
    (h : LocInRange lo hi loc) (hh : hi ≤ hi') : LocInRange lo hi' loc :=
  fun i hi0 => ⟨(h i hi0).1, lt_of_lt_of_le (h i hi0).2 hh⟩

lemma encodeSet_spec (lo : Nat) (e : MicroEncoder) (o : Operand) (c : Condition)
    (hlo : lo ≤ e.temps) :
    ∃ e1, e.encodeSet o c = .ok e1 ∧ EncStep lo e e1 := by
  rw [MicroEncoder.encodeSet]
  cases hgl : e.encodeGetLocation o with
  | mk ea loc =>
      simp only []
      obtain ⟨hstep, hr, _⟩ := encodeGetLocation_spec lo e o ea loc hlo hgl
      have hlo1 : lo ≤ ea.temps := le_trans hlo hstep.temps_le
      have hstep2 : EncStep lo ea { ea with
          ops := ea.ops ++ [MicroOperation.set ⟨loc.dataType, ea.temps⟩ c],
          temps := ea.temps + 1 } := by
        refine EncStep.append lo ea _ _ (Nat.le_succ _) ?_ ?_
        · intro op hop
          rcases List.mem_singleton.mp hop with rfl
          simp [movWidthsOk]
        · intro op hop i hi
          rcases List.mem_singleton.mp hop with rfl
          simp only [MicroOperation.tempIdxs] at hi
          rcases List.mem_singleton.mp hi with rfl
          exact ⟨hlo1, Nat.lt_succ_self _⟩
      set e2 : MicroEncoder := { ea with
        ops := ea.ops ++ [MicroOperation.set ⟨loc.dataType, ea.temps⟩ c],
        temps := ea.temps + 1 } with he2
      obtain ⟨hmove, hstep3⟩ := encodeMove_ok lo e2 loc
        (.temp ⟨loc.dataType, ea.temps⟩) rfl
        ((hr.mono (Nat.le_succ _)))
        (by
          intro i hi
          simp only [Location.tempIdxs] at hi
          rcases List.mem_singleton.mp hi with rfl
          exact ⟨hlo1, Nat.lt_succ_self _⟩)
      refine ⟨_, ?_, (hstep.trans hstep2).trans hstep3⟩
      show ((e2.encodeMove loc (Location.temp ⟨loc.dataType, ea.temps⟩)).unwrap) = _
      rw [hmove]
      rfl

lemma encodePush_spec (lo : Nat) (e : MicroEncoder) (src : Location)
    (hlo : lo ≤ e.temps) (hsrc : LocInRange lo e.temps src) :
    ∃ e1, e.encodePush src = .ok e1 ∧ EncStep lo e e1 := by
  rw [MicroEncoder.encodePush]
  cases hload : e.encodeLoadOperand (.direct .RSP) with
  | mk ea p =>
      obtain ⟨sp, stack⟩ := p
      simp only []
      obtain ⟨hstep, hrsp, hge, hlt, hdt, hdt2⟩ :=
        encodeLoadOperand_spec lo e (.direct .RSP) ea sp stack hlo hload
      have hlo1 : lo ≤ ea.temps := le_trans hlo hstep.temps_le
      have hstep2 : EncStep lo ea { ea with
          ops := ea.ops ++ [MicroOperation.const
              (.temp ⟨.n64, ea.temps⟩) ⟨.n64, src.dataType.bytes⟩,
            MicroOperation.sub stack stack ⟨.n64, ea.temps⟩],
          temps := ea.temps + 1 } := by
        refine EncStep.append lo ea _ _ (Nat.le_succ _) ?_ ?_
        · intro op hop
          rcases List.mem_cons.mp hop with rfl | hop
          · simp [movWidthsOk]
          · rcases List.mem_singleton.mp hop with rfl
            simp [movWidthsOk]
        · intro op hop i hi
          rcases List.mem_cons.mp hop with rfl | hop
          · simp only [MicroOperation.tempIdxs, Location.tempIdxs] at hi
            rcases List.mem_singleton.mp hi with rfl
            exact ⟨hlo1, Nat.lt_succ_self _⟩
          · rcases List.mem_singleton.mp hop with rfl
            simp only [MicroOperation.tempIdxs] at hi
            rcases List.mem_cons.mp hi with rfl | hi
            · exact ⟨hge, Nat.lt_succ_of_lt hlt⟩
            · rcases List.mem_cons.mp hi with rfl | hi
              · exact ⟨hge, Nat.lt_succ_of_lt hlt⟩
              · rcases List.mem_singleton.mp hi with rfl
                exact ⟨hlo1, Nat.lt_succ_self _⟩
      set e2 : MicroEncoder := { ea with
        ops := ea.ops ++ [MicroOperation.const
            (.temp ⟨.n64, ea.temps⟩) ⟨.n64, src.dataType.bytes⟩,
          MicroOperation.sub stack stack ⟨.n64, ea.temps⟩],
        temps := ea.temps + 1 } with he2
      have hte2 : e2.temps = ea.temps + 1 := rfl
      obtain ⟨hmove1, hstep3⟩ := encodeMove_ok lo e2
        (.indirect src.dataType 0 stack) src rfl
        (by
          intro i hi
          simp only [Location.tempIdxs] at hi
          rcases List.mem_singleton.mp hi with rfl
          exact ⟨hge, by rw [hte2]; exact Nat.lt_succ_of_lt hlt⟩)
        (hsrc.mono (le_trans hstep.temps_le (Nat.le_succ _)))
      rw [hmove1]
      simp only [EncResult.unwrap]
      set e3 : MicroEncoder := { e2 with
        ops := e2.ops ++ [.mov (.indirect src.dataType 0 stack) src] } with he3
      have hte3 : e3.temps = ea.temps + 1 := rfl
      have hws : (Location.temp stack).dataType = sp.dataType := by
        show stack.dt = sp.dataType
        exact hdt
      obtain ⟨hmove2, hstep4⟩ := encodeMove_ok lo e3 sp (.temp stack) hws
        ((hrsp.mono (by rw [hte3]; omega)))
        (by
          intro i hi
          simp only [Location.tempIdxs] at hi
          rcases List.mem_singleton.mp hi with rfl
          exact ⟨hge, by rw [hte3]; exact Nat.lt_succ_of_lt hlt⟩)
      rw [hmove2]
      exact ⟨_, rfl, ((hstep.trans hstep2).trans hstep3).trans hstep4⟩

lemma encodePop_spec (lo : Nat) (e : MicroEncoder) (dest : Location)
    (hlo : lo ≤ e.temps) (hdest : LocInRange lo e.temps dest) :
    ∃ e1, e.encodePop dest = .ok e1 ∧ EncStep lo e e1 := by
  rw [MicroEncoder.encodePop]
  cases hload : e.encodeLoadOperand (.direct .RSP) with
  | mk ea p =>
      obtain ⟨sp, stack⟩ := p
      simp only []
      obtain ⟨hstep, hrsp, hge, hlt, hdt, hdt2⟩ :=
        encodeLoadOperand_spec lo e (.direct .RSP) ea sp stack hlo hload
      have hlo1 : lo ≤ ea.temps := le_trans hlo hstep.temps_le
      obtain ⟨hmove1, hstep2⟩ := encodeMove_ok lo ea dest
        (.indirect dest.dataType 0 stack) rfl
        (hdest.mono hstep.temps_le)
        (by
          intro i hi
          simp only [Location.tempIdxs] at hi
          rcases List.mem_singleton.mp hi with rfl
          exact ⟨hge, hlt⟩)
      rw [hmove1]
      simp only [EncResult.unwrap]
      set e2 : MicroEncoder := { ea with
        ops := ea.ops ++ [.mov dest (.indirect dest.dataType 0 stack)] } with he2
      have hte2 : e2.temps = ea.temps := rfl
      have hstep3 : EncStep lo e2 { e2 with
          ops := e2.ops ++ [MicroOperation.const
              (.temp ⟨.n64, e2.temps⟩) ⟨.n64, dest.dataType.bytes⟩,
            MicroOperation.add stack stack ⟨.n64, e2.temps⟩],
          temps := e2.temps + 1 } := by
        refine EncStep.append lo e2 _ _ (Nat.le_succ _) ?_ ?_
        · intro op hop
          rcases List.mem_cons.mp hop with rfl | hop
          · simp [movWidthsOk]
          · rcases List.mem_singleton.mp hop with rfl
            simp [movWidthsOk]
        · intro op hop i hi
          rcases List.mem_cons.mp hop with rfl | hop
          · simp only [MicroOperation.tempIdxs, Location.tempIdxs] at hi
            rcases List.mem_singleton.mp hi with rfl
            exact ⟨by rw [hte2]; exact hlo1, Nat.lt_succ_self _⟩
          · rcases List.mem_singleton.mp hop with rfl
            simp only [MicroOperation.tempIdxs] at hi
            rcases List.mem_cons.mp hi with rfl | hi
            · exact ⟨hge, by rw [hte2]; exact Nat.lt_succ_of_lt hlt⟩
            · rcases List.mem_cons.mp hi with rfl | hi
              · exact ⟨hge, by rw [hte2]; exact Nat.lt_succ_of_lt hlt⟩
              · rcases List.mem_singleton.mp hi with rfl
                exact ⟨by rw [hte2]; exact hlo1, Nat.lt_succ_self _⟩
      set e3 : MicroEncoder := { e2 with
        ops := e2.ops ++ [MicroOperation.const
            (.temp ⟨.n64, e2.temps⟩) ⟨.n64, dest.dataType.bytes⟩,
          MicroOperation.add stack stack ⟨.n64, e2.temps⟩],
        temps := e2.temps + 1 } with he3
      have hte3 : e3.temps = ea.temps + 1 := rfl
      have hws : (Location.temp stack).dataType = sp.dataType := by
        show stack.dt = sp.dataType
        exact hdt
      obtain ⟨hmove2, hstep4⟩ := encodeMove_ok lo e3 sp (.temp stack) hws
        ((hrsp.mono (by rw [hte3]; omega)))
        (by
          intro i hi
          simp only [Location.tempIdxs] at hi
          rcases List.mem_singleton.mp hi with rfl
          exact ⟨hge, by rw [hte3]; exact Nat.lt_succ_of_lt hlt⟩)
      rw [hmove2]
      exact ⟨_, rfl, ((hstep.trans hstep2).trans hstep3).trans hstep4⟩

lemma encodeMoveCasted_spec (lo : Nat) (e : MicroEncoder) (inst : Instruction)
    (signed : Bool) (o0 o1 : Operand) (rest : List Operand) (hlo : lo ≤ e.temps)
    (hops : inst.operands = o0 :: o1 :: rest) :
    ∃ e1, e.encodeMoveCasted inst signed = .ok e1 ∧ EncStep lo e e1 := by
  have hg0 : inst.getOperand 0 = .ok o0 := by
    simp [Instruction.getOperand, hops]
  have hg1 : inst.getOperand 1 = .ok o1 := by
    simp [Instruction.getOperand, hops]
  rw [MicroEncoder.encodeMoveCasted, hg0, hg1]
  cases hgl : e.encodeGetLocation o0 with
  | mk ea dest =>
      simp only []
      obtain ⟨hstep, hrd, _⟩ := encodeGetLocation_spec lo e o0 ea dest hlo hgl
      have hlo1 : lo ≤ ea.temps := le_trans hlo hstep.temps_le
      cases hload : ea.encodeLoadOperand o1 with
      | mk eb p =>
          obtain ⟨loc1, t1⟩ := p
          obtain ⟨hstep1, _, hge1, hlt1, _, _⟩ :=
            encodeLoadOperand_spec lo ea o1 eb loc1 t1 hlo1 hload
          have hstep2 : EncStep lo eb { eb with
              ops := eb.ops ++ [MicroOperation.cast t1 dest.dataType signed] } := by
            refine EncStep.append lo eb _ _ (le_refl _) ?_ ?_
            · intro op hop
              rcases List.mem_singleton.mp hop with rfl
              simp [movWidthsOk]
            · intro op hop i hi
              rcases List.mem_singleton.mp hop with rfl
              simp only [MicroOperation.tempIdxs] at hi
              rcases List.mem_singleton.mp hi with rfl
              exact ⟨hge1, hlt1⟩
          set e3 : MicroEncoder := { eb with
            ops := eb.ops ++ [MicroOperation.cast t1 dest.dataType signed] } with he3
          have hte3 : e3.temps = eb.temps := rfl
          obtain ⟨hmove, hstep3⟩ := encodeMove_ok lo e3 dest
            (Location.temp { t1 with dt := dest.dataType }) rfl
            (hrd.mono (le_trans hstep1.temps_le (le_of_eq hte3.symm)))
            (by
              intro i hi
              simp only [Location.tempIdxs] at hi
              rcases List.mem_singleton.mp hi with rfl
              exact ⟨hge1, by rw [hte3]; exact hlt1⟩)
          refine ⟨_, ?_, ((hstep.trans hstep1).trans hstep2).trans hstep3⟩
          simp only [hgl, hload]
          rw [← he3, hmove]
          rfl

lemma getOperand_ok_01 (inst : Instruction) (o0 o1 : Operand)
    (h0 : inst.getOperand 0 = .ok o0) (h1 : inst.getOperand 1 = .ok o1) :
    ∃ rest, inst.operands = o0 :: o1 :: rest := by
  unfold Instruction.getOperand at h0 h1
  cases hl : inst.operands with
  | nil => rw [hl] at h0; simp at h0
  | cons a tl =>
      rw [hl] at h0 h1
      cases tl with
      | nil => simp at h1
      | cons b tl2 =>
          simp only [List.get?, EncResult.ok.injEq] at h0 h1
          subst h0
          subst h1
          exact ⟨tl2, rfl⟩

lemma encodeMoveCasted_step (lo : Nat) (e : MicroEncoder) (inst : Instruction)
    (signed : Bool) (e1 : MicroEncoder) (hlo : lo ≤ e.temps)
    (h : e.encodeMoveCasted inst signed = .ok e1) : EncStep lo e e1 := by
  cases hg0 : inst.getOperand 0 with
  | err m => rw [MicroEncoder.encodeMoveCasted, hg0] at h; exact absurd h (by simp)
  | fatal m => rw [MicroEncoder.encodeMoveCasted, hg0] at h; exact absurd h (by simp)
  | ok o0 =>
      cases hg1 : inst.getOperand 1 with
      | err m =>
          rw [MicroEncoder.encodeMoveCasted, hg0, hg1] at h
          exact absurd h (by simp)
      | fatal m =>
          rw [MicroEncoder.encodeMoveCasted, hg0, hg1] at h
          exact absurd h (by simp)
      | ok o1 =>
          obtain ⟨rest, hops⟩ := getOperand_ok_01 inst o0 o1 hg0 hg1
          obtain ⟨e1', hok, hstep⟩ :=
            encodeMoveCasted_spec lo e inst signed o0 o1 rest hlo hops
          rw [hok] at h
          simp only [EncResult.ok.injEq] at h
          subst h
          exact hstep

lemma encodeSet_step (lo : Nat) (e : MicroEncoder) (o : Operand) (c : Condition)
    (e1 : MicroEncoder) (hlo : lo ≤ e.temps) (h : e.encodeSet o c = .ok e1) :
    EncStep lo e e1 := by
  obtain ⟨e1', hok, hstep⟩ := encodeSet_spec lo e o c hlo
  rw [hok] at h
  simp only [EncResult.ok.injEq] at h
  subst h
  exact hstep

lemma encodePush_step (lo : Nat) (e : MicroEncoder) (src : Location)
    (e1 : MicroEncoder) (hlo : lo ≤ e.temps) (hsrc : LocInRange lo e.temps src)
    (h : e.encodePush src = .ok e1) : EncStep lo e e1 := by
  obtain ⟨e1', hok, hstep⟩ := encodePush_spec lo e src hlo hsrc
  rw [hok] at h
  simp only [EncResult.ok.injEq] at h
  subst h
  exact hstep

lemma encodePop_step (lo : Nat) (e : MicroEncoder) (dest : Location)
    (e1 : MicroEncoder) (hlo : lo ≤ e.temps) (hdest : LocInRange lo e.temps dest)
    (h : e.encodePop dest = .ok e1) : EncStep lo e e1 := by
  obtain ⟨e1', hok, hstep⟩ := encodePop_spec lo e dest hlo hdest
  rw [hok] at h
  simp only [EncResult.ok.injEq] at h
  subst h
  exact hstep

/-- The master frame lemma of encode: a successful encode of anything but a
width-mismatched Mov only appends operations whose moves have matching widths
and whose operand temporaries are at least the entry counter; the
width-mismatched Mov instead rebuilds the whole buffer from counter zero,
still with matching-width moves and operand temporaries below the final
counter. -/
lemma encode_spec (e : MicroEncoder) (inst : Instruction) (e1 : MicroEncoder)
    (lo : Nat) (hlo : lo ≤ e.temps) (h : e.encode inst = .ok e1) :
    (inst.mismatchMov = false → EncStep lo e e1) ∧
    (inst.mismatchMov = true →
      (∀ op ∈ e1.ops, movWidthsOk op = true) ∧
      (∀ op ∈ e1.ops, ∀ i ∈ op.tempIdxs, i < e1.temps)) := by
  obtain ⟨mn, iops⟩ := inst
  cases mn with
  | Add =>
      simp only [MicroEncoder.encode] at h
      cases hb : e.encodeBinop ⟨.Add, iops⟩ (fun sum a b => .add sum a b) with
      | err m => rw [hb] at h; exact absurd h (by simp)
      | fatal m => rw [hb] at h; exact absurd h (by simp)
      | ok p =>
          obtain ⟨ea, l, r⟩ := p
          rw [hb] at h
          simp only [EncResult.ok.injEq] at h
          subst h
          refine ⟨fun _ => ?_, fun hmm => by simp [Instruction.mismatchMov] at hmm⟩
          exact (encodeBinop_spec lo e ⟨.Add, iops⟩
            (fun sum a b => .add sum a b) ea l r hlo
            (fun x a b => ⟨rfl, rfl⟩) hb).setComparison _
  | Sub =>
      simp only [MicroEncoder.encode] at h
      cases hb : e.encodeBinop ⟨.Sub, iops⟩ (fun diff a b => .sub diff a b) with
      | err m => rw [hb] at h; exact absurd h (by simp)
      | fatal m => rw [hb] at h; exact absurd h (by simp)
      | ok p =>
          obtain ⟨ea, l, r⟩ := p
          rw [hb] at h
          simp only [EncResult.ok.injEq] at h
          subst h
          refine ⟨fun _ => ?_, fun hmm => by simp [Instruction.mismatchMov] at hmm⟩
          exact (encodeBinop_spec lo e ⟨.Sub, iops⟩
            (fun diff a b => .sub diff a b) ea l r hlo
            (fun x a b => ⟨rfl, rfl⟩) hb).setComparison _
  | Imul =>
      simp only [MicroEncoder.encode] at h
      cases hb : e.encodeBinop ⟨.Imul, iops⟩ (fun prod a b => .mul prod a b) with
      | err m => rw [hb] at h; exact absurd h (by simp)
      | fatal m => rw [hb] at h; exact absurd h (by simp)
      | ok p =>
          obtain ⟨ea, l, r⟩ := p
          rw [hb] at h
          simp only [EncResult.ok.injEq] at h
          subst h
          refine ⟨fun _ => ?_, fun hmm => by simp [Instruction.mismatchMov] at hmm⟩
          exact (encodeBinop_spec lo e ⟨.Imul, iops⟩
            (fun prod a b => .mul prod a b) ea l r hlo
            (fun x a b => ⟨rfl, rfl⟩) hb).setComparison _
  | Mov =>
      simp only [MicroEncoder.encode] at h
      cases hg0 : Instruction.getOperand ⟨.Mov, iops⟩ 0 with
      | err m => rw [hg0] at h; exact absurd h (by simp)
      | fatal m => rw [hg0] at h; exact absurd h (by simp)
      | ok o0 =>
        rw [hg0] at h
        cases hg1 : Instruction.getOperand ⟨.Mov, iops⟩ 1 with
        | err m => rw [hg1] at h; exact absurd h (by simp)
        | fatal m => rw [hg1] at h; exact absurd h (by simp)
        | ok o1 =>
          rw [hg1] at h
          obtain ⟨rest, hops⟩ := getOperand_ok_01 _ o0 o1 hg0 hg1
          simp only [Instruction.operands] at hops
          cases hgl0 : e.encodeGetLocation o0 with
          | mk ea dest =>
            cases hgl1 : ea.encodeGetLocation o1 with
            | mk eb src =>
              obtain ⟨hstep0, hrd, hdt0⟩ :=
                encodeGetLocation_spec lo e o0 ea dest hlo hgl0
              have hlo1 : lo ≤ ea.temps := le_trans hlo hstep0.temps_le
              obtain ⟨hstep1, hrs, hdt1⟩ :=
                encodeGetLocation_spec lo ea o1 eb src hlo1 hgl1
              simp only [hgl0, hgl1] at h
              have hmmeq : Instruction.mismatchMov ⟨.Mov, iops⟩ =
                  (o0.dataType != o1.dataType) := by
                simp [Instruction.mismatchMov, hops]
              by_cases hdt : dest.dataType = src.dataType
              · rw [if_neg (by simp [hdt])] at h
                obtain ⟨hmove, hstep2⟩ := encodeMove_ok lo eb dest src hdt.symm
                  (hrd.mono hstep1.temps_le) hrs
                rw [hmove] at h
                simp only [EncResult.ok.injEq] at h
                subst h
                constructor
                · intro _
                  exact (hstep0.trans hstep1).trans hstep2
                · intro hmm
                  rw [hmmeq] at hmm
                  rw [← hdt0, ← hdt1, hdt] at hmm
                  simp at hmm
              · rw [if_pos (by simp [hdt])] at h
                constructor
                · intro hmm
                  rw [hmmeq] at hmm
                  rw [← hdt0, ← hdt1] at hmm
                  simp only [bne_eq_false_iff_eq] at hmm
                  exact absurd hmm hdt
                · intro _
                  have hstep2 := encodeMoveCasted_step 0
                    { eb with ops := [], temps := 0 } ⟨.Mov, iops⟩ true e1
                    (le_refl _) h
                  obtain ⟨_, delta, hopsq, hm, hr⟩ := hstep2
                  simp only [List.nil_append] at hopsq
                  constructor
                  · intro op hop
                    exact hm op (by rw [hopsq] at hop; exact hop)
                  · intro op hop i hi
                    exact (hr op (by rw [hopsq] at hop; exact hop) i hi).2
  | Movzx =>
      simp only [MicroEncoder.encode] at h
      refine ⟨fun _ => encodeMoveCasted_step lo e _ false e1 hlo h,
        fun hmm => by simp [Instruction.mismatchMov] at hmm⟩
  | Lea =>
      simp only [MicroEncoder.encode] at h
      cases hg0 : Instruction.getOperand ⟨.Lea, iops⟩ 0 with
      | err m => rw [hg0] at h; exact absurd h (by simp)
      | fatal m => rw [hg0] at h; exact absurd h (by simp)
      | ok o0 =>
        rw [hg0] at h
        cases hg1 : Instruction.getOperand ⟨.Lea, iops⟩ 1 with
        | err m => rw [hg1] at h; exact absurd h (by simp)
        | fatal m => rw [hg1] at h; exact absurd h (by simp)
        | ok o1 =>
          rw [hg1] at h
          cases hgl0 : e.encodeGetLocation o0 with
          | mk ea dest =>
            cases hgl1 : ea.encodeGetLocation o1 with
            | mk eb src =>
              obtain ⟨hstep0, hrd, hdt0⟩ :=
                encodeGetLocation_spec lo e o0 ea dest hlo hgl0
              have hlo1 : lo ≤ ea.temps := le_trans hlo hstep0.temps_le
              obtain ⟨hstep1, hrs, hdt1⟩ :=
                encodeGetLocation_spec lo ea o1 eb src hlo1 hgl1
              simp only [hgl0, hgl1] at h
              cases src with
              | temp t => exact absurd h (by simp)
              | direct dt0 sp0 ad0 => exact absurd h (by simp)
              | indirect dt0 sp0 t =>
                  simp only [] at h
                  by_cases hdt : t.dt = dest.dataType
                  · obtain ⟨hmove, hstep2⟩ := encodeMove_ok lo eb dest (.temp t)
                      hdt (hrd.mono hstep1.temps_le)
                      (by
                        intro i hi
                        simp only [Location.tempIdxs] at hi
                        rcases List.mem_singleton.mp hi with rfl
                        exact hrs t.idx (by simp [Location.tempIdxs]))
                    rw [hmove] at h
                    simp only [EncResult.ok.injEq] at h
                    subst h
                    exact ⟨fun _ => (hstep0.trans hstep1).trans hstep2,
                      fun hmm => by simp [Instruction.mismatchMov] at hmm⟩
                  · rw [encodeMove_err eb dest (.temp t) hdt] at h
                    exact absurd h (by simp)
  | Push =>
      simp only [MicroEncoder.encode] at h
      cases hg0 : Instruction.getOperand ⟨.Push, iops⟩ 0 with
      | err m => rw [hg0] at h; exact absurd h (by simp)
      | fatal m => rw [hg0] at h; exact absurd h (by simp)
      | ok o0 =>
        rw [hg0] at h
        cases hgl0 : e.encodeGetLocation o0 with
        | mk ea src =>
          obtain ⟨hstep0, hrs, _⟩ := encodeGetLocation_spec lo e o0 ea src hlo hgl0
          simp only [hgl0] at h
          exact ⟨fun _ => hstep0.trans (encodePush_step lo ea src e1
              (le_trans hlo hstep0.temps_le) hrs h),
            fun hmm => by simp [Instruction.mismatchMov] at hmm⟩
  | Pop =>
      simp only [MicroEncoder.encode] at h
      cases hg0 : Instruction.getOperand ⟨.Pop, iops⟩ 0 with
      | err m => rw [hg0] at h; exact absurd h (by simp)
      | fatal m => rw [hg0] at h; exact absurd h (by simp)
      | ok o0 =>
        rw [hg0] at h
        cases hgl0 : e.encodeGetLocation o0 with
        | mk ea dest =>
          obtain ⟨hstep0, hrd, _⟩ := encodeGetLocation_spec lo e o0 ea dest hlo hgl0
          simp only [hgl0] at h
          exact ⟨fun _ => hstep0.trans (encodePop_step lo ea dest e1
              (le_trans hlo hstep0.temps_le) hrd h),
            fun hmm => by simp [Instruction.mismatchMov] at hmm⟩
  | Jmp =>
      simp only [MicroEncoder.encode] at h
      cases hg0 : Instruction.getOperand ⟨.Jmp, iops⟩ 0 with
      | err m => rw [hg0] at h; exact absurd h (by simp)
      | fatal m => rw [hg0] at h; exact absurd h (by simp)
      | ok o0 =>
        rw [hg0] at h
        exact ⟨fun _ => encodeJump_spec lo e o0 _ e1 hlo h,
          fun hmm => by simp [Instruction.mismatchMov] at hmm⟩
  | Je =>
      simp only [MicroEncoder.encode] at h
      cases hg0 : Instruction.getOperand ⟨.Je, iops⟩ 0 with
      | err m => rw [hg0] at h; exact absurd h (by simp)
      | fatal m => rw [hg0] at h; exact absurd h (by simp)
      | ok o0 =>
        rw [hg0] at h
        cases hc : MicroEncoder.getComparison e with
        | err m => rw [hc] at h; exact absurd h (by simp)
        | fatal m => rw [hc] at h; exact absurd h (by simp)
        | ok c =>
            rw [hc] at h
            exact ⟨fun _ => encodeJump_spec lo e o0 _ e1 hlo h,
              fun hmm => by simp [Instruction.mismatchMov] at hmm⟩
  | Jg =>
      simp only [MicroEncoder.encode] at h
      cases hg0 : Instruction.getOperand ⟨.Jg, iops⟩ 0 with
      | err m => rw [hg0] at h; exact absurd h (by simp)
      | fatal m => rw [hg0] at h; exact absurd h (by simp)
      | ok o0 =>
        rw [hg0] at h
        cases hc : MicroEncoder.getComparison e with
        | err m => rw [hc] at h; exact absurd h (by simp)
        | fatal m => rw [hc] at h; exact absurd h (by simp)
        | ok c =>
            rw [hc] at h
            exact ⟨fun _ => encodeJump_spec lo e o0 _ e1 hlo h,
              fun hmm => by simp [Instruction.mismatchMov] at hmm⟩
  | Call =>
      simp only [MicroEncoder.encode] at h
      cases hgl0 : e.encodeGetLocation (.direct .RIP) with
      | mk ea rip =>
        obtain ⟨hstep0, hrr, _⟩ :=
          encodeGetLocation_spec lo e (.direct .RIP) ea rip hlo hgl0
        simp only [hgl0] at h
        cases hp : ea.encodePush rip with
        | err m => rw [hp] at h; exact absurd h (by simp)
        | fatal m => rw [hp] at h; exact absurd h (by simp)
        | ok e2 =>
            rw [hp] at h
            have hstep1 := encodePush_step lo ea rip e2
              (le_trans hlo hstep0.temps_le) hrr hp
            cases hg0 : Instruction.getOperand ⟨.Call, iops⟩ 0 with
            | err m => rw [hg0] at h; exact absurd h (by simp)
            | fatal m => rw [hg0] at h; exact absurd h (by simp)
            | ok o0 =>
                rw [hg0] at h
                exact ⟨fun _ => (hstep0.trans hstep1).trans
                    (encodeJump_spec lo e2 o0 _ e1
                      (le_trans (le_trans hlo hstep0.temps_le)
                        hstep1.temps_le) h),
                  fun hmm => by simp [Instruction.mismatchMov] at hmm⟩
  | Leave =>
      simp only [MicroEncoder.encode] at h
      cases hgl0 : e.encodeGetLocation (.direct .RBP) with
      | mk ea rbp =>
        cases hgl1 : ea.encodeGetLocation (.direct .RSP) with
        | mk eb rsp =>
          obtain ⟨hstep0, hrb, hdtb⟩ :=
            encodeGetLocation_spec lo e (.direct .RBP) ea rbp hlo hgl0
          have hlo1 : lo ≤ ea.temps := le_trans hlo hstep0.temps_le
          obtain ⟨hstep1, hrs, hdts⟩ :=
            encodeGetLocation_spec lo ea (.direct .RSP) eb rsp hlo1 hgl1
          simp only [hgl0, hgl1] at h
          have hw : rbp.dataType = rsp.dataType := by
            rw [hdtb, hdts]
            rfl
          obtain ⟨hmove, hstep2⟩ := encodeMove_ok lo eb rsp rbp hw
            hrs (hrb.mono hstep1.temps_le)
          rw [hmove] at h
          simp only [EncResult.unwrap] at h
          have hstep3 := encodePop_step lo _ rbp e1
            (le_trans (le_trans hlo1 hstep1.temps_le) hstep2.temps_le)
            ((hrb.mono hstep1.temps_le).mono hstep2.temps_le) h
          exact ⟨fun _ => ((hstep0.trans hstep1).trans hstep2).trans hstep3,
            fun hmm => by simp [Instruction.mismatchMov] at hmm⟩
  | Ret =>
      simp only [MicroEncoder.encode] at h
      have hstep0 : EncStep lo e { e with temps := e.temps + 1 } :=
        ⟨Nat.le_succ _, [], by simp, by simp, by simp⟩
      cases hp : MicroEncoder.encodePop { e with temps := e.temps + 1 }
          (.temp ⟨.n64, e.temps⟩) with
      | err m => rw [hp] at h; exact absurd h (by simp)
      | fatal m => rw [hp] at h; exact absurd h (by simp)
      | ok e2 =>
          rw [hp] at h
          simp only [EncResult.ok.injEq] at h
          subst h
          have hstep1 := encodePop_step lo { e with temps := e.temps + 1 }
            (.temp ⟨.n64, e.temps⟩) e2 (Nat.le_succ_of_le hlo)
            (by
              intro i hi
              simp only [Location.tempIdxs] at hi
              rcases List.mem_singleton.mp hi with rfl
              exact ⟨hlo, Nat.lt_succ_self _⟩) hp
          refine ⟨fun _ => (hstep0.trans hstep1).trans
              (EncStep.append lo e2 _ _ (le_refl _) ?_ ?_),
            fun hmm => by simp [Instruction.mismatchMov] at hmm⟩
          · intro op hop
            rcases List.mem_singleton.mp hop with rfl
            simp [movWidthsOk]
          · intro op hop i hi
            rcases List.mem_singleton.mp hop with rfl
            simp only [MicroOperation.tempIdxs] at hi
            rcases List.mem_singleton.mp hi with rfl
            refine ⟨hlo, ?_⟩
            have : e.temps + 1 ≤ e2.temps := hstep1.temps_le
            omega
  | Cmp =>
      simp only [MicroEncoder.encode] at h
      cases hlb : e.encodeLoadBoth ⟨.Cmp, iops⟩ with
      | err m => rw [hlb] at h; exact absurd h (by simp)
      | fatal m => rw [hlb] at h; exact absurd h (by simp)
      | ok p =>
          obtain ⟨ea, ⟨dest, l⟩, src, r⟩ := p
          rw [hlb] at h
          simp only [EncResult.ok.injEq] at h
          subst h
          obtain ⟨hstep, _⟩ := encodeLoadBoth_spec lo e _ ea dest l src r hlo hlb
          exact ⟨fun _ => hstep.setComparison _,
            fun hmm => by simp [Instruction.mismatchMov] at hmm⟩
  | Test =>
      simp only [MicroEncoder.encode] at h
      cases hlb : e.encodeLoadBoth ⟨.Test, iops⟩ with
      | err m => rw [hlb] at h; exact absurd h (by simp)
      | fatal m => rw [hlb] at h; exact absurd h (by simp)
      | ok p =>
          obtain ⟨ea, ⟨dest, l⟩, src, r⟩ := p
          rw [hlb] at h
          simp only [EncResult.ok.injEq] at h
          subst h
          obtain ⟨hstep, _⟩ := encodeLoadBoth_spec lo e _ ea dest l src r hlo hlb
          exact ⟨fun _ => hstep.setComparison _,
            fun hmm => by simp [Instruction.mismatchMov] at hmm⟩
  | Setl =>
      simp only [MicroEncoder.encode] at h
      cases hg0 : Instruction.getOperand ⟨.Setl, iops⟩ 0 with
      | err m => rw [hg0] at h; exact absurd h (by simp)
      | fatal m => rw [hg0] at h; exact absurd h (by simp)
      | ok o0 =>
        rw [hg0] at h
        cases hc : MicroEncoder.getComparison e with
        | err m => rw [hc] at h; exact absurd h (by simp)
        | fatal m => rw [hc] at h; exact absurd h (by simp)
        | ok c =>
            rw [hc] at h
            exact ⟨fun _ => encodeSet_step lo e o0 _ e1 hlo h,
              fun hmm => by simp [Instruction.mismatchMov] at hmm⟩
  | Syscall =>
      simp only [MicroEncoder.encode, EncResult.ok.injEq] at h
      subst h
      refine ⟨fun _ => EncStep.append lo e _ _ (le_refl _) ?_ ?_,
        fun hmm => by simp [Instruction.mismatchMov] at hmm⟩
      · intro op hop
        rcases List.mem_singleton.mp hop with rfl
        simp [movWidthsOk]
      · intro op hop i hi
        rcases List.mem_singleton.mp hop with rfl
        simp [MicroOperation.tempIdxs] at hi
  | Nop =>
      simp only [MicroEncoder.encode, EncResult.ok.injEq] at h
      subst h
      exact ⟨fun _ => EncStep.refl lo e,
        fun hmm => by simp [Instruction.mismatchMov] at hmm⟩

lemma encodeGetLocation_lastComparison (e : MicroEncoder) (o : Operand) :
    (e.encodeGetLocation o).1.lastComparison = e.lastComparison := by
  cases o <;>
    simp [MicroEncoder.encodeGetLocation, MicroEncoder.encodeLoadReg,
      MicroEncoder.encodeLoadConstant]

lemma encodeLoadOperand_lastComparison (e : MicroEncoder) (o : Operand) :
    (e.encodeLoadOperand o).1.lastComparison = e.lastComparison := by
  rw [MicroEncoder.encodeLoadOperand]
  cases hgl : e.encodeGetLocation o with
  | mk ea loc =>
      have := encodeGetLocation_lastComparison e o
      rw [hgl] at this
      cases loc <;> simp_all

/-- C3 (amended): a width-mismatched Mov discards the entire operation buffer,
including operations buffered by earlier encode calls, resets the temporary
counter to zero, and re-encodes the instruction as a signed cast followed by a
move: the result equals re-encoding on an encoder with an empty buffer and a
zero counter that keeps only the last-comparison slot. -/
theorem c3_mismatch_discards_all (e : MicroEncoder) (o0 o1 : Operand)
    (rest : List Operand) (hw : o0.dataType ≠ o1.dataType) :
    e.encode ⟨.Mov, o0 :: o1 :: rest⟩ =
      MicroEncoder.encodeMoveCasted ⟨[], 0, e.lastComparison⟩
        ⟨.Mov, o0 :: o1 :: rest⟩ true := by
  have hg0 : Instruction.getOperand ⟨.Mov, o0 :: o1 :: rest⟩ 0 = .ok o0 := rfl
  have hg1 : Instruction.getOperand ⟨.Mov, o0 :: o1 :: rest⟩ 1 = .ok o1 := rfl
  simp only [MicroEncoder.encode, hg0, hg1]
  cases hgl0 : e.encodeGetLocation o0 with
  | mk ea dest =>
    cases hgl1 : ea.encodeGetLocation o1 with
    | mk eb src =>
      obtain ⟨_, _, hdt0⟩ :=
        encodeGetLocation_spec 0 e o0 ea dest (Nat.zero_le _) hgl0
      obtain ⟨_, _, hdt1⟩ :=
        encodeGetLocation_spec 0 ea o1 eb src (Nat.zero_le _) hgl1
      simp only [hgl0, hgl1]
      rw [if_pos (by rw [hdt0, hdt1]; exact hw)]
      have hlc : eb.lastComparison = e.lastComparison := by
        have h1 := encodeGetLocation_lastComparison e o0
        have h2 := encodeGetLocation_lastComparison ea o1
        rw [hgl0] at h1
        rw [hgl1] at h2
        rw [h2, h1]
      rw [show ({ eb with ops := [], temps := 0 } : MicroEncoder) =
        (⟨[], 0, e.lastComparison⟩ : MicroEncoder) from by rw [← hlc]]

/-- Witness for the amended C3 at concrete inputs. -/
theorem c3_mismatch_discards_all_witness :
    testEncoder.encode movMismatchInst =
      MicroEncoder.encodeMoveCasted ⟨[], 0, testEncoder.lastComparison⟩
        movMismatchInst true :=
  c3_mismatch_discards_all testEncoder (.direct .RAX) (.direct .EAX) []
    (by decide)

/-- C3 counterexample: operations buffered by an earlier encode call are NOT
preserved by a width-mismatched Mov. After encoding a jump, the buffer holds
its two operations; encoding the mismatched Mov afterwards leaves a buffer
containing only the cast-move operations, and the buffered jump is gone. -/
theorem c3_counterexample :
    MicroEncoder.new.encode ⟨.Jmp, [.offset 7]⟩ =
      .ok ⟨[.const (.temp ⟨.n64, 0⟩) ⟨.n64, 7⟩,
            .jump ⟨.n64, 0⟩ .cTrue true], 1, none⟩ ∧
    (MicroEncoder.mk [.const (.temp ⟨.n64, 0⟩) ⟨.n64, 7⟩,
        .jump ⟨.n64, 0⟩ .cTrue true] 1 none).encode movMismatchInst =
      .ok ⟨movCastOps, 1, none⟩ ∧
    MicroOperation.jump ⟨.n64, 0⟩ .cTrue true ∉ movCastOps := by
  exact ⟨by decide, by decide, by decide⟩

/-- C4 (amended): finish returns the accumulated operations, empties the
buffer and preserves the temporary counter and last-comparison slot; for every
instruction except a width-mismatched Mov (whose re-encode path resets the
counter to zero), re-encoding after finish numbers the temporaries of the
emitted operations starting where the previous batch ended: all operand
temporaries lie between the preserved counter and the final counter. -/
theorem c4_finish_frame :
    (∀ e : MicroEncoder,
      e.finish.1.ops = e.ops ∧ e.finish.2.ops = [] ∧
      e.finish.2.temps = e.temps ∧ e.finish.2.lastComparison = e.lastComparison) ∧
    (∀ (e : MicroEncoder) (inst : Instruction) (e1 : MicroEncoder),
      inst.mismatchMov = false → (e.finish.2).encode inst = .ok e1 →
      e.temps ≤ e1.temps ∧
      ∀ op ∈ e1.ops, ∀ i ∈ op.tempIdxs, e.temps ≤ i ∧ i < e1.temps) := by
  constructor
  · exact fun e => ⟨rfl, rfl, rfl, rfl⟩
  · intro e inst e1 hmm h
    obtain ⟨hok, _⟩ := encode_spec (e.finish.2) inst e1 e.temps (le_refl _) h
    obtain ⟨ht, delta, hops, _, hr⟩ := hok hmm
    refine ⟨ht, ?_⟩
    intro op hop i hi
    rw [hops] at hop
    simp only [MicroEncoder.finish, List.nil_append] at hop
    exact hr op hop i hi

/-- Witness for the amended C4 at concrete inputs. -/
theorem c4_finish_frame_witness :
    testEncoder.finish.2.ops = [] ∧
    testEncoder.finish.2.temps = 2 ∧
    (2 ≤ (⟨[.const (.temp ⟨.n64, 2⟩) ⟨.n64, 7⟩, .jump ⟨.n64, 2⟩ .cTrue true], 3,
        some (.and ⟨.n32, 0⟩ ⟨.n32, 1⟩)⟩ : MicroEncoder).temps ∧
      ∀ op ∈ (⟨[.const (.temp ⟨.n64, 2⟩) ⟨.n64, 7⟩, .jump ⟨.n64, 2⟩ .cTrue true], 3,
        some (.and ⟨.n32, 0⟩ ⟨.n32, 1⟩)⟩ : MicroEncoder).ops,
        ∀ i ∈ op.tempIdxs, 2 ≤ i ∧ i < (⟨[.const (.temp ⟨.n64, 2⟩) ⟨.n64, 7⟩,
          .jump ⟨.n64, 2⟩ .cTrue true], 3,
          some (.and ⟨.n32, 0⟩ ⟨.n32, 1⟩)⟩ : MicroEncoder).temps) :=
  ⟨(c4_finish_frame.1 testEncoder).2.1,
   (c4_finish_frame.1 testEncoder).2.2.1,
   c4_finish_frame.2 testEncoder ⟨.Jmp, [.offset 7]⟩ _ (by decide) (by decide)⟩

/-- C4 counterexample: for a width-mismatched Mov, re-encoding after finish
does NOT number temporaries starting where the previous batch ended: the path
resets the counter, so the re-encode of the same instruction uses temporary
index 0 again although the previous batch ended at counter 1. -/
theorem c4_counterexample :
    MicroEncoder.new.encode movMismatchInst = .ok ⟨movCastOps, 1, none⟩ ∧
    (MicroEncoder.mk movCastOps 1 none).finish.2.encode movMismatchInst =
      .ok ⟨movCastOps, 1, none⟩ ∧
    ¬ (∀ op ∈ movCastOps, ∀ i ∈ op.tempIdxs, 1 ≤ i) := by
  exact ⟨by decide, by decide, by decide⟩

/-- C5: for every instruction accepted by encode (encode returns Ok), if every
Mov already in the buffer has matching widths, then every Mov in the buffer
afterwards has matching widths: width(dest) = width(src). -/
theorem c5_mov_widths (e : MicroEncoder) (inst : Instruction) (e1 : MicroEncoder)
    (hbuf : ∀ op ∈ e.ops, movWidthsOk op = true)
    (h : e.encode inst = .ok e1) :
    ∀ op ∈ e1.ops, movWidthsOk op = true := by
  obtain ⟨hfalse, htrue⟩ := encode_spec e inst e1 e.temps (le_refl _) h
  cases hmm : inst.mismatchMov with
  | true => exact (htrue hmm).1
  | false =>
      obtain ⟨_, delta, hops, hm, _⟩ := hfalse hmm
      rw [hops]
      intro op hop
      rcases List.mem_append.mp hop with hop | hop
      · exact hbuf op hop
      · exact hm op hop

/-- Witness for C5 at concrete inputs. -/
theorem c5_mov_widths_witness :
    (⟨[.mov (.temp ⟨.n64, 0⟩) (.direct .n64 1 0x20),
        .const (.temp ⟨.n64, 1⟩) ⟨.n64, 8⟩,
        .sub ⟨.n64, 0⟩ ⟨.n64, 0⟩ ⟨.n64, 1⟩,
        .mov (.indirect .n64 0 ⟨.n64, 0⟩) (.direct .n64 1 0x28),
        .mov (.direct .n64 1 0x20) (.temp ⟨.n64, 0⟩)], 2,
        none⟩ : MicroEncoder).ops.all movWidthsOk = true :=
  List.all_eq_true.mpr
    (c5_mov_widths MicroEncoder.new ⟨.Push, [.direct .RBP]⟩ _ (by decide) (by decide))

/-- C10: a width-mismatched Mov clears the buffer and resets the counter but
leaves the last-comparison slot unchanged, so a conditional jump encoded after
it still consumes the comparison recorded before it. -/
theorem c10_mismatch_keeps_comparison (e : MicroEncoder) (o0 o1 : Operand)
    (rest : List Operand) (cmp : Comparison) (off : Int)
    (hw : o0.dataType ≠ o1.dataType) (hc : e.lastComparison = some cmp) :
    ∃ e1, e.encode ⟨.Mov, o0 :: o1 :: rest⟩ = .ok e1 ∧
      e1.lastComparison = some cmp ∧
      ∃ e2, e1.encode ⟨.Je, [.offset off]⟩ = .ok e2 ∧
        e2.ops = e1.ops ++
          [.const (.temp ⟨.n64, e1.temps⟩) ⟨.n64, u64ofInt off⟩,
           .jump ⟨.n64, e1.temps⟩ (.equal cmp) true] := by
  have henc := c3_mismatch_discards_all e o0 o1 rest hw
  obtain ⟨e1, hok, hstep⟩ := encodeMoveCasted_spec 0 ⟨[], 0, e.lastComparison⟩
    ⟨.Mov, o0 :: o1 :: rest⟩ true o0 o1 rest (le_refl _) rfl
  have hlc : e1.lastComparison = some cmp := by
    have hpres : e1.lastComparison =
        (⟨[], 0, e.lastComparison⟩ : MicroEncoder).lastComparison := by
      revert hok
      rw [MicroEncoder.encodeMoveCasted]
      have hg0 : Instruction.getOperand ⟨.Mov, o0 :: o1 :: rest⟩ 0 = .ok o0 := rfl
      have hg1 : Instruction.getOperand ⟨.Mov, o0 :: o1 :: rest⟩ 1 = .ok o1 := rfl
      rw [hg0, hg1]
      cases hgl : MicroEncoder.encodeGetLocation ⟨[], 0, e.lastComparison⟩ o0 with
      | mk ea dest =>
        cases hload : ea.encodeLoadOperand o1 with
        | mk eb p =>
          obtain ⟨loc1, t1⟩ := p
          simp only [hgl, hload]
          intro hok
          have hmc : eb.lastComparison =
              (⟨[], 0, e.lastComparison⟩ : MicroEncoder).lastComparison := by
            have h1 := encodeGetLocation_lastComparison ⟨[], 0, e.lastComparison⟩ o0
            have h2 := encodeLoadOperand_lastComparison ea o1
            rw [hgl] at h1
            rw [hload] at h2
            rw [h2, h1]
          rw [MicroEncoder.encodeMove] at hok
          by_cases hww : (Location.temp { t1 with dt := dest.dataType }).dataType =
              dest.dataType
          · rw [if_neg (by simp [hww])] at hok
            simp only [EncResult.unwrap, EncResult.ok.injEq] at hok
            rw [← hok]
            exact hmc
          · rw [if_pos (by simp [hww])] at hok
            exact absurd hok (by simp [EncResult.unwrap])
    rw [hpres]
    exact hc
  refine ⟨e1, by rw [henc, hok], hlc, ?_⟩
  have hg0 : Instruction.getOperand ⟨.Je, [.offset off]⟩ 0 = .ok (.offset off) := rfl
  have hgc : e1.getComparison = .ok cmp := by
    rw [MicroEncoder.getComparison, hlc]
  have hje : e1.encode ⟨.Je, [.offset off]⟩ = .ok { e1 with
      ops := e1.ops ++ [.const (.temp ⟨.n64, e1.temps⟩) ⟨.n64, u64ofInt off⟩,
                        .jump ⟨.n64, e1.temps⟩ (.equal cmp) true],
      temps := e1.temps + 1 } := by
    simp only [MicroEncoder.encode, hg0, hgc, MicroEncoder.encodeJump]
  exact ⟨_, hje, rfl⟩

lemma getOperand_cases (inst : Instruction) (i : Nat) :
    (∃ o, inst.getOperand i = .ok o) ∨ (∃ m, inst.getOperand i = .fatal m) := by
  cases hg : inst.operands[i]? with
  | some o => exact Or.inl ⟨o, by simp [Instruction.getOperand, hg]⟩
  | none =>
      exact Or.inr ⟨"operand index out of bounds",
        by simp [Instruction.getOperand, hg]⟩

lemma getComparison_cases (e : MicroEncoder) :
    (∃ c, e.getComparison = .ok c) ∨ (∃ m, e.getComparison = .fatal m) := by
  cases hc : e.lastComparison with
  | some c => exact Or.inl ⟨c, by simp [MicroEncoder.getComparison, hc]⟩
  | none =>
      exact Or.inr ⟨"jump or set without previous comparison",
        by simp [MicroEncoder.getComparison, hc]⟩

lemma unwrap_not_err (r : EncResult MicroEncoder) : (r.unwrap).isErr = false := by
  cases r <;> rfl

lemma unwrap_ne_err (r : EncResult MicroEncoder) (m : String) :
    r.unwrap ≠ .err m := by
  cases r <;> simp [EncResult.unwrap]

lemma encodeMove_ok_of_eq (e : MicroEncoder) (dest src : Location)
    (hw : src.dataType = dest.dataType) :
    e.encodeMove dest src = .ok { e with ops := e.ops ++ [.mov dest src] } := by
  rw [MicroEncoder.encodeMove, if_neg (by simp [hw])]

lemma encodeLoadBoth_isErr (e : MicroEncoder) (inst : Instruction) :
    (e.encodeLoadBoth inst).isErr = false := by
  rw [MicroEncoder.encodeLoadBoth]
  rcases getOperand_cases inst 0 with ⟨o0, hg0⟩ | ⟨m, hg0⟩
  · rw [hg0]
    rcases getOperand_cases inst 1 with ⟨o1, hg1⟩ | ⟨m, hg1⟩
    · rw [hg1]
      cases hl0 : e.encodeLoadOperand o0 with
      | mk ea p0 =>
        obtain ⟨loc0, t0⟩ := p0
        cases hl1 : ea.encodeLoadOperand o1 with
        | mk eb p1 =>
          obtain ⟨loc1, t1⟩ := p1
          simp only [hl0, hl1]
          by_cases hdt : t0.dt = t1.dt
          · rw [if_pos hdt]
            rfl
          · rw [if_neg hdt]
            rfl
    · rw [hg1]
      rfl
  · rw [hg0]
    rfl

lemma encodeBinop_isErr (e : MicroEncoder) (inst : Instruction)
    (binop : Temporary → Temporary → Temporary → MicroOperation) :
    (e.encodeBinop inst binop).isErr = false := by
  rw [MicroEncoder.encodeBinop]
  cases hlb : e.encodeLoadBoth inst with
  | ok p =>
      obtain ⟨ea, ⟨d, l⟩, s, r⟩ := p
      simp only [hlb]
      rfl
  | err m =>
      have := encodeLoadBoth_isErr e inst
      rw [hlb] at this
      exact absurd this (by simp [EncResult.isErr])
  | fatal m =>
      simp only [hlb]
      rfl

lemma encodeJump_isErr (e : MicroEncoder) (o : Operand) (c : Condition) :
    (e.encodeJump o c).isErr = false := by
  cases o <;> rfl

lemma encodeMoveCasted_isErr (e : MicroEncoder) (inst : Instruction)
    (signed : Bool) : (e.encodeMoveCasted inst signed).isErr = false := by
  rw [MicroEncoder.encodeMoveCasted]
  rcases getOperand_cases inst 0 with ⟨o0, hg0⟩ | ⟨m, hg0⟩
  · rw [hg0]
    rcases getOperand_cases inst 1 with ⟨o1, hg1⟩ | ⟨m, hg1⟩
    · rw [hg1]
      cases hgl : e.encodeGetLocation o0 with
      | mk ea dest =>
        cases hload : ea.encodeLoadOperand o1 with
        | mk eb p =>
          obtain ⟨loc1, t1⟩ := p
          simp only [hgl, hload]
          exact unwrap_not_err _
    · rw [hg1]
      rfl
  · rw [hg0]
    rfl

/-- Witness for C10 at concrete inputs. -/
theorem c10_mismatch_keeps_comparison_witness :
    ∃ e1, testEncoder.encode ⟨.Mov, [.direct .RAX, .direct .EAX]⟩ = .ok e1 ∧
      e1.lastComparison = some (.and ⟨.n32, 0⟩ ⟨.n32, 1⟩) ∧
      ∃ e2, e1.encode ⟨.Je, [.offset 9]⟩ = .ok e2 ∧
        e2.ops = e1.ops ++
          [.const (.temp ⟨.n64, e1.temps⟩) ⟨.n64, u64ofInt 9⟩,
           .jump ⟨.n64, e1.temps⟩ (.equal (.and ⟨.n32, 0⟩ ⟨.n32, 1⟩)) true] :=
  c10_mismatch_keeps_comparison testEncoder (.direct .RAX) (.direct .EAX) []
    (.and ⟨.n32, 0⟩ ⟨.n32, 1⟩) 9 (by decide) (by decide)

lemma encode_isErr_eq (e : MicroEncoder) (inst : Instruction) :
    (e.encode inst).isErr = inst.leaMoveMismatch := by
  obtain ⟨mn, iops⟩ := inst
  cases mn with
  | Add =>
      rw [show Instruction.leaMoveMismatch ⟨.Add, iops⟩ = false from rfl]
      simp only [MicroEncoder.encode]
      cases hb : e.encodeBinop ⟨.Add, iops⟩ (fun sum a b => .add sum a b) with
      | ok p =>
          obtain ⟨e1, l, r⟩ := p
          simp only [hb]
          rfl
      | err m =>
          have hne := encodeBinop_isErr e ⟨.Add, iops⟩ (fun sum a b => .add sum a b)
          rw [hb] at hne
          exact absurd hne (by simp [EncResult.isErr])
      | fatal m =>
          simp only [hb]
          rfl
  | Sub =>
      rw [show Instruction.leaMoveMismatch ⟨.Sub, iops⟩ = false from rfl]
      simp only [MicroEncoder.encode]
      cases hb : e.encodeBinop ⟨.Sub, iops⟩ (fun diff a b => .sub diff a b) with
      | ok p =>
          obtain ⟨e1, l, r⟩ := p
          simp only [hb]
          rfl
      | err m =>
          have hne := encodeBinop_isErr e ⟨.Sub, iops⟩ (fun diff a b => .sub diff a b)
          rw [hb] at hne
          exact absurd hne (by simp [EncResult.isErr])
      | fatal m =>
          simp only [hb]
          rfl
  | Imul =>
      rw [show Instruction.leaMoveMismatch ⟨.Imul, iops⟩ = false from rfl]
      simp only [MicroEncoder.encode]
      cases hb : e.encodeBinop ⟨.Imul, iops⟩ (fun prod a b => .mul prod a b) with
      | ok p =>
          obtain ⟨e1, l, r⟩ := p
          simp only [hb]
          rfl
      | err m =>
          have hne := encodeBinop_isErr e ⟨.Imul, iops⟩ (fun prod a b => .mul prod a b)
          rw [hb] at hne
          exact absurd hne (by simp [EncResult.isErr])
      | fatal m =>
          simp only [hb]
          rfl
  | Mov =>
      rw [show Instruction.leaMoveMismatch ⟨.Mov, iops⟩ = false from rfl]
      simp only [MicroEncoder.encode]
      rcases getOperand_cases ⟨.Mov, iops⟩ 0 with ⟨o0, hg0⟩ | ⟨m, hg0⟩
      · simp only [hg0]
        rcases getOperand_cases ⟨.Mov, iops⟩ 1 with ⟨o1, hg1⟩ | ⟨m, hg1⟩
        · simp only [hg1]
          cases hgl0 : e.encodeGetLocation o0 with
          | mk e1 dest =>
            cases hgl1 : e1.encodeGetLocation o1 with
            | mk e2 src =>
              simp only [hgl0, hgl1]
              by_cases hdt : dest.dataType = src.dataType
              · rw [if_neg (not_not_intro hdt)]
                rw [encodeMove_ok_of_eq e2 dest src hdt.symm]
                rfl
              · rw [if_pos hdt]
                exact encodeMoveCasted_isErr _ _ _
        · simp only [hg1]
          rfl
      · simp only [hg0]
        rfl
  | Movzx =>
      rw [show Instruction.leaMoveMismatch ⟨.Movzx, iops⟩ = false from rfl]
      simp only [MicroEncoder.encode]
      exact encodeMoveCasted_isErr e ⟨.Movzx, iops⟩ false
  | Lea =>
      cases iops with
      | nil => rfl
      | cons o0 tl =>
        cases tl with
        | nil => rfl
        | cons o1 rest =>
          have hg0 : (⟨.Lea, o0 :: o1 :: rest⟩ : Instruction).getOperand 0 = .ok o0 := rfl
          have hg1 : (⟨.Lea, o0 :: o1 :: rest⟩ : Instruction).getOperand 1 = .ok o1 := rfl
          simp only [MicroEncoder.encode, hg0, hg1]
          cases hgl0 : e.encodeGetLocation o0 with
          | mk e1 dest =>
            obtain ⟨hstep, hr, hdt⟩ :=
              encodeGetLocation_spec 0 e o0 e1 dest (Nat.zero_le _) hgl0
            simp only [hgl0]
            cases o1 with
            | direct r =>
                rw [show Instruction.leaMoveMismatch
                  ⟨.Lea, o0 :: .direct r :: rest⟩ = false from rfl]
                rfl
            | indirect dt r =>
                have hgl1 : e1.encodeGetLocation (.indirect dt r) =
                    ({ e1 with
                        ops := e1.ops ++ [.mov (.temp ⟨r.dataType, e1.temps⟩)
                          (.direct r.dataType 1 r.address)],
                        temps := e1.temps + 1 },
                     .indirect dt 0 ⟨r.dataType, e1.temps⟩) := rfl
                simp only [hgl1]
                have hlea : Instruction.leaMoveMismatch
                    ⟨.Lea, o0 :: .indirect dt r :: rest⟩ =
                    (r.dataType != o0.dataType) := rfl
                rw [hlea]
                by_cases hw : r.dataType = dest.dataType
                · rw [encodeMove_ok_of_eq _ dest (.temp ⟨r.dataType, e1.temps⟩) hw]
                  rw [hdt] at hw
                  simp [EncResult.isErr, hw]
                · rw [encodeMove_err _ dest (.temp ⟨r.dataType, e1.temps⟩) hw]
                  rw [hdt] at hw
                  simp [EncResult.isErr, hw]
            | indirectDisplaced dt r displace =>
                have hgl1 : e1.encodeGetLocation (.indirectDisplaced dt r displace) =
                    ({ e1 with
                        ops := (e1.ops ++ [.mov (.temp ⟨r.dataType, e1.temps⟩)
                            (.direct r.dataType 1 r.address)]) ++
                          [.const (.temp ⟨.n64, e1.temps + 1⟩)
                              ⟨.n64, u64ofInt displace⟩,
                            .add ⟨.n64, e1.temps + 2⟩ ⟨r.dataType, e1.temps⟩
                              ⟨.n64, e1.temps + 1⟩],
                        temps := e1.temps + 1 + 2 },
                     .indirect dt 0 ⟨.n64, e1.temps + 2⟩) := rfl
                simp only [hgl1]
                have hlea : Instruction.leaMoveMismatch
                    ⟨.Lea, o0 :: .indirectDisplaced dt r displace :: rest⟩ =
                    (DataType.n64 != o0.dataType) := rfl
                rw [hlea]
                by_cases hw : DataType.n64 = dest.dataType
                · rw [encodeMove_ok_of_eq _ dest (.temp ⟨.n64, e1.temps + 2⟩) hw]
                  rw [hdt] at hw
                  simp [EncResult.isErr, hw]
                · rw [encodeMove_err _ dest (.temp ⟨.n64, e1.temps + 2⟩) hw]
                  rw [hdt] at hw
                  simp [EncResult.isErr, hw]
            | immediate dt v =>
                rw [show Instruction.leaMoveMismatch
                  ⟨.Lea, o0 :: .immediate dt v :: rest⟩ = false from rfl]
                rfl
            | offset off =>
                rw [show Instruction.leaMoveMismatch
                  ⟨.Lea, o0 :: .offset off :: rest⟩ = false from rfl]
                rfl
  | Push =>
      rw [show Instruction.leaMoveMismatch ⟨.Push, iops⟩ = false from rfl]
      simp only [MicroEncoder.encode]
      rcases getOperand_cases ⟨.Push, iops⟩ 0 with ⟨o0, hg0⟩ | ⟨m, hg0⟩
      · simp only [hg0]
        cases hgl : e.encodeGetLocation o0 with
        | mk e1 src =>
            simp only [hgl]
            obtain ⟨hstep, hr, _⟩ :=
              encodeGetLocation_spec 0 e o0 e1 src (Nat.zero_le _) hgl
            obtain ⟨e2, hok, _⟩ := encodePush_spec 0 e1 src (Nat.zero_le _) hr
            rw [hok]
            rfl
      · simp only [hg0]
        rfl
  | Pop =>
      rw [show Instruction.leaMoveMismatch ⟨.Pop, iops⟩ = false from rfl]
      simp only [MicroEncoder.encode]
      rcases getOperand_cases ⟨.Pop, iops⟩ 0 with ⟨o0, hg0⟩ | ⟨m, hg0⟩
      · simp only [hg0]
        cases hgl : e.encodeGetLocation o0 with
        | mk e1 dest =>
            simp only [hgl]
            obtain ⟨hstep, hr, _⟩ :=
              encodeGetLocation_spec 0 e o0 e1 dest (Nat.zero_le _) hgl
            obtain ⟨e2, hok, _⟩ := encodePop_spec 0 e1 dest (Nat.zero_le _) hr
            rw [hok]
            rfl
      · simp only [hg0]
        rfl
  | Jmp =>
      rw [show Instruction.leaMoveMismatch ⟨.Jmp, iops⟩ = false from rfl]
      simp only [MicroEncoder.encode]
      rcases getOperand_cases ⟨.Jmp, iops⟩ 0 with ⟨o0, hg0⟩ | ⟨m, hg0⟩
      · simp only [hg0]
        exact encodeJump_isErr e o0 .cTrue
      · simp only [hg0]
        rfl
  | Je =>
      rw [show Instruction.leaMoveMismatch ⟨.Je, iops⟩ = false from rfl]
      simp only [MicroEncoder.encode]
      rcases getOperand_cases ⟨.Je, iops⟩ 0 with ⟨o0, hg0⟩ | ⟨m, hg0⟩
      · simp only [hg0]
        rcases getComparison_cases e with ⟨c, hc⟩ | ⟨m, hc⟩
        · simp only [hc]
          exact encodeJump_isErr e o0 (.equal c)
        · simp only [hc]
          rfl
      · simp only [hg0]
        rfl
  | Jg =>
      rw [show Instruction.leaMoveMismatch ⟨.Jg, iops⟩ = false from rfl]
      simp only [MicroEncoder.encode]
      rcases getOperand_cases ⟨.Jg, iops⟩ 0 with ⟨o0, hg0⟩ | ⟨m, hg0⟩
      · simp only [hg0]
        rcases getComparison_cases e with ⟨c, hc⟩ | ⟨m, hc⟩
        · simp only [hc]
          exact encodeJump_isErr e o0 (.greater c)
        · simp only [hc]
          rfl
      · simp only [hg0]
        rfl
  | Call =>
      rw [show Instruction.leaMoveMismatch ⟨.Call, iops⟩ = false from rfl]
      simp only [MicroEncoder.encode]
      cases hgl : e.encodeGetLocation (.direct .RIP) with
      | mk e1 rip =>
          simp only [hgl]
          obtain ⟨hstep, hr, _⟩ :=
            encodeGetLocation_spec 0 e (.direct .RIP) e1 rip (Nat.zero_le _) hgl
          obtain ⟨e2, hok, _⟩ := encodePush_spec 0 e1 rip (Nat.zero_le _) hr
          simp only [hok]
          rcases getOperand_cases ⟨.Call, iops⟩ 0 with ⟨o0, hg0⟩ | ⟨m, hg0⟩
          · simp only [hg0]
            exact encodeJump_isErr e2 o0 .cTrue
          · simp only [hg0]
            rfl
  | Leave =>
      rw [show Instruction.leaMoveMismatch ⟨.Leave, iops⟩ = false from rfl]
      simp only [MicroEncoder.encode]
      cases hgl0 : e.encodeGetLocation (.direct .RBP) with
      | mk ea rbp =>
        cases hgl1 : ea.encodeGetLocation (.direct .RSP) with
        | mk eb rsp =>
          obtain ⟨hstep0, hrb, hdtb⟩ :=
            encodeGetLocation_spec 0 e (.direct .RBP) ea rbp (Nat.zero_le _) hgl0
          obtain ⟨hstep1, hrs, hdts⟩ :=
            encodeGetLocation_spec 0 ea (.direct .RSP) eb rsp (Nat.zero_le _) hgl1
          simp only [hgl0, hgl1]
          have hw : rbp.dataType = rsp.dataType := by
            rw [hdtb, hdts]
            rfl
          rw [encodeMove_ok_of_eq eb rsp rbp hw]
          simp only [EncResult.unwrap]
          obtain ⟨e2, hok, _⟩ := encodePop_spec 0
            { eb with ops := eb.ops ++ [.mov rsp rbp] } rbp (Nat.zero_le _)
            (hrb.mono hstep1.temps_le)
          simp only [hok]
          rfl
  | Ret =>
      rw [show Instruction.leaMoveMismatch ⟨.Ret, iops⟩ = false from rfl]
      simp only [MicroEncoder.encode]
      have hdest : LocInRange 0 ({ e with temps := e.temps + 1 } : MicroEncoder).temps
          (.temp ⟨.n64, e.temps⟩) := by
        intro i hi
        simp only [Location.tempIdxs, List.mem_singleton] at hi
        subst hi
        exact ⟨Nat.zero_le _, Nat.lt_succ_self _⟩
      obtain ⟨e2, hok, _⟩ := encodePop_spec 0 { e with temps := e.temps + 1 }
        (.temp ⟨.n64, e.temps⟩) (Nat.zero_le _) hdest
      simp only [hok]
      rfl
  | Cmp =>
      rw [show Instruction.leaMoveMismatch ⟨.Cmp, iops⟩ = false from rfl]
      simp only [MicroEncoder.encode]
      cases hlb : e.encodeLoadBoth ⟨.Cmp, iops⟩ with
      | ok p =>
          obtain ⟨e1, ⟨d, l⟩, s, r⟩ := p
          simp only [hlb]
          rfl
      | err m =>
          have hne := encodeLoadBoth_isErr e ⟨.Cmp, iops⟩
          rw [hlb] at hne
          exact absurd hne (by simp [EncResult.isErr])
      | fatal m =>
          simp only [hlb]
          rfl
  | Test =>
      rw [show Instruction.leaMoveMismatch ⟨.Test, iops⟩ = false from rfl]
      simp only [MicroEncoder.encode]
      cases hlb : e.encodeLoadBoth ⟨.Test, iops⟩ with
      | ok p =>
          obtain ⟨e1, ⟨d, l⟩, s, r⟩ := p
          simp only [hlb]
          rfl
      | err m =>
          have hne := encodeLoadBoth_isErr e ⟨.Test, iops⟩
          rw [hlb] at hne
          exact absurd hne (by simp [EncResult.isErr])
      | fatal m =>
          simp only [hlb]
          rfl
  | Setl =>
      rw [show Instruction.leaMoveMismatch ⟨.Setl, iops⟩ = false from rfl]
      simp only [MicroEncoder.encode]
      rcases getOperand_cases ⟨.Setl, iops⟩ 0 with ⟨o0, hg0⟩ | ⟨m, hg0⟩
      · simp only [hg0]
        rcases getComparison_cases e with ⟨c, hc⟩ | ⟨m, hc⟩
        · simp only [hc]
          obtain ⟨e1, hok, _⟩ := encodeSet_spec 0 e o0 (.less c) (Nat.zero_le _)
          rw [hok]
          rfl
        · simp only [hc]
          rfl
      · simp only [hg0]
        rfl
  | Syscall => rfl
  | Nop => rfl

/-- C8: encode returns the recoverable structured error exactly when a width
mismatch reaches encode_move uncaught by the coercion layer, which happens
precisely for a Lea whose indirect source address temporary disagrees in width
with the destination (for a plain indirect source the address temporary has the
base register's width, for a displaced one it is 64-bit); a conditional jump or
set without a prior comparison, a Lea from a direct register, and a Jmp to a
direct register are fatal panics, never returned errors. -/
theorem c8_error_classification :
    (∀ (e : MicroEncoder) (inst : Instruction),
      (e.encode inst).isErr = inst.leaMoveMismatch) ∧
    (∀ (e : MicroEncoder) (o0 : Operand) (rest : List Operand),
      e.lastComparison = none →
      (e.encode ⟨.Je, o0 :: rest⟩).isFatal = true ∧
      (e.encode ⟨.Jg, o0 :: rest⟩).isFatal = true ∧
      (e.encode ⟨.Setl, o0 :: rest⟩).isFatal = true) ∧
    (∀ (e : MicroEncoder) (o0 : Operand) (r : Register) (rest : List Operand),
      (e.encode ⟨.Lea, o0 :: .direct r :: rest⟩).isFatal = true) ∧
    (∀ (e : MicroEncoder) (r : Register) (rest : List Operand),
      (e.encode ⟨.Jmp, .direct r :: rest⟩).isFatal = true) := by
  refine ⟨encode_isErr_eq, ?_, ?_, ?_⟩
  · intro e o0 rest h
    have hgc : e.getComparison = .fatal "jump or set without previous comparison" := by
      simp [MicroEncoder.getComparison, h]
    refine ⟨?_, ?_, ?_⟩
    · have hg0 : (⟨.Je, o0 :: rest⟩ : Instruction).getOperand 0 = .ok o0 := rfl
      simp only [MicroEncoder.encode, hg0, hgc]
      rfl
    · have hg0 : (⟨.Jg, o0 :: rest⟩ : Instruction).getOperand 0 = .ok o0 := rfl
      simp only [MicroEncoder.encode, hg0, hgc]
      rfl
    · have hg0 : (⟨.Setl, o0 :: rest⟩ : Instruction).getOperand 0 = .ok o0 := rfl
      simp only [MicroEncoder.encode, hg0, hgc]
      rfl
  · intro e o0 r rest
    have hg0 : (⟨.Lea, o0 :: .direct r :: rest⟩ : Instruction).getOperand 0 = .ok o0 := rfl
    have hg1 : (⟨.Lea, o0 :: .direct r :: rest⟩ : Instruction).getOperand 1 =
        .ok (.direct r) := rfl
    simp only [MicroEncoder.encode, hg0, hg1]
    cases hgl0 : e.encodeGetLocation o0 with
    | mk e1 dest =>
        simp only [hgl0]
        rfl
  · intro e r rest
    rfl

/-- Witness for C8 at concrete inputs: a displaced Lea into a 32-bit register
is the structured error, and the comparison-less Je/Jg/Setl, direct-source Lea
and direct-target Jmp shapes are panics. -/
theorem c8_error_classification_witness :
    (MicroEncoder.new.encode
      ⟨.Lea, [.direct .EAX, .indirectDisplaced .n32 .RAX 4]⟩).isErr = true ∧
    (MicroEncoder.new.lastComparison = none ∧
     (MicroEncoder.new.encode ⟨.Je, [.offset 7]⟩).isFatal = true ∧
     (MicroEncoder.new.encode ⟨.Jg, [.offset 7]⟩).isFatal = true ∧
     (MicroEncoder.new.encode ⟨.Setl, [.offset 7]⟩).isFatal = true) ∧
    (MicroEncoder.new.encode ⟨.Lea, [.direct .RAX, .direct .RBX]⟩).isFatal = true ∧
    (MicroEncoder.new.encode ⟨.Jmp, [.direct .RAX]⟩).isFatal = true := by
  refine ⟨?_, ?_, ?_, ?_⟩
  · have h := c8_error_classification.1 MicroEncoder.new
      ⟨.Lea, [.direct .EAX, .indirectDisplaced .n32 .RAX 4]⟩
    rw [h]
    decide
  · exact ⟨rfl, c8_error_classification.2.1 MicroEncoder.new (.offset 7) [] rfl⟩
  · exact c8_error_classification.2.2.1 MicroEncoder.new (.direct .RAX) .RBX []
  · exact c8_error_classification.2.2.2 MicroEncoder.new .RAX []

lemma syscallLoop_succ (isRead : Bool) (buf : SymExpr) (i k : Nat) (s : SymState) :
    SymState.syscallLoop isRead buf i (k + 1) s =
      ((SymState.syscallLoop isRead buf (i + 1) k (s.syscallStep isRead buf i).1).1,
       (s.syscallStep isRead buf i).2 ::
         (SymState.syscallLoop isRead buf (i + 1) k (s.syscallStep isRead buf i).1).2) := by
  simp only [SymState.syscallLoop]

lemma syscallStep_proj (s : SymState) (isRead : Bool) (buf : SymExpr) (i : Nat) :
    streamCount isRead (s.syscallStep isRead buf i).1 = streamCount isRead s + 1 ∧
    (s.syscallStep isRead buf i).1.ip = s.ip ∧
    (s.syscallStep isRead buf i).1.trace = s.trace ∧
    ((s.syscallStep isRead buf i).1.memMain.data =
       if isRead then
         s.memMain.data.writeExpr (buf.add (SymExpr.fromPtr i))
           (.sym ⟨.n8, "stdin", s.stdinSymbols⟩)
       else s.memMain.data) ∧
    ((s.syscallStep isRead buf i).1.symbolMap = fun sy =>
       if sy = syscallSymbol isRead (streamCount isRead s) then
         some (syscallLocation s.ip s.trace i)
       else s.symbolMap sy) ∧
    (s.syscallStep isRead buf i).2 =
      (syscallSymbol isRead (streamCount isRead s), syscallAccess buf i) := by
  cases isRead <;> exact ⟨rfl, rfl, rfl, rfl, rfl, rfl⟩

lemma syscallLoop_spec (isRead : Bool) (buf : SymExpr) :
    ∀ (k i : Nat) (s : SymState),
    (SymState.syscallLoop isRead buf i k s).2 =
      (List.range k).map (fun j =>
        (syscallSymbol isRead (streamCount isRead s + j), syscallAccess buf (i + j))) ∧
    streamCount isRead (SymState.syscallLoop isRead buf i k s).1 =
      streamCount isRead s + k ∧
    (∀ j, j < k →
      (SymState.syscallLoop isRead buf i k s).1.symbolMap
          (syscallSymbol isRead (streamCount isRead s + j)) =
        some (syscallLocation s.ip s.trace (i + j))) ∧
    (∀ sy : Symbol, sy.idx < streamCount isRead s →
      (SymState.syscallLoop isRead buf i k s).1.symbolMap sy = s.symbolMap sy) ∧
    (isRead = true →
      (SymState.syscallLoop isRead buf i k s).1.memMain.data =
        (List.range k).foldl (fun d j =>
          d.writeExpr (buf.add (SymExpr.fromPtr (i + j)))
            (.sym ⟨.n8, "stdin", s.stdinSymbols + j⟩)) s.memMain.data) ∧
    (isRead = false →
      (SymState.syscallLoop isRead buf i k s).1.memMain.data = s.memMain.data) := by
  intro k
  induction k with
  | zero =>
      intro i s
      refine ⟨rfl, rfl, ?_, ?_, ?_, ?_⟩
      · intro j hj
        exact absurd hj (Nat.not_lt_zero j)
      · intro sy _
        rfl
      · intro _
        rfl
      · intro _
        rfl
  | succ k ih =>
      intro i s
      obtain ⟨hct, hip, htr, hmem, hmap, hloc⟩ := syscallStep_proj s isRead buf i
      obtain ⟨ihlocs, ihcount, ihmap, ihpres, ihmemT, ihmemF⟩ :=
        ih (i + 1) (s.syscallStep isRead buf i).1
      rw [syscallLoop_succ]
      refine ⟨?_, ?_, ?_, ?_, ?_, ?_⟩
      · show (s.syscallStep isRead buf i).2 :: _ = _
        rw [hloc, ihlocs, hct, List.range_succ_eq_map, List.map_cons, List.map_map]
        congr 1
        apply List.map_congr_left
        intro j hj
        simp only [Function.comp]
        have e1 : streamCount isRead s + 1 + j = streamCount isRead s + (j + 1) := by
          omega
        have e2 : i + 1 + j = i + (j + 1) := by
          omega
        rw [e1, e2]
      · show streamCount isRead (SymState.syscallLoop isRead buf (i + 1) k
          (s.syscallStep isRead buf i).1).1 = _
        rw [ihcount, hct]
        omega
      · intro j hj
        show (SymState.syscallLoop isRead buf (i + 1) k
          (s.syscallStep isRead buf i).1).1.symbolMap _ = _
        cases j with
        | zero =>
            rw [ihpres _ (by
              rw [hct]
              show streamCount isRead s + 0 < streamCount isRead s + 1
              omega)]
            simp [hmap]
        | succ j' =>
            have hj' : j' < k := by omega
            have hmain := ihmap j' hj'
            rw [hct] at hmain
            have e1 : streamCount isRead s + 1 + j' = streamCount isRead s + (j' + 1) := by
              omega
            have e2 : i + 1 + j' = i + (j' + 1) := by
              omega
            rw [e1, e2, hip, htr] at hmain
            exact hmain
      · intro sy hidx
        show (SymState.syscallLoop isRead buf (i + 1) k
          (s.syscallStep isRead buf i).1).1.symbolMap sy = _
        rw [ihpres sy (by rw [hct]; omega)]
        simp only [hmap]
        rw [if_neg (by
          intro h
          rw [h] at hidx
          simp [syscallSymbol, streamNs] at hidx)]
      · intro hR
        show (SymState.syscallLoop isRead buf (i + 1) k
          (s.syscallStep isRead buf i).1).1.memMain.data = _
        subst hR
        have hmemT2 : (s.syscallStep true buf i).1.memMain.data =
            s.memMain.data.writeExpr (buf.add (SymExpr.fromPtr i))
              (.sym ⟨.n8, "stdin", s.stdinSymbols⟩) := by
          rw [hmem]
          exact if_pos rfl
        have hin : (s.syscallStep true buf i).1.stdinSymbols = s.stdinSymbols + 1 := hct
        rw [ihmemT rfl, hmemT2, hin]
        rw [List.range_succ_eq_map, List.foldl_cons, List.foldl_map]
        have hfun : (fun (d : MemoryData) (j : Nat) =>
            d.writeExpr (buf.add (SymExpr.fromPtr (i + 1 + j)))
              (.sym ⟨.n8, "stdin", s.stdinSymbols + 1 + j⟩)) =
            (fun (d : MemoryData) (j : Nat) =>
            d.writeExpr (buf.add (SymExpr.fromPtr (i + (j + 1))))
              (.sym ⟨.n8, "stdin", s.stdinSymbols + (j + 1)⟩)) := by
          funext d j
          have e1 : i + 1 + j = i + (j + 1) := by omega
          have e2 : s.stdinSymbols + 1 + j = s.stdinSymbols + (j + 1) := by omega
          rw [e1, e2]
        rw [hfun]
        rfl
      · intro hR
        show (SymState.syscallLoop isRead buf (i + 1) k
          (s.syscallStep isRead buf i).1).1.memMain.data = _
        subst hR
        rw [ihmemF rfl, hmem]
        exact if_neg Bool.false_ne_true

/-- C7: stepping a Syscall with RAX a concrete n64 integer 0 (read) or 1
(write) and RDX a concrete n64 count produces exactly one Stdio event listing,
for i from 0 to count-1, the fresh n8 symbol with per-stream increasing index
in namespace stdin/stdout paired with the access at RSI + i; the stream
counter advances by the count; each symbol's recorded abstract location
carries displacement Some(i) exactly when i > 0; for reads each symbol is
written to main memory at RSI + i; a non-concrete count is fatal. The register
reads are taken on the state after step's initial RIP write. -/
theorem c7_syscall_behavior :
    (∀ (solver : Solver) (s : SymState) (addr num bytes : Nat) (buf : SymExpr)
      (s2 s3 s4 : SymState),
      ({ s.setReg .RIP (SymExpr.fromPtr addr) with ip := addr } : SymState).getReg
          solver .RAX = (.int ⟨.n64, num⟩, s2) →
      num = 0 ∨ num = 1 →
      s2.getReg solver .RSI = (buf, s3) →
      s3.getReg solver .RDX = (.int ⟨.n64, bytes⟩, s4) →
      (s.step solver addr .syscall =
        .ok (some (.stdio (if num = 0 then .Stdin else .Stdout)
          ((List.range bytes).map (fun j =>
            (syscallSymbol (num == 0) (streamCount (num == 0) s4 + j),
             syscallAccess buf j)))),
          (SymState.syscallLoop (num == 0) buf 0 bytes s4).1) ∧
       streamCount (num == 0) (SymState.syscallLoop (num == 0) buf 0 bytes s4).1 =
         streamCount (num == 0) s4 + bytes ∧
       (∀ j, j < bytes →
         (SymState.syscallLoop (num == 0) buf 0 bytes s4).1.symbolMap
             (syscallSymbol (num == 0) (streamCount (num == 0) s4 + j)) =
           some (syscallLocation s4.ip s4.trace j)) ∧
       (num = 0 →
         (SymState.syscallLoop (num == 0) buf 0 bytes s4).1.memMain.data =
           (List.range bytes).foldl (fun d j =>
             d.writeExpr (buf.add (SymExpr.fromPtr j))
               (.sym ⟨.n8, "stdin", s4.stdinSymbols + j⟩)) s4.memMain.data))) ∧
    (∀ (solver : Solver) (s : SymState) (addr num : Nat) (buf c : SymExpr)
      (s2 s3 s4 : SymState),
      ({ s.setReg .RIP (SymExpr.fromPtr addr) with ip := addr } : SymState).getReg
          solver .RAX = (.int ⟨.n64, num⟩, s2) →
      num = 0 ∨ num = 1 →
      s2.getReg solver .RSI = (buf, s3) →
      s3.getReg solver .RDX = (c, s4) →
      (∀ b, c ≠ .int ⟨.n64, b⟩) →
      s.step solver addr .syscall = .fatal "do_syscall: read: unknown byte count") := by
  constructor
  · intro solver s addr num bytes buf s2 s3 s4 hrax h01 hrsi hrdx
    obtain ⟨hlocs, hcount, hmap, hpres, hmemT, hmemF⟩ :=
      syscallLoop_spec (num == 0) buf bytes 0 s4
    rcases h01 with rfl | rfl
    · refine ⟨?_, hcount, ?_, ?_⟩
      · dsimp only [] at hrax
        simp only [SymState.step, hrax]
        simp only [SymState.doSyscall]
        rw [if_pos (Or.inl trivial : True ∨ (0 : Nat) = 1)]
        simp only [hrsi, hrdx]
        cases hlp : SymState.syscallLoop (0 == 0) buf 0 bytes s4 with
        | mk s5 locs =>
            simp only [hlp] at hlocs ⊢
            rw [hlocs]
            simp [Nat.zero_add]
      · intro j hj
        have hmain := hmap j hj
        rw [Nat.zero_add] at hmain
        exact hmain
      · intro _
        have hmain := hmemT rfl
        simp only [Nat.zero_add] at hmain
        exact hmain
    · refine ⟨?_, hcount, ?_, ?_⟩
      · dsimp only [] at hrax
        simp only [SymState.step, hrax]
        simp only [SymState.doSyscall]
        rw [if_pos (Or.inr trivial : (1 : Nat) = 0 ∨ True)]
        simp only [hrsi, hrdx]
        cases hlp : SymState.syscallLoop (1 == 0) buf 0 bytes s4 with
        | mk s5 locs =>
            simp only [hlp] at hlocs ⊢
            rw [hlocs]
            simp [Nat.zero_add]
      · intro j hj
        have hmain := hmap j hj
        rw [Nat.zero_add] at hmain
        exact hmain
      · intro h
        exact absurd h Nat.one_ne_zero
  · intro solver s addr num buf c s2 s3 s4 hrax h01 hrsi hrdx hnc
    dsimp only [] at hrax
    simp only [SymState.step, hrax]
    simp only [SymState.doSyscall]
    rw [if_pos h01]
    simp only [hrsi, hrdx]

/-- Witness for C7 at concrete inputs: a read syscall of 2 bytes on c7State
produces the Stdin event with the two fresh stdin symbols, and the same
syscall with a symbolic RDX count is fatal. -/
theorem c7_syscall_behavior_witness :
    (c7State.step permissiveSolver 7 .syscall =
      .ok (some (.stdio .Stdin
        ((List.range 2).map (fun j =>
          (syscallSymbol true (streamCount true c7s4 + j), syscallAccess c7buf j)))),
        (SymState.syscallLoop true c7buf 0 2 c7s4).1)) ∧
    c7Bad.step permissiveSolver 3 .syscall =
      .fatal "do_syscall: read: unknown byte count" := by
  constructor
  · exact (c7_syscall_behavior.1 permissiveSolver c7State 7 0 2 c7buf c7s2 c7s3 c7s4
      rfl (Or.inl rfl) rfl rfl).1
  · exact c7_syscall_behavior.2 permissiveSolver c7Bad 3 1 c7bbuf c7bcount c7bs2 c7bs3
      c7bs4 rfl (Or.inr rfl) rfl rfl
      (by
        intro b h
        rw [show c7bcount = SymExpr.sym ⟨.n64, "reg", 1⟩ from rfl] at h
        simp at h)

/-- C9: the temporary store is keyed by index alone: set_temp overwrites the
entry at its index whatever width that entry formerly had (it only checks the
new value against its own width tag, and is fatal when they disagree);
get_temp is fatal unless the most recently stored expression at the index has
the requested width (fatal also when the index is unbound); after a Cast
micro-operation re-binds an index at the new width, reading the index at the
old width is fatal while the new width yields the cast expression. -/
theorem c9_temp_map_keyed_by_index :
    (∀ (s : SymState) (temp : Temporary) (v : SymExpr),
      (temp.dt = v.dataType →
        ∃ s1, s.setTemp temp v = .ok s1 ∧
          s1.temporaries temp.idx = some v ∧
          (∀ j, j ≠ temp.idx → s1.temporaries j = s.temporaries j)) ∧
      (temp.dt ≠ v.dataType →
        s.setTemp temp v = .fatal "set_temp: incompatible data types")) ∧
    (∀ (s : SymState) (w : DataType) (i : Nat),
      (s.temporaries i = none →
        s.getTemp ⟨w, i⟩ = .fatal "get_temp: missing temporary") ∧
      (∀ e, s.temporaries i = some e →
        (w = e.dataType → s.getTemp ⟨w, i⟩ = .ok e) ∧
        (w ≠ e.dataType →
          s.getTemp ⟨w, i⟩ = .fatal "get_temp: incompatible data types"))) ∧
    (∀ (solver : Solver) (s : SymState) (addr : Nat) (target : Temporary)
      (new : DataType) (signed : Bool) (value : SymExpr),
      ({ s.setReg .RIP (SymExpr.fromPtr addr) with ip := addr } : SymState).getTemp
          target = .ok value →
      new ≠ target.dt →
      ∃ s2, s.step solver addr (.cast target new signed) = .ok (none, s2) ∧
        s2.temporaries target.idx = some (value.cast new signed) ∧
        s2.getTemp ⟨new, target.idx⟩ = .ok (value.cast new signed) ∧
        s2.getTemp ⟨target.dt, target.idx⟩ =
          .fatal "get_temp: incompatible data types") := by
  refine ⟨?_, ?_, ?_⟩
  · intro s temp v
    constructor
    · intro hw
      rw [SymState.setTemp, if_pos hw]
      refine ⟨_, rfl, ?_, ?_⟩
      · simp
      · intro j hj
        simp [hj]
    · intro hw
      rw [SymState.setTemp, if_neg hw]
  · intro s w i
    constructor
    · intro h
      simp [SymState.getTemp, h]
    · intro e h
      constructor
      · intro hw
        simp [SymState.getTemp, h, hw]
      · intro hw
        simp only [SymState.getTemp, h]
        rw [if_neg hw]
  · intro solver s addr target new signed value hget hne
    dsimp only [] at hget
    simp only [SymState.step, hget]
    simp only [SymState.setTemp, SymExpr.dataType, if_true]
    refine ⟨_, rfl, ?_, ?_, ?_⟩
    · simp
    · simp [SymState.getTemp, SymExpr.dataType]
    · simp [SymState.getTemp, SymExpr.dataType, Ne.symm hne]

/-- Witness for C9 at concrete inputs: a 32-bit write to index 0 of a blank
state, a fatal read of an unbound index, and a Cast of the 32-bit entry at
index 0 to 64 bits after which the 32-bit read of index 0 is fatal. -/
theorem c9_temp_map_keyed_by_index_witness :
    (∃ s1, (SymState.new .PerfectMatches).setTemp ⟨.n32, 0⟩ (.int ⟨.n32, 5⟩) =
        .ok s1 ∧
      s1.temporaries 0 = some (.int ⟨.n32, 5⟩) ∧
      (∀ j, j ≠ 0 → s1.temporaries j = (SymState.new .PerfectMatches).temporaries j)) ∧
    (SymState.new .PerfectMatches).getTemp ⟨.n32, 0⟩ =
      .fatal "get_temp: missing temporary" ∧
    (∃ s2, c9State.step permissiveSolver 2 (.cast ⟨.n32, 0⟩ .n64 true) =
        .ok (none, s2) ∧
      s2.temporaries 0 = some ((SymExpr.int ⟨.n32, 5⟩).cast .n64 true) ∧
      s2.getTemp ⟨.n64, 0⟩ = .ok ((SymExpr.int ⟨.n32, 5⟩).cast .n64 true) ∧
      s2.getTemp ⟨.n32, 0⟩ = .fatal "get_temp: incompatible data types") := by
  refine ⟨?_, ?_, ?_⟩
  · exact (c9_temp_map_keyed_by_index.1 (SymState.new .PerfectMatches) ⟨.n32, 0⟩
      (.int ⟨.n32, 5⟩)).1 rfl
  · exact (c9_temp_map_keyed_by_index.2.1 (SymState.new .PerfectMatches) .n32 0).1 rfl
  · exact c9_temp_map_keyed_by_index.2.2 permissiveSolver c9State 2 ⟨.n32, 0⟩ .n64 true
      (.int ⟨.n32, 5⟩) rfl (by decide)

end Slice
